import Mathlib

/-!
# The GDBM binding of ruby-vita (`ext/gdbm/gdbm.c`)

A shallow embedding of the binding: every `fgdbm_*` / `rb_gdbm_*` function of
`gdbm.c` becomes a Lean function over an explicit interpreter state.  The two
collaborators that are not part of `gdbm.c` (the gdbm engine behind `gdbm.h`
and the Ruby runtime behind `ruby.h`) are modelled by small executable
definitions, each marked as such.

Conventions
* a C function that can raise returns `Except Exc α × World σ`: the state is
  kept when an exception is raised (`di_size` may already have been changed);
* a C function with a `firstkey` / `nextkey` loop takes a `fuel : Nat` and
  returns `none` when the fuel runs out before the loop ends;
* `di_size` and the record counters are unbounded integers: the engine's file
  format keeps the number of records far below the range of a C `int`.
-/

namespace Gdbm

/-! ## Data -/

/-- One byte of a key or of a value. -/
abbrev Byte := Fin 256

/-- The contents of a gdbm `datum` whose `dptr` is not null; a null `dptr` is
the `none` of `Option datum`. -/
abbrev datum := List Byte

/-- Modelled from the spec: the engine handle `GDBM_FILE` of the external gdbm
library (`gdbm.h`), which is not part of the sources.  The spec describes it
as a set of records with unique keys and a cursor that walks them in an
implementation-defined order: `recs` lists the live records in the current
traversal order, `writer` tells whether the file was opened for writing,
`slot` is the engine's choice of the traversal position of a new key, and
`settle` its choice of the order of the remaining records after a deletion.
`fast_write` and `cache_set` are the two tuning switches of `gdbm_setopt`. -/
structure GDBM_FILE where
  recs : List (datum × datum)
  writer : Bool
  fast_write : Bool
  cache_set : Bool
  slot : datum → List (datum × datum) → Nat
  settle : datum → List (datum × datum) → List (datum × datum)

/-- The `struct dbmdata` of `gdbm.c`: the cached record count (`-1` when it is
not known) and the engine handle (`none` for the null pointer). -/
structure dbmdata where
  di_size : Int
  di_dbm : Option GDBM_FILE

/-- Modelled from the spec: a Ruby `VALUE` (`ruby.h` is not part of the
sources).  Strings carry their bytes and their taint mark; `data` is the GDBM
object itself. -/
inductive VALUE where
  | Qnil : VALUE
  | Qtrue : VALUE
  | Qfalse : VALUE
  | fix (n : Int) : VALUE
  | str (bytes : List Byte) (tainted : Bool) : VALUE
  | ary (elts : List VALUE) : VALUE
  | hash (tbl : List (VALUE × VALUE)) : VALUE
  | data : VALUE

/-- Errors and other non-local exits that leave a C function early. -/
inductive Exc where
  | RuntimeError (msg : String)
  | TypeError (msg : String)
  | ArgError (msg : String)
  | IndexError (msg : String)
  | SecurityError
  | RangeError
  | LocalJumpError
  | GDBMError (gdbm_errno : Nat)
  | GDBMFatalError
  | SystemCallError (errno : Int)
  | thrown (tag : Nat)
  deriving DecidableEq

/-- The Ruby object that wraps the handle: `DATA_PTR(obj)` (null before
`initialize`) and the frozen mark. -/
structure RData where
  dptr : Option dbmdata
  frozen : Bool

/-- Interpreter state: the GDBM object, the safe level `$SAFE`, the C `errno`,
and `env`, everything else a block or the file system may hold. -/
structure World (σ : Type) where
  obj : RData
  safe_level : Nat
  errno : Int
  env : σ

/-- A Ruby block: it receives the yielded value, may read and change the whole
interpreter state, and returns a value or leaves by an exception, `break` or
`throw`. -/
abbrev Block (σ : Type) := VALUE → World σ → Except Exc VALUE × World σ

/-! ## The gdbm engine (external library) -/

def GDBM_READER : Nat := 0
def GDBM_WRITER : Nat := 1
def GDBM_WRCREAT : Nat := 2
def GDBM_FILE_OPEN_ERROR : Nat := 3
def GDBM_CANT_BE_READER : Nat := 9
def GDBM_CANT_BE_WRITER : Nat := 10
def GDBM_READER_CANT_DELETE : Nat := 11
def GDBM_READER_CANT_STORE : Nat := 12
def GDBM_ITEM_NOT_FOUND : Nat := 15
def GDBM_OPT_ALREADY_SET : Nat := 19

def EPERM : Int := 1
def ENOENT : Int := 2

/-- Modelled from the spec: `GDBM_OPENMASK` of `gdbm.h`, the bits of the flags
word that hold the open mode; the other bits are option bits. -/
def GDBM_OPENMASK : Nat := 7

/-- Value stored under `key` in a record list, if any. -/
def assoc_get (key : datum) : List (datum × datum) → Option datum
  | [] => none
  | (k, v) :: rest => if k = key then some v else assoc_get key rest

/-- Replace the value of the record of `key`, leaving its position alone. -/
def assoc_set (key val : datum) : List (datum × datum) → List (datum × datum)
  | [] => []
  | (k, v) :: rest =>
    if k = key then (k, val) :: rest else (k, v) :: assoc_set key val rest

/-- Drop the record of `key`. -/
def assoc_del (key : datum) : List (datum × datum) → List (datum × datum)
  | [] => []
  | (k, v) :: rest =>
    if k = key then assoc_del key rest else (k, v) :: assoc_del key rest

/-- Key that follows `key` in a record list. -/
def key_after (key : datum) : List (datum × datum) → Option datum
  | [] => none
  | (k, _) :: rest =>
    if k = key then (rest.head?).map Prod.fst else key_after key rest

/-- Modelled from the spec: `gdbm_fetch` of the engine (`fetch(key) -> value |
NotFound`); `none` is the datum with a null `dptr`. -/
def gdbm_fetch (dbm : GDBM_FILE) (key : datum) : Option datum :=
  assoc_get key dbm.recs

/-- Modelled from the spec: `gdbm_exists` of the engine (`exists(key)`). -/
def gdbm_exists (dbm : GDBM_FILE) (key : datum) : Bool :=
  (assoc_get key dbm.recs).isSome

/-- Modelled from the spec: `gdbm_store` of the engine with `GDBM_REPLACE`
(the only flag `gdbm.c` passes): a reader cannot store; an existing key keeps
its place and gets the new value; a new key is put at the position the engine
chooses.  The error carries `gdbm_errno`; `.ok` is the return value `0`. -/
def gdbm_store (dbm : GDBM_FILE) (key val : datum) : Except Nat GDBM_FILE :=
  if dbm.writer then
    if gdbm_exists dbm key then
      .ok { dbm with recs := assoc_set key val dbm.recs }
    else
      .ok { dbm with
            recs := dbm.recs.take (dbm.slot key dbm.recs) ++
                      (key, val) :: dbm.recs.drop (dbm.slot key dbm.recs) }
  else .error GDBM_READER_CANT_STORE

/-- Modelled from the spec: `gdbm_delete` of the engine (`delete(key) ->
Deleted | NotFound`): a reader cannot delete, a missing key is an error, and
otherwise the record goes and the engine settles the remaining ones. -/
def gdbm_delete (dbm : GDBM_FILE) (key : datum) : Except Nat GDBM_FILE :=
  if dbm.writer then
    if gdbm_exists dbm key then
      .ok { dbm with recs := dbm.settle key (assoc_del key dbm.recs) }
    else .error GDBM_ITEM_NOT_FOUND
  else .error GDBM_READER_CANT_DELETE

/-- Modelled from the spec: `gdbm_firstkey` of the engine (`firstKey() -> Key |
End`). -/
def gdbm_firstkey (dbm : GDBM_FILE) : Option datum :=
  (dbm.recs.head?).map Prod.fst

/-- Modelled from the spec: `gdbm_nextkey` of the engine (`nextKey(currentKey)
-> Key | End`); a key that is not in the file has no successor. -/
def gdbm_nextkey (dbm : GDBM_FILE) (key : datum) : Option datum :=
  key_after key dbm.recs

/-- Modelled from the spec: `gdbm_reorganize` of the engine; the records are
the same afterwards. -/
def gdbm_reorganize (dbm : GDBM_FILE) : GDBM_FILE := dbm

/-- Modelled from the spec: `gdbm_sync` of the engine; the records are the
same afterwards. -/
def gdbm_sync (dbm : GDBM_FILE) : GDBM_FILE := dbm

/-- Modelled from the spec: `gdbm_setopt(dbm, GDBM_CACHESIZE, ..)`: the cache
size can be set once. -/
def gdbm_setopt_cachesize (dbm : GDBM_FILE) (_optval : Int) :
    Except Nat GDBM_FILE :=
  if dbm.cache_set then .error GDBM_OPT_ALREADY_SET
  else .ok { dbm with cache_set := true }

/-- Modelled from the spec: `gdbm_setopt(dbm, GDBM_FASTMODE, ..)`: the fast
write switch takes the truth value of `optval`. -/
def gdbm_setopt_fastmode (dbm : GDBM_FILE) (optval : Int) :
    Except Nat GDBM_FILE :=
  .ok { dbm with fast_write := decide (optval ≠ 0) }

/-! ## The Ruby runtime (`ruby.h`) -/

/-- Modelled from the spec: `RTEST` of `ruby.h`. -/
def RTEST : VALUE → Bool
  | .Qnil => false
  | .Qfalse => false
  | _ => true

/-- Modelled from the spec: `NIL_P` of `ruby.h`. -/
def NIL_P : VALUE → Bool
  | .Qnil => true
  | _ => false

/-- Modelled from the spec: `StringValue` of `ruby.h` on the values of this
model: a String is taken as it is, anything else is a type error. -/
def StringValue : VALUE → Except Exc (List Byte)
  | .str b _ => .ok b
  | _ => .error (.TypeError "can't convert into String")

/-- Modelled from the spec: `rb_str_new` followed by `OBJ_TAINT`, as the
binding builds every string it returns. -/
def rb_tainted_str_new (d : datum) : VALUE := .str d true

/-- Modelled from the spec: `rb_assoc_new` of the runtime. -/
def rb_assoc_new (a b : VALUE) : VALUE := .ary [a, b]

/-- Modelled from the spec: `rb_yield` of the runtime; without a block it
raises LocalJumpError. -/
def rb_yield {σ : Type} (blk : Option (Block σ)) (arg : VALUE) (w : World σ) :
    Except Exc VALUE × World σ :=
  match blk with
  | none => (.error .LocalJumpError, w)
  | some b => b arg w

/-- Modelled from the spec: key comparison of the runtime's Hash for the keys
the binding uses (Strings compare by content, nil is equal to nil). -/
def hash_key_eql : VALUE → VALUE → Bool
  | .str a _, .str b _ => decide (a = b)
  | .Qnil, .Qnil => true
  | _, _ => false

/-- Modelled from the spec: `rb_hash_aset` of the runtime, Ruby's `Hash#[]=`:
an entry whose key is already in the table gets the new value, a new key
gets a new entry. -/
def rb_hash_aset : List (VALUE × VALUE) → VALUE → VALUE → List (VALUE × VALUE)
  | [], k, v => [(k, v)]
  | (k0, v0) :: rest, k, v =>
    if hash_key_eql k0 k then (k0, v) :: rest
    else (k0, v0) :: rb_hash_aset rest k v

/-- Modelled from the spec: lookup in the runtime's Hash. -/
def rb_hash_aref : List (VALUE × VALUE) → VALUE → Option VALUE
  | [], _ => none
  | (k0, v0) :: rest, k =>
    if hash_key_eql k0 k then some v0 else rb_hash_aref rest k

/-! ## `gdbm.c` -/

def RUBY_GDBM_RW_BIT : Nat := 0x20000000

/-- The `closed_dbm` of `gdbm.c`, as the exception it raises. -/
def closed_dbm : Exc := .RuntimeError "closed GDBM file"

/-- The `GetDBM` macro. -/
def GetDBM {σ : Type} (w : World σ) : Except Exc dbmdata :=
  match w.obj.dptr with
  | none => .error closed_dbm
  | some dbmp =>
    match dbmp.di_dbm with
    | none => .error closed_dbm
    | some _ => .ok dbmp

/-- The `GetDBM2` macro. -/
def GetDBM2 {σ : Type} (w : World σ) : Except Exc (dbmdata × GDBM_FILE) :=
  match w.obj.dptr with
  | none => .error closed_dbm
  | some dbmp =>
    match dbmp.di_dbm with
    | none => .error closed_dbm
    | some dbm => .ok (dbmp, dbm)

/-- Assignment `dbmp->di_size = n`. -/
def set_di_size {σ : Type} (w : World σ) (n : Int) : World σ :=
  match w.obj.dptr with
  | none => w
  | some dbmp => { w with obj := { w.obj with dptr := some { dbmp with di_size := n } } }

/-- Effect of an engine call that changes the file behind `dbmp->di_dbm`. -/
def set_di_dbm {σ : Type} (w : World σ) (dbm : Option GDBM_FILE) : World σ :=
  match w.obj.dptr with
  | none => w
  | some dbmp => { w with obj := { w.obj with dptr := some { dbmp with di_dbm := dbm } } }

/-- The `fgdbm_close` of `gdbm.c`. -/
def fgdbm_close {σ : Type} (w : World σ) : Except Exc VALUE × World σ :=
  match GetDBM w with
  | .error e => (.error e, w)
  | .ok _ => (.ok .Qnil, set_di_dbm w none)

/-- The `fgdbm_closed` of `gdbm.c`. -/
def fgdbm_closed {σ : Type} (w : World σ) : VALUE :=
  match w.obj.dptr with
  | none => .Qtrue
  | some dbmp =>
    match dbmp.di_dbm with
    | none => .Qtrue
    | some _ => .Qfalse

/-- The `rb_gdbm_fetch` of `gdbm.c`. -/
def rb_gdbm_fetch (dbm : GDBM_FILE) (key : datum) : VALUE :=
  match gdbm_fetch dbm key with
  | none => .Qnil
  | some val => rb_tainted_str_new val

/-- The `rb_gdbm_fetch2` of `gdbm.c`. -/
def rb_gdbm_fetch2 (dbm : GDBM_FILE) (keystr : VALUE) : Except Exc VALUE :=
  match StringValue keystr with
  | .error e => .error e
  | .ok key => .ok (rb_gdbm_fetch dbm key)

/-- The `rb_gdbm_fetch3` of `gdbm.c`. -/
def rb_gdbm_fetch3 {σ : Type} (w : World σ) (keystr : VALUE) : Except Exc VALUE :=
  match GetDBM2 w with
  | .error e => .error e
  | .ok (_, dbm) => rb_gdbm_fetch2 dbm keystr

/-- The `rb_gdbm_firstkey` of `gdbm.c`. -/
def rb_gdbm_firstkey (dbm : GDBM_FILE) : VALUE :=
  match gdbm_firstkey dbm with
  | none => .Qnil
  | some key => rb_tainted_str_new key

/-- The `rb_gdbm_nextkey` of `gdbm.c`.  It reads `RSTRING(keystr)` without a
conversion; every caller passes a String the binding built itself. -/
def rb_gdbm_nextkey (dbm : GDBM_FILE) (keystr : VALUE) : VALUE :=
  match keystr with
  | .str key _ =>
    match gdbm_nextkey dbm key with
    | none => .Qnil
    | some key2 => rb_tainted_str_new key2
  | _ => .Qnil

/-- The `fgdbm_fetch` of `gdbm.c`; `blk` is the block of the calling method
(`rb_block_given_p`). -/
def fgdbm_fetch {σ : Type} (blk : Option (Block σ)) (w : World σ)
    (keystr ifnone : VALUE) : Except Exc VALUE × World σ :=
  match rb_gdbm_fetch3 w keystr with
  | .error e => (.error e, w)
  | .ok valstr =>
    if NIL_P valstr then
      if NIL_P ifnone && blk.isSome then rb_yield blk keystr w
      else (.ok ifnone, w)
    else (.ok valstr, w)

/-- The `fgdbm_aref` of `gdbm.c`. -/
def fgdbm_aref {σ : Type} (w : World σ) (keystr : VALUE) :
    Except Exc VALUE × World σ :=
  (rb_gdbm_fetch3 w keystr, w)

/-- Modelled from the spec: `NUM2INT` of `ruby.h`: a Fixnum in the range of a
C `int` converts, a larger one is a range error, anything else a type
error. -/
def NUM2INT : VALUE → Except Exc Int
  | .fix n =>
    if -2147483648 ≤ n ∧ n < 2147483648 then .ok n else .error .RangeError
  | _ => .error (.TypeError "can't convert into Integer")

/-- Modelled from the spec: `FIX2INT` of `ruby.h`; it does not check its
argument, and the model reads anything that is not a Fixnum as `0`. -/
def FIX2INT : VALUE → Int
  | .fix n => n
  | _ => 0

/-- Modelled from the spec: `INT2FIX` of `ruby.h`. -/
def INT2FIX (n : Int) : VALUE := .fix n

/-- The 32 bits of a C `int`, as a natural number. -/
def int_bits (n : Int) : Nat := (n % 4294967296).toNat

/-- Modelled from the spec: `SafeStringValue` of `ruby.h`: `StringValue`, then
a tainted string is refused when the safe level is above `0`. -/
def SafeStringValue {σ : Type} (w : World σ) (v : VALUE) : Except Exc (List Byte) :=
  match v with
  | .str b t => if 0 < w.safe_level ∧ t = true then .error .SecurityError else .ok b
  | _ => .error (.TypeError "can't convert into String")

/-- Modelled from the spec: `gdbm_open` of the engine, taken as an oracle over
the environment: file name, block size, flags, file mode.  The error carries
`gdbm_errno` and the C `errno` the failed open leaves behind. -/
abbrev Opener (σ : Type) :=
  datum → Nat → Nat → Int → σ → Except (Nat × Int) GDBM_FILE × σ

def MY_BLOCK_SIZE : Nat := 2048

/-- The last part of `fgdbm_initialize`: what it does with the outcome `dbm`
of the engine open(s). -/
def fgdbm_initialize_finish {σ : Type} (w : World σ) (mode : Int)
    (dbm : Except (Nat × Int) GDBM_FILE) : Except Exc VALUE × World σ :=
  match dbm with
  | .error (gdbm_errno, errno) =>
    if mode = -1 then (.ok .Qnil, { w with errno := errno })
    else if gdbm_errno = GDBM_FILE_OPEN_ERROR ∨ gdbm_errno = GDBM_CANT_BE_READER ∨
        gdbm_errno = GDBM_CANT_BE_WRITER then
      (.error (.SystemCallError errno), { w with errno := errno })
    else (.error (.GDBMError gdbm_errno), { w with errno := errno })
  | .ok d =>
    (.ok .data,
      { w with obj := { w.obj with dptr := some { di_size := -1, di_dbm := some d } } })

/-- The engine opens of `fgdbm_initialize`, once `mode` and `flags` are
known. -/
def fgdbm_initialize_open {σ : Type} (gdbm_open : Opener σ) (file : datum)
    (mode : Int) (flags : Nat) (w : World σ) :
    Except (Nat × Int) GDBM_FILE × World σ :=
  if flags &&& RUBY_GDBM_RW_BIT ≠ 0 then
    let r := gdbm_open file MY_BLOCK_SIZE
      (flags &&& (4294967295 - RUBY_GDBM_RW_BIT)) mode w.env
    (r.1, { w with env := r.2 })
  else
    let r1 : Except (Nat × Int) GDBM_FILE × σ :=
      if 0 ≤ mode then gdbm_open file MY_BLOCK_SIZE (GDBM_WRCREAT ||| flags) mode w.env
      else (.error (0, w.errno), w.env)
    match r1 with
    | (.ok d, e1) => (.ok d, { w with env := e1 })
    | (.error _, e1) =>
      match gdbm_open file MY_BLOCK_SIZE (GDBM_WRITER ||| flags) 0 e1 with
      | (.ok d, e2) => (.ok d, { w with env := e2 })
      | (.error _, e2) =>
        let r3 := gdbm_open file MY_BLOCK_SIZE (GDBM_READER ||| flags) 0 e2
        (r3.1, { w with env := r3.2 })

/-- The `fgdbm_initialize` of `gdbm.c` (`GDBM.new(filename, mode, flags)`). -/
def fgdbm_initialize {σ : Type} (gdbm_open : Opener σ) (argv : List VALUE)
    (w : World σ) : Except Exc VALUE × World σ :=
  match argv with
  | [] => (.error (.ArgError "wrong number of arguments"), w)
  | _ :: _ :: _ :: _ :: _ => (.error (.ArgError "wrong number of arguments"), w)
  | file :: rest =>
    let vmode := rest.getD 0 .Qnil
    let vflags := rest.getD 1 .Qnil
    let mode : Except Exc Int :=
      if rest.length = 0 then .ok 0o666
      else if NIL_P vmode then .ok (-1)
      else NUM2INT vmode
    match mode with
    | .error e => (.error e, w)
    | .ok mode =>
      let flags : Except Exc Int := if NIL_P vflags then .ok 0 else NUM2INT vflags
      match flags with
      | .error e => (.error e, w)
      | .ok flags =>
        match SafeStringValue w file with
        | .error e => (.error e, w)
        | .ok name =>
          let r := fgdbm_initialize_open gdbm_open name mode (int_bits flags) w
          fgdbm_initialize_finish r.2 mode r.1

/-- The `fgdbm_fetch_m` of `gdbm.c` (`gdbm.fetch(key [, default])`). -/
def fgdbm_fetch_m {σ : Type} (blk : Option (Block σ)) (argv : List VALUE)
    (w : World σ) : Except Exc VALUE × World σ :=
  match argv with
  | [] => (.error (.ArgError "wrong number of arguments"), w)
  | _ :: _ :: _ :: _ => (.error (.ArgError "wrong number of arguments"), w)
  | keystr :: rest =>
    let ifnone := rest.getD 0 .Qnil
    match fgdbm_fetch blk w keystr ifnone with
    | (.error e, w1) => (.error e, w1)
    | (.ok valstr, w1) =>
      if rest.length = 0 && !blk.isSome && NIL_P valstr then
        (.error (.IndexError "key not found"), w1)
      else (.ok valstr, w1)

/-- The test `len == len2 && memcmp(..) == 0` of `fgdbm_key` and
`fgdbm_has_value`, after `!NIL_P(valstr2)`. -/
def same_bytes (val : List Byte) (valstr2 : VALUE) : Bool :=
  match valstr2 with
  | .str b _ => decide (val.length = b.length) && decide (val = b)
  | _ => false

/-- The loop of `fgdbm_key`. -/
def fgdbm_key_loop (dbm : GDBM_FILE) (val : List Byte) :
    Nat → VALUE → Option (Except Exc VALUE)
  | 0, _ => none
  | fuel + 1, keystr =>
    if RTEST keystr then
      match rb_gdbm_fetch2 dbm keystr with
      | .error e => some (.error e)
      | .ok valstr2 =>
        if !NIL_P valstr2 && same_bytes val valstr2 then some (.ok keystr)
        else fgdbm_key_loop dbm val fuel (rb_gdbm_nextkey dbm keystr)
    else some (.ok .Qnil)

/-- The `fgdbm_key` of `gdbm.c` (`gdbm.key(value)`). -/
def fgdbm_key {σ : Type} (fuel : Nat) (w : World σ) (valstr : VALUE) :
    Option (Except Exc VALUE × World σ) :=
  match StringValue valstr with
  | .error e => some (.error e, w)
  | .ok val =>
    match GetDBM2 w with
    | .error e => some (.error e, w)
    | .ok (_, dbm) =>
      (fgdbm_key_loop dbm val fuel (rb_gdbm_firstkey dbm)).map (fun r => (r, w))

/-- The loop `for (i=0; i<argc; i++) rb_ary_push(new, rb_gdbm_fetch3(obj,
argv[i]))` of `fgdbm_values_at` and of `fgdbm_select` without a block. -/
def fetch_each {σ : Type} (w : World σ) : List VALUE → List VALUE → Except Exc (List VALUE)
  | [], new => .ok new
  | k :: rest, new =>
    match rb_gdbm_fetch3 w k with
    | .error e => .error e
    | .ok v => fetch_each w rest (new ++ [v])

/-- The loop of `fgdbm_select` with a block; `dbm` is the handle the last
`GetDBM2` read. -/
def fgdbm_select_loop {σ : Type} (blk : Option (Block σ)) :
    Nat → World σ → GDBM_FILE → VALUE → List VALUE → Option (Except Exc VALUE × World σ)
  | 0, _, _, _, _ => none
  | fuel + 1, w, dbm, keystr, new =>
    if RTEST keystr then
      match rb_gdbm_fetch2 dbm keystr with
      | .error e => some (.error e, w)
      | .ok valstr =>
        match rb_yield blk (rb_assoc_new keystr valstr) w with
        | (.error e, w1) => some (.error e, w1)
        | (.ok v, w1) =>
          match GetDBM2 w1 with
          | .error e => some (.error e, w1)
          | .ok (_, dbm1) =>
            fgdbm_select_loop blk fuel w1 dbm1 (rb_gdbm_nextkey dbm1 keystr)
              (if RTEST v then new ++ [rb_assoc_new keystr valstr] else new)
    else some (.ok (.ary new), w)

/-- The `fgdbm_select` of `gdbm.c` (`gdbm.select`). -/
def fgdbm_select {σ : Type} (blk : Option (Block σ)) (fuel : Nat)
    (argv : List VALUE) (w : World σ) : Option (Except Exc VALUE × World σ) :=
  if blk.isSome then
    if 0 < argv.length then
      some (.error (.ArgError
        ("wrong number arguments(" ++ toString argv.length ++ " for 0)")), w)
    else
      match GetDBM2 w with
      | .error e => some (.error e, w)
      | .ok (_, dbm) => fgdbm_select_loop blk fuel w dbm (rb_gdbm_firstkey dbm) []
  else
    match fetch_each w argv [] with
    | .error e => some (.error e, w)
    | .ok new => some (.ok (.ary new), w)

/-- The `fgdbm_values_at` of `gdbm.c` (`gdbm.values_at(key, ...)`). -/
def fgdbm_values_at {σ : Type} (argv : List VALUE) (w : World σ) :
    Except Exc VALUE × World σ :=
  match fetch_each w argv [] with
  | .error e => (.error e, w)
  | .ok new => (.ok (.ary new), w)

/-- The `rb_gdbm_modify` of `gdbm.c`: `rb_secure(4)` and the frozen check. -/
def rb_gdbm_modify {σ : Type} (w : World σ) : Except Exc Unit :=
  if 4 ≤ w.safe_level then .error .SecurityError
  else if w.obj.frozen then .error (.TypeError "can't modify frozen GDBM")
  else .ok ()

/-- The `rb_gdbm_delete` of `gdbm.c`. -/
def rb_gdbm_delete {σ : Type} (w : World σ) (keystr : VALUE) :
    Except Exc VALUE × World σ :=
  match rb_gdbm_modify w with
  | .error e => (.error e, w)
  | .ok _ =>
    match StringValue keystr with
    | .error e => (.error e, w)
    | .ok key =>
      match GetDBM2 w with
      | .error e => (.error e, w)
      | .ok (dbmp, dbm) =>
        if !gdbm_exists dbm key then (.ok .Qnil, w)
        else
          match gdbm_delete dbm key with
          | .error gdbm_errno => (.error (.GDBMError gdbm_errno), set_di_size w (-1))
          | .ok dbm1 =>
            if 0 ≤ dbmp.di_size then
              (.ok .data, set_di_size (set_di_dbm w (some dbm1)) (dbmp.di_size - 1))
            else (.ok .data, set_di_dbm w (some dbm1))

/-- The `fgdbm_delete` of `gdbm.c` (`gdbm.delete(key)`). -/
def fgdbm_delete {σ : Type} (blk : Option (Block σ)) (w : World σ)
    (keystr : VALUE) : Except Exc VALUE × World σ :=
  match fgdbm_fetch blk w keystr .Qnil with
  | (.error e, w1) => (.error e, w1)
  | (.ok valstr, w1) =>
    match rb_gdbm_delete w1 keystr with
    | (.error e, w2) => (.error e, w2)
    | (.ok _, w2) => (.ok valstr, w2)

/-- The `fgdbm_shift` of `gdbm.c` (`gdbm.shift`). -/
def fgdbm_shift {σ : Type} (w : World σ) : Except Exc VALUE × World σ :=
  match rb_gdbm_modify w with
  | .error e => (.error e, w)
  | .ok _ =>
    match GetDBM2 w with
    | .error e => (.error e, w)
    | .ok (_, dbm) =>
      let keystr := rb_gdbm_firstkey dbm
      if NIL_P keystr then (.ok .Qnil, w)
      else
        match rb_gdbm_fetch2 dbm keystr with
        | .error e => (.error e, w)
        | .ok valstr =>
          match rb_gdbm_delete w keystr with
          | (.error e, w1) => (.error e, w1)
          | (.ok _, w1) => (.ok (rb_assoc_new keystr valstr), w1)

/-- The first loop of `fgdbm_delete_if`: it yields every record to the block
under `rb_protect` and collects the keys the block accepts.  The result is
the array `ary` and the pending exit `status` (`none` for `0`); `dbm` is the
handle the last `GetDBM2` read. -/
def fgdbm_delete_if_collect {σ : Type} (blk : Option (Block σ)) :
    Nat → World σ → GDBM_FILE → VALUE → List VALUE →
      Option (Except Exc (List VALUE × Option Exc) × World σ)
  | 0, _, _, _, _ => none
  | fuel + 1, w, dbm, keystr, ary =>
    if RTEST keystr then
      match rb_gdbm_fetch2 dbm keystr with
      | .error e => some (.error e, w)
      | .ok valstr =>
        match rb_yield blk (rb_assoc_new keystr valstr) w with
        | (.error status, w1) => some (.ok (ary, some status), w1)
        | (.ok ret, w1) =>
          match GetDBM2 w1 with
          | .error e => some (.error e, w1)
          | .ok (_, dbm1) =>
            fgdbm_delete_if_collect blk fuel w1 dbm1 (rb_gdbm_nextkey dbm1 keystr)
              (if RTEST ret then ary ++ [keystr] else ary)
    else some (.ok (ary, none), w)

/-- The second loop of `fgdbm_delete_if`: `rb_gdbm_delete` on every collected
key. -/
def fgdbm_delete_if_sweep {σ : Type} : List VALUE → World σ → Except Exc Unit × World σ
  | [], w => (.ok (), w)
  | keystr :: rest, w =>
    match rb_gdbm_delete w keystr with
    | (.error e, w1) => (.error e, w1)
    | (.ok _, w1) => fgdbm_delete_if_sweep rest w1

/-- The `fgdbm_delete_if` of `gdbm.c` (`gdbm.delete_if`, `gdbm.reject!`). -/
def fgdbm_delete_if {σ : Type} (blk : Option (Block σ)) (fuel : Nat)
    (w : World σ) : Option (Except Exc VALUE × World σ) :=
  match rb_gdbm_modify w with
  | .error e => some (.error e, w)
  | .ok _ =>
    match GetDBM2 w with
    | .error e => some (.error e, w)
    | .ok (dbmp, dbm) =>
      let n := dbmp.di_size
      match fgdbm_delete_if_collect blk fuel (set_di_size w (-1)) dbm
          (rb_gdbm_firstkey dbm) [] with
      | none => none
      | some (.error e, w1) => some (.error e, w1)
      | some (.ok (ary, status), w1) =>
        match fgdbm_delete_if_sweep ary w1 with
        | (.error e, w2) => some (.error e, w2)
        | (.ok _, w2) =>
          match status with
          | some tag => some (.error tag, w2)
          | none =>
            if 0 < n then some (.ok .data, set_di_size w2 (n - ary.length))
            else some (.ok .data, w2)

/-- The inner loop of `fgdbm_clear`: `nextkey` is read before `key` is
deleted.  The error is the `gdbm_errno` of a failed `gdbm_delete`. -/
def fgdbm_clear_inner : Nat → GDBM_FILE → Option datum → Option (Except Nat Unit × GDBM_FILE)
  | 0, _, _ => none
  | fuel + 1, dbm, key =>
    match key with
    | none => some (.ok (), dbm)
    | some k =>
      let nextkey := gdbm_nextkey dbm k
      match gdbm_delete dbm k with
      | .error gdbm_errno => some (.error gdbm_errno, dbm)
      | .ok dbm1 => fgdbm_clear_inner fuel dbm1 nextkey

/-- The outer loop of `fgdbm_clear`: it starts again from `gdbm_firstkey`
until the file has no key left. -/
def fgdbm_clear_outer : Nat → GDBM_FILE → Option (Except Nat Unit × GDBM_FILE)
  | 0, _ => none
  | fuel + 1, dbm =>
    match gdbm_firstkey dbm with
    | none => some (.ok (), dbm)
    | some key =>
      match fgdbm_clear_inner (fuel + 1) dbm (some key) with
      | none => none
      | some (.error gdbm_errno, dbm1) => some (.error gdbm_errno, dbm1)
      | some (.ok _, dbm1) => fgdbm_clear_outer fuel dbm1

/-- The `fgdbm_clear` of `gdbm.c` (`gdbm.clear`). -/
def fgdbm_clear {σ : Type} (fuel : Nat) (w : World σ) :
    Option (Except Exc VALUE × World σ) :=
  match rb_gdbm_modify w with
  | .error e => some (.error e, w)
  | .ok _ =>
    match GetDBM2 w with
    | .error e => some (.error e, w)
    | .ok (_, dbm) =>
      match fgdbm_clear_outer fuel dbm with
      | none => none
      | some (.error gdbm_errno, dbm1) =>
        some (.error (.GDBMError gdbm_errno), set_di_dbm (set_di_size w (-1)) (some dbm1))
      | some (.ok _, dbm1) =>
        some (.ok .data, set_di_size (set_di_dbm (set_di_size w (-1)) (some dbm1)) 0)

/-- The loop of `fgdbm_invert`. -/
def fgdbm_invert_loop (dbm : GDBM_FILE) :
    Nat → VALUE → List (VALUE × VALUE) → Option (Except Exc VALUE)
  | 0, _, _ => none
  | fuel + 1, keystr, hash =>
    if RTEST keystr then
      match rb_gdbm_fetch2 dbm keystr with
      | .error e => some (.error e)
      | .ok valstr =>
        fgdbm_invert_loop dbm fuel (rb_gdbm_nextkey dbm keystr)
          (rb_hash_aset hash valstr keystr)
    else some (.ok (.hash hash))

/-- The `fgdbm_invert` of `gdbm.c` (`gdbm.invert`). -/
def fgdbm_invert {σ : Type} (fuel : Nat) (w : World σ) :
    Option (Except Exc VALUE × World σ) :=
  match GetDBM2 w with
  | .error e => some (.error e, w)
  | .ok (_, dbm) =>
    (fgdbm_invert_loop dbm fuel (rb_gdbm_firstkey dbm) []).map (fun r => (r, w))

/-- The `fgdbm_store` of `gdbm.c` (`gdbm[key] = value`, `gdbm.store`). -/
def fgdbm_store {σ : Type} (w : World σ) (keystr valstr : VALUE) :
    Except Exc VALUE × World σ :=
  match rb_gdbm_modify w with
  | .error e => (.error e, w)
  | .ok _ =>
    match StringValue keystr with
    | .error e => (.error e, w)
    | .ok key =>
      match StringValue valstr with
      | .error e => (.error e, w)
      | .ok val =>
        match GetDBM2 w with
        | .error e => (.error e, w)
        | .ok (_, dbm) =>
          match gdbm_store dbm key val with
          | .error gdbm_errno =>
            if w.errno = EPERM then (.error (.SystemCallError w.errno), set_di_size w (-1))
            else (.error (.GDBMError gdbm_errno), set_di_size w (-1))
          | .ok dbm1 => (.ok valstr, set_di_dbm (set_di_size w (-1)) (some dbm1))

/-- The counting loop of `fgdbm_length`. -/
def fgdbm_length_loop (dbm : GDBM_FILE) : Nat → Option datum → Int → Option Int
  | 0, _, _ => none
  | fuel + 1, key, i =>
    match key with
    | none => some i
    | some k => fgdbm_length_loop dbm fuel (gdbm_nextkey dbm k) (i + 1)

/-- The `fgdbm_length` of `gdbm.c` (`gdbm.length`, `gdbm.size`). -/
def fgdbm_length {σ : Type} (fuel : Nat) (w : World σ) :
    Option (Except Exc VALUE × World σ) :=
  match GetDBM2 w with
  | .error e => some (.error e, w)
  | .ok (dbmp, dbm) =>
    if 0 < dbmp.di_size then some (.ok (INT2FIX dbmp.di_size), w)
    else
      match fgdbm_length_loop dbm fuel (gdbm_firstkey dbm) 0 with
      | none => none
      | some i => some (.ok (INT2FIX i), set_di_size w i)

/-- The `fgdbm_empty_p` of `gdbm.c` (`gdbm.empty?`). -/
def fgdbm_empty_p {σ : Type} (w : World σ) : Except Exc VALUE × World σ :=
  match GetDBM w with
  | .error e => (.error e, w)
  | .ok dbmp =>
    if dbmp.di_size < 0 then
      match dbmp.di_dbm with
      | none => (.error closed_dbm, w)
      | some dbm =>
        match gdbm_firstkey dbm with
        | some _ => (.ok .Qfalse, w)
        | none => (.ok .Qtrue, w)
    else if dbmp.di_size = 0 then (.ok .Qtrue, w)
    else (.ok .Qfalse, w)

/-- The loop shared by `fgdbm_each_value`, `fgdbm_each_key` and
`fgdbm_each_pair`; `arg` builds the yielded value from the key and the
handle. -/
def fgdbm_each_loop {σ : Type} (blk : Option (Block σ))
    (arg : GDBM_FILE → VALUE → Except Exc VALUE) :
    Nat → World σ → GDBM_FILE → VALUE → Option (Except Exc VALUE × World σ)
  | 0, _, _, _ => none
  | fuel + 1, w, dbm, keystr =>
    if RTEST keystr then
      match arg dbm keystr with
      | .error e => some (.error e, w)
      | .ok a =>
        match rb_yield blk a w with
        | (.error e, w1) => some (.error e, w1)
        | (.ok _, w1) =>
          match GetDBM2 w1 with
          | .error e => some (.error e, w1)
          | .ok (_, dbm1) => fgdbm_each_loop blk arg fuel w1 dbm1 (rb_gdbm_nextkey dbm1 keystr)
    else some (.ok .data, w)

/-- The `fgdbm_each_value` of `gdbm.c` (`gdbm.each_value`). -/
def fgdbm_each_value {σ : Type} (blk : Option (Block σ)) (fuel : Nat)
    (w : World σ) : Option (Except Exc VALUE × World σ) :=
  match GetDBM2 w with
  | .error e => some (.error e, w)
  | .ok (_, dbm) =>
    fgdbm_each_loop blk (fun d k => rb_gdbm_fetch2 d k) fuel w dbm (rb_gdbm_firstkey dbm)

/-- The `fgdbm_each_key` of `gdbm.c` (`gdbm.each_key`). -/
def fgdbm_each_key {σ : Type} (blk : Option (Block σ)) (fuel : Nat)
    (w : World σ) : Option (Except Exc VALUE × World σ) :=
  match GetDBM2 w with
  | .error e => some (.error e, w)
  | .ok (_, dbm) =>
    fgdbm_each_loop blk (fun _ k => .ok k) fuel w dbm (rb_gdbm_firstkey dbm)

/-- The `fgdbm_each_pair` of `gdbm.c` (`gdbm.each_pair`, `gdbm.each`). -/
def fgdbm_each_pair {σ : Type} (blk : Option (Block σ)) (fuel : Nat)
    (w : World σ) : Option (Except Exc VALUE × World σ) :=
  match GetDBM2 w with
  | .error e => some (.error e, w)
  | .ok (_, dbm) =>
    fgdbm_each_loop blk
      (fun d k => (rb_gdbm_fetch2 d k).map (fun v => rb_assoc_new k v))
      fuel w dbm (rb_gdbm_firstkey dbm)

/-- The loop of `fgdbm_keys`. -/
def fgdbm_keys_loop (dbm : GDBM_FILE) : Nat → VALUE → List VALUE → Option (List VALUE)
  | 0, _, _ => none
  | fuel + 1, keystr, ary =>
    if RTEST keystr then
      fgdbm_keys_loop dbm fuel (rb_gdbm_nextkey dbm keystr) (ary ++ [keystr])
    else some ary

/-- The `fgdbm_keys` of `gdbm.c` (`gdbm.keys`). -/
def fgdbm_keys {σ : Type} (fuel : Nat) (w : World σ) :
    Option (Except Exc VALUE × World σ) :=
  match GetDBM2 w with
  | .error e => some (.error e, w)
  | .ok (_, dbm) =>
    (fgdbm_keys_loop dbm fuel (rb_gdbm_firstkey dbm) []).map (fun ary => (.ok (.ary ary), w))

/-- The loop of `fgdbm_values`. -/
def fgdbm_values_loop (dbm : GDBM_FILE) : Nat → Option datum → List VALUE → Option (List VALUE)
  | 0, _, _ => none
  | fuel + 1, key, ary =>
    match key with
    | none => some ary
    | some k =>
      fgdbm_values_loop dbm fuel (gdbm_nextkey dbm k) (ary ++ [rb_gdbm_fetch dbm k])

/-- The `fgdbm_values` of `gdbm.c` (`gdbm.values`). -/
def fgdbm_values {σ : Type} (fuel : Nat) (w : World σ) :
    Option (Except Exc VALUE × World σ) :=
  match GetDBM2 w with
  | .error e => some (.error e, w)
  | .ok (_, dbm) =>
    (fgdbm_values_loop dbm fuel (gdbm_firstkey dbm) []).map (fun ary => (.ok (.ary ary), w))

/-- The `fgdbm_has_key` of `gdbm.c` (`gdbm.has_key?`, `key?`, `include?`,
`member?`). -/
def fgdbm_has_key {σ : Type} (w : World σ) (keystr : VALUE) :
    Except Exc VALUE × World σ :=
  match StringValue keystr with
  | .error e => (.error e, w)
  | .ok key =>
    match GetDBM2 w with
    | .error e => (.error e, w)
    | .ok (_, dbm) => if gdbm_exists dbm key then (.ok .Qtrue, w) else (.ok .Qfalse, w)

/-- The loop of `fgdbm_has_value`. -/
def fgdbm_has_value_loop (dbm : GDBM_FILE) (val : List Byte) :
    Nat → VALUE → Option (Except Exc VALUE)
  | 0, _ => none
  | fuel + 1, keystr =>
    if RTEST keystr then
      match rb_gdbm_fetch2 dbm keystr with
      | .error e => some (.error e)
      | .ok valstr2 =>
        if !NIL_P valstr2 && same_bytes val valstr2 then some (.ok .Qtrue)
        else fgdbm_has_value_loop dbm val fuel (rb_gdbm_nextkey dbm keystr)
    else some (.ok .Qfalse)

/-- The `fgdbm_has_value` of `gdbm.c` (`gdbm.has_value?`, `value?`). -/
def fgdbm_has_value {σ : Type} (fuel : Nat) (w : World σ) (valstr : VALUE) :
    Option (Except Exc VALUE × World σ) :=
  match StringValue valstr with
  | .error e => some (.error e, w)
  | .ok val =>
    match GetDBM2 w with
    | .error e => some (.error e, w)
    | .ok (_, dbm) =>
      (fgdbm_has_value_loop dbm val fuel (rb_gdbm_firstkey dbm)).map (fun r => (r, w))

/-- The loop of `fgdbm_to_a`. -/
def fgdbm_to_a_loop (dbm : GDBM_FILE) :
    Nat → VALUE → List VALUE → Option (Except Exc VALUE)
  | 0, _, _ => none
  | fuel + 1, keystr, ary =>
    if RTEST keystr then
      match rb_gdbm_fetch2 dbm keystr with
      | .error e => some (.error e)
      | .ok valstr =>
        fgdbm_to_a_loop dbm fuel (rb_gdbm_nextkey dbm keystr)
          (ary ++ [rb_assoc_new keystr valstr])
    else some (.ok (.ary ary))

/-- The `fgdbm_to_a` of `gdbm.c` (`gdbm.to_a`). -/
def fgdbm_to_a {σ : Type} (fuel : Nat) (w : World σ) :
    Option (Except Exc VALUE × World σ) :=
  match GetDBM2 w with
  | .error e => some (.error e, w)
  | .ok (_, dbm) =>
    (fgdbm_to_a_loop dbm fuel (rb_gdbm_firstkey dbm) []).map (fun r => (r, w))

/-- The loop of `fgdbm_to_hash`. -/
def fgdbm_to_hash_loop (dbm : GDBM_FILE) :
    Nat → VALUE → List (VALUE × VALUE) → Option (Except Exc VALUE)
  | 0, _, _ => none
  | fuel + 1, keystr, hash =>
    if RTEST keystr then
      match rb_gdbm_fetch2 dbm keystr with
      | .error e => some (.error e)
      | .ok valstr =>
        fgdbm_to_hash_loop dbm fuel (rb_gdbm_nextkey dbm keystr)
          (rb_hash_aset hash keystr valstr)
    else some (.ok (.hash hash))

/-- The `fgdbm_to_hash` of `gdbm.c` (`gdbm.to_hash`). -/
def fgdbm_to_hash {σ : Type} (fuel : Nat) (w : World σ) :
    Option (Except Exc VALUE × World σ) :=
  match GetDBM2 w with
  | .error e => some (.error e, w)
  | .ok (_, dbm) =>
    (fgdbm_to_hash_loop dbm fuel (rb_gdbm_firstkey dbm) []).map (fun r => (r, w))

/-- The `fgdbm_reorganize` of `gdbm.c` (`gdbm.reorganize`). -/
def fgdbm_reorganize {σ : Type} (w : World σ) : Except Exc VALUE × World σ :=
  match rb_gdbm_modify w with
  | .error e => (.error e, w)
  | .ok _ =>
    match GetDBM2 w with
    | .error e => (.error e, w)
    | .ok (_, dbm) => (.ok .data, set_di_dbm w (some (gdbm_reorganize dbm)))

/-- The `fgdbm_sync` of `gdbm.c` (`gdbm.sync`). -/
def fgdbm_sync {σ : Type} (w : World σ) : Except Exc VALUE × World σ :=
  match rb_gdbm_modify w with
  | .error e => (.error e, w)
  | .ok _ =>
    match GetDBM2 w with
    | .error e => (.error e, w)
    | .ok (_, dbm) => (.ok .data, set_di_dbm w (some (gdbm_sync dbm)))

/-- The `fgdbm_set_cachesize` of `gdbm.c` (`gdbm.cachesize = size`). -/
def fgdbm_set_cachesize {σ : Type} (w : World σ) (val : VALUE) :
    Except Exc VALUE × World σ :=
  match GetDBM2 w with
  | .error e => (.error e, w)
  | .ok (_, dbm) =>
    match gdbm_setopt_cachesize dbm (FIX2INT val) with
    | .error gdbm_errno => (.error (.GDBMError gdbm_errno), w)
    | .ok dbm1 => (.ok val, set_di_dbm w (some dbm1))

/-- The `fgdbm_set_fastmode` of `gdbm.c` (`gdbm.fastmode = boolean`). -/
def fgdbm_set_fastmode {σ : Type} (w : World σ) (val : VALUE) :
    Except Exc VALUE × World σ :=
  match GetDBM2 w with
  | .error e => (.error e, w)
  | .ok (_, dbm) =>
    match gdbm_setopt_fastmode dbm (if RTEST val then 1 else 0) with
    | .error gdbm_errno => (.error (.GDBMError gdbm_errno), w)
    | .ok dbm1 => (.ok val, set_di_dbm w (some dbm1))

/-- The `fgdbm_set_syncmode` of `gdbm.c` (`gdbm.syncmode = boolean`);
`syncmode_defined` tells which branch of `#if !defined(GDBM_SYNCMODE)` is
compiled. -/
def fgdbm_set_syncmode {σ : Type} (syncmode_defined : Bool) (w : World σ)
    (val : VALUE) : Except Exc VALUE × World σ :=
  if !syncmode_defined then
    match fgdbm_set_fastmode w (if RTEST val then .Qfalse else .Qtrue) with
    | (.error e, w1) => (.error e, w1)
    | (.ok _, w1) => (.ok val, w1)
  else
    match GetDBM2 w with
    | .error e => (.error e, w)
    | .ok (_, dbm) =>
      match gdbm_setopt_fastmode dbm (if RTEST val then 1 else 0) with
      | .error gdbm_errno => (.error (.GDBMError gdbm_errno), w)
      | .ok dbm1 => (.ok val, set_di_dbm w (some dbm1))

/-! ## Sample states -/

/-- An engine handle over `recs` that puts a new key last and keeps the order
of the records on deletion. -/
def sample_dbm (recs : List (datum × datum)) (writer : Bool) : GDBM_FILE :=
  { recs := recs, writer := writer, fast_write := false, cache_set := false,
    slot := fun _ l => l.length, settle := fun _ l => l }

/-- An open session over `sample_dbm recs writer` whose cached count is
`size`. -/
def sample_world (recs : List (datum × datum)) (writer : Bool) (size : Int) : World Unit :=
  { obj := { dptr := some { di_size := size, di_dbm := some (sample_dbm recs writer) },
             frozen := false },
    safe_level := 0, errno := 0, env := () }

/-- The keys of a record list, in traversal order. -/
def keys_of (l : List (datum × datum)) : List datum := l.map Prod.fst

/-- An engine handle is well formed when its keys are unique and its `settle`
only reorders records. -/
def GDBM_FILE.wf (dbm : GDBM_FILE) : Prop :=
  (keys_of dbm.recs).Nodup ∧ ∀ k l, (dbm.settle k l).Perm l

/-- The session `w` with its handle open on `dbm` and its cached count set to
`n`: every open session has this shape. -/
def open_with {σ : Type} (w : World σ) (n : Int) (dbm : GDBM_FILE) : World σ :=
  { w with obj := { w.obj with dptr := some { di_size := n, di_dbm := some dbm } } }

/-- The session `w` after `close`: the `dbmdata` is still there, the handle
is null. -/
def closed_with {σ : Type} (w : World σ) (n : Int) : World σ :=
  { w with obj := { w.obj with dptr := some { di_size := n, di_dbm := none } } }

/-- The cursor at the head of a suffix of the record list. -/
def cursor (suf : List (datum × datum)) : Option datum := (suf.head?).map Prod.fst

/-! ## Method table (`Init_gdbm`) -/

/-- The methods of `Init_gdbm` that work on a session, `closed?` apart. -/
inductive Op where
  | aref | fetch | store | delete | shift | key | has_key | has_value
  | keys | values | values_at | select | each_value | each_key | each_pair
  | to_a | to_hash | invert | delete_if | clear | length | empty_p
  | reorganize | sync | set_cachesize | set_fastmode | set_syncmode | close
  deriving DecidableEq

/-- The error of the method dispatch when the number of arguments is not the
one `rb_define_method` declared. -/
def wrong_arity {σ : Type} (w : World σ) : Option (Except Exc VALUE × World σ) :=
  some (.error (.ArgError "wrong number of arguments"), w)

/-- A method call as `Init_gdbm` sets it up: the arity given to
`rb_define_method` is checked first (`-1` passes every argument list on), then
the C function runs.  `blk` is the block of the call, `syncmode_defined` the
build configuration. -/
def call {σ : Type} (syncmode_defined : Bool) (op : Op) (blk : Option (Block σ))
    (fuel : Nat) (argv : List VALUE) (w : World σ) : Option (Except Exc VALUE × World σ) :=
  match op with
  | .fetch => some (fgdbm_fetch_m blk argv w)
  | .select => fgdbm_select blk fuel argv w
  | .values_at => some (fgdbm_values_at argv w)
  | .aref => match argv with
    | [k] => some (fgdbm_aref w k)
    | _ => wrong_arity w
  | .store => match argv with
    | [k, v] => some (fgdbm_store w k v)
    | _ => wrong_arity w
  | .delete => match argv with
    | [k] => some (fgdbm_delete blk w k)
    | _ => wrong_arity w
  | .key => match argv with
    | [v] => fgdbm_key fuel w v
    | _ => wrong_arity w
  | .has_key => match argv with
    | [k] => some (fgdbm_has_key w k)
    | _ => wrong_arity w
  | .has_value => match argv with
    | [v] => fgdbm_has_value fuel w v
    | _ => wrong_arity w
  | .set_cachesize => match argv with
    | [v] => some (fgdbm_set_cachesize w v)
    | _ => wrong_arity w
  | .set_fastmode => match argv with
    | [v] => some (fgdbm_set_fastmode w v)
    | _ => wrong_arity w
  | .set_syncmode => match argv with
    | [v] => some (fgdbm_set_syncmode syncmode_defined w v)
    | _ => wrong_arity w
  | .shift => match argv with
    | [] => some (fgdbm_shift w)
    | _ => wrong_arity w
  | .keys => match argv with
    | [] => fgdbm_keys fuel w
    | _ => wrong_arity w
  | .values => match argv with
    | [] => fgdbm_values fuel w
    | _ => wrong_arity w
  | .each_value => match argv with
    | [] => fgdbm_each_value blk fuel w
    | _ => wrong_arity w
  | .each_key => match argv with
    | [] => fgdbm_each_key blk fuel w
    | _ => wrong_arity w
  | .each_pair => match argv with
    | [] => fgdbm_each_pair blk fuel w
    | _ => wrong_arity w
  | .to_a => match argv with
    | [] => fgdbm_to_a fuel w
    | _ => wrong_arity w
  | .to_hash => match argv with
    | [] => fgdbm_to_hash fuel w
    | _ => wrong_arity w
  | .invert => match argv with
    | [] => fgdbm_invert fuel w
    | _ => wrong_arity w
  | .delete_if => match argv with
    | [] => fgdbm_delete_if blk fuel w
    | _ => wrong_arity w
  | .clear => match argv with
    | [] => fgdbm_clear fuel w
    | _ => wrong_arity w
  | .length => match argv with
    | [] => fgdbm_length fuel w
    | _ => wrong_arity w
  | .empty_p => match argv with
    | [] => some (fgdbm_empty_p w)
    | _ => wrong_arity w
  | .reorganize => match argv with
    | [] => some (fgdbm_reorganize w)
    | _ => wrong_arity w
  | .sync => match argv with
    | [] => some (fgdbm_sync w)
    | _ => wrong_arity w
  | .close => match argv with
    | [] => some (fgdbm_close w)
    | _ => wrong_arity w

/-- Whether a value is a String. -/
def is_str : VALUE → Bool
  | .str _ _ => true
  | _ => false

/-- Whether `rb_gdbm_modify` lets the call through. -/
def may_modify {σ : Type} (w : World σ) : Bool :=
  decide (w.safe_level < 4) && !w.obj.frozen

/-- The calls of `call` that get as far as the `GetDBM` check of their C
function: the argument count fits the method, the receiver passes
`rb_gdbm_modify` where the function calls it first, the arguments that are
converted before the check are Strings, and `values_at` and `select` without
a block have at least one key to look up. -/
def reaches_GetDBM {σ : Type} (op : Op) (blk : Option (Block σ)) (argv : List VALUE)
    (w : World σ) : Bool :=
  match op with
  | .fetch => decide (argv.length = 1 ∨ argv.length = 2)
  | .select => if blk.isSome then decide (argv.length = 0) else decide (1 ≤ argv.length)
  | .values_at => decide (1 ≤ argv.length)
  | .store => decide (argv.length = 2) && argv.all is_str && may_modify w
  | .key | .has_key | .has_value => decide (argv.length = 1) && argv.all is_str
  | .aref | .delete | .set_cachesize | .set_fastmode | .set_syncmode =>
    decide (argv.length = 1)
  | .shift | .delete_if | .clear | .reorganize | .sync =>
    decide (argv.length = 0) && may_modify w
  | .keys | .values | .each_value | .each_key | .each_pair | .to_a | .to_hash
  | .invert | .length | .empty_p | .close => decide (argv.length = 0)

/-- The sample session after `close`. -/
def sample_closed : World Unit := (fgdbm_close (sample_world [] true (-1))).2

/-- A block that leaves the session alone: the GDBM object and the safe level
are the same after every call; the rest of the interpreter state may
change. -/
def keeps_session {σ : Type} (b : Block σ) : Prop :=
  ∀ arg w, (b arg w).2.obj = w.obj ∧ (b arg w).2.safe_level = w.safe_level

/-- The Ruby value of a cursor position: nil at the end, else a tainted
String. -/
def key_value : Option datum → VALUE
  | none => .Qnil
  | some k => rb_tainted_str_new k

/-- Reference pass of a predicate block over a record list: every record is
yielded exactly once, in list order, as the pair `[key, value]`, until the
list ends or the block leaves by an exception.  The result is the list of
the keys the block accepted, the pending exception if any, and the
interpreter state after the last call. -/
def judge {σ : Type} (b : Block σ) : List (datum × datum) → World σ →
    List datum × Option Exc × World σ
  | [], w => ([], none, w)
  | (k, v) :: rest, w =>
    match b (rb_assoc_new (rb_tainted_str_new k) (rb_tainted_str_new v)) w with
    | (.error e, w1) => ([], some e, w1)
    | (.ok ret, w1) =>
      (if RTEST ret then k :: (judge b rest w1).1 else (judge b rest w1).1,
        (judge b rest w1).2.1, (judge b rest w1).2.2)

/-- A predicate block over `Unit`: it accepts the key `a` and raises on every
other key. -/
def accept_a_then_raise : Block Unit := fun arg w =>
  match arg with
  | .ary [.str k _, _] => if k = [97] then (.ok .Qtrue, w) else (.error (.thrown 7), w)
  | _ => (.ok .Qnil, w)

/-- A predicate block over `Unit` that accepts the records whose value is
`x`. -/
def accept_value_x : Block Unit := fun arg w =>
  match arg with
  | .ary [_, .str v _] => if v = [120] then (.ok .Qtrue, w) else (.ok .Qfalse, w)
  | _ => (.ok .Qnil, w)

/-- The block `b` never leaves by an exception and its verdict on a record is
the truth value `p key value`, whatever the interpreter state. -/
def has_verdict {σ : Type} (b : Block σ) (p : datum → datum → Bool) : Prop :=
  ∀ (k v : datum) (w : World σ), ∃ ret,
    (b (rb_assoc_new (rb_tainted_str_new k) (rb_tainted_str_new v)) w).1 = .ok ret ∧
      RTEST ret = p k v

/-- A session over `World (List VALUE)` whose `env` is a log. -/
def sample_log_world (recs : List (datum × datum)) : World (List VALUE) :=
  { obj := { dptr := some { di_size := -1, di_dbm := some (sample_dbm recs true) },
             frozen := false },
    safe_level := 0, errno := 0, env := [] }

/-- A predicate block that appends every value it is given to the log `env`
and accepts the records whose value is `x`. -/
def log_accept_value_x : Block (List VALUE) := fun arg w =>
  match arg with
  | .ary [_, .str v _] =>
    if v = [120] then (.ok .Qtrue, { w with env := w.env ++ [arg] })
    else (.ok .Qfalse, { w with env := w.env ++ [arg] })
  | _ => (.ok .Qnil, { w with env := w.env ++ [arg] })

/-- Store `k` under `v` in a table of (value, key) entries, the way
`rb_hash_aset` does on Strings. -/
def dset : List (datum × datum) → datum → datum → List (datum × datum)
  | [], v, k => [(v, k)]
  | (v0, k0) :: rest, v, k =>
    if v0 = v then (v0, k) :: rest else (v0, k0) :: dset rest v k

/-- The table `fgdbm_invert` builds from the records it has walked. -/
def invert_of (recs : List (datum × datum)) (tbl : List (datum × datum)) :
    List (datum × datum) :=
  recs.foldl (fun t r => dset t r.2 r.1) tbl

/-- A table of byte strings as a Ruby Hash of tainted Strings. -/
def lift_tbl (tbl : List (datum × datum)) : List (VALUE × VALUE) :=
  tbl.map (fun e => (rb_tainted_str_new e.1, rb_tainted_str_new e.2))

/-- The key of the last record, in traversal order, whose value is `v`. -/
def last_key_of (v : datum) (recs : List (datum × datum)) : Option datum :=
  ((recs.filter (fun r => decide (r.2 = v))).getLast?).map Prod.fst

/-- The key of the first record, in traversal order, whose value is `v`. -/
def first_key_of (v : datum) (recs : List (datum × datum)) : Option datum :=
  ((recs.filter (fun r => decide (r.2 = v))).head?).map Prod.fst

/-- The default open policy in the spec's words: try the open modes of `plan`
one after the other and keep the first that opens; when none opens the error
is the one of the last attempt.  Each entry of `plan` is the pair of the
flags and the file mode of one `gdbm_open` call. -/
def first_success {σ : Type} (gdbm_open : Opener σ) (name : datum) :
    List (Nat × Int) → σ → Except (Nat × Int) GDBM_FILE × σ
  | [], e => (.error (0, 0), e)
  | [(flags, mode)], e => gdbm_open name MY_BLOCK_SIZE flags mode e
  | (flags, mode) :: next :: rest, e =>
    match gdbm_open name MY_BLOCK_SIZE flags mode e with
    | (.ok d, e1) => (.ok d, e1)
    | (.error _, e1) => first_success gdbm_open name (next :: rest) e1

/-- The `gdbm_open` calls `fgdbm_initialize` makes for a file mode `mode` and
the flag bits `flags`, in order. -/
def open_plan (mode : Int) (flags : Nat) : List (Nat × Int) :=
  if flags &&& RUBY_GDBM_RW_BIT ≠ 0 then
    [(flags &&& (4294967295 - RUBY_GDBM_RW_BIT), mode)]
  else if 0 ≤ mode then
    [(GDBM_WRCREAT ||| flags, mode), (GDBM_WRITER ||| flags, 0), (GDBM_READER ||| flags, 0)]
  else
    [(GDBM_WRITER ||| flags, 0), (GDBM_READER ||| flags, 0)]

/-- An engine open over a log of the attempts made: it opens an empty file
when asked for `GDBM_WRCREAT` and fails with `GDBM_FILE_OPEN_ERROR` and the
`errno` `ENOENT` otherwise. -/
def only_wrcreat : Opener (List (Nat × Int)) := fun _ _ flags mode log =>
  if flags &&& GDBM_OPENMASK = GDBM_WRCREAT then
    (.ok (sample_dbm [] true), log ++ [(flags, mode)])
  else (.error (GDBM_FILE_OPEN_ERROR, ENOENT), log ++ [(flags, mode)])

/-- An interpreter state with an object that `initialize` has not run on,
over a log of open attempts. -/
def sample_unopened : World (List (Nat × Int)) :=
  { obj := { dptr := none, frozen := false }, safe_level := 0, errno := 0, env := [] }

/-- The session is open on a well-formed engine handle and its cached count is
either unknown (`-1`) or the number of live records. -/
def count_ok {σ : Type} (w : World σ) : Prop :=
  ∃ (n : Int) (dbm : GDBM_FILE),
    w.obj.dptr = some { di_size := n, di_dbm := some dbm } ∧ dbm.wf ∧
      (n = -1 ∨ n = dbm.recs.length)

/-- The methods that change or read the record count. -/
def counting_ops : List Op :=
  [.store, .delete, .shift, .clear, .delete_if, .length, .empty_p]

/-- The sessions reached from `w0` by a finite sequence of calls of `store`,
`delete`, `shift`, `clear`, `delete_if`, `length` and `empty?` that come
back, normally or with an error, with any arguments and with no block or a
block that leaves the session alone. -/
inductive Reach {σ : Type} (w0 : World σ) : World σ → Prop where
  | fresh : Reach w0 w0
  | step (w w1 : World σ) (syncmode_defined : Bool) (op : Op) (blk : Option (Block σ))
      (fuel : Nat) (argv : List VALUE) (r : Except Exc VALUE) :
      Reach w0 w → op ∈ counting_ops → (∀ b, blk = some b → keeps_session b) →
      call syncmode_defined op blk fuel argv w = some (r, w1) → Reach w0 w1

/-- The block that stands for a missing block: `rb_yield` raises
LocalJumpError. -/
def no_block {σ : Type} : Block σ := fun _ w => (.error .LocalJumpError, w)

/-- The empty sample session after `a => x` is stored. -/
def sample_s1 : World Unit :=
  (fgdbm_store (sample_world [] true (-1)) (.str [97] false) (.str [120] false)).2

/-- The sample session `sample_s1` after `b => y` is stored. -/
def sample_s2 : World Unit := (fgdbm_store sample_s1 (.str [98] false) (.str [121] false)).2

/-- The sample session `sample_s2` after `c => z` is stored. -/
def sample_s3 : World Unit := (fgdbm_store sample_s2 (.str [99] false) (.str [122] false)).2

/-- The sample session `sample_s3` after `b` is deleted: three stores and one
delete on an empty store. -/
def sample_after_scenario : World Unit := (fgdbm_delete none sample_s3 (.str [98] false)).2

/-- A block over `Unit` that returns the String `z` whatever it is given. -/
def answer_z : Block Unit := fun _ w => (.ok (.str [122] false), w)

/-- Modelled from the spec: `rb_ensure` of the runtime: `b_proc` runs, then
`e_proc` runs whatever way `b_proc` ended (return, exception, `break` or
`throw`); the outcome is the one of `b_proc` unless `e_proc` itself
raises. -/
def rb_ensure {σ : Type} (b_proc e_proc : World σ → Except Exc VALUE × World σ)
    (w : World σ) : Except Exc VALUE × World σ :=
  match b_proc w with
  | (r, w1) =>
    match e_proc w1 with
    | (.error e, w2) => (.error e, w2)
    | (.ok _, w2) => (r, w2)

/-- The `fgdbm_s_open` of `gdbm.c` (`GDBM.open`): `Data_Wrap_Struct` makes a
new object with a null `DATA_PTR`, `initialize` runs on it, and with a block
the block runs under `rb_ensure` with `fgdbm_close`. -/
def fgdbm_s_open {σ : Type} (gdbm_open : Opener σ) (blk : Option (Block σ))
    (argv : List VALUE) (w : World σ) : Except Exc VALUE × World σ :=
  match fgdbm_initialize gdbm_open argv { w with obj := { dptr := none, frozen := false } } with
  | (.error e, w1) => (.error e, w1)
  | (.ok r, w1) =>
    if NIL_P r then (.ok .Qnil, w1)
    else if blk.isSome then rb_ensure (rb_yield blk .data) fgdbm_close w1
    else (.ok .data, w1)

/-- A block that leaves by an exception at once. -/
def raising_block {σ : Type} : Block σ := fun _ w => (.error (.thrown 1), w)

/-- An engine handle over `recs` that puts a new key last and, on deletion,
turns the remaining records round (the traversal order changes with every
delete). -/
def shuffling_dbm (recs : List (datum × datum)) : GDBM_FILE :=
  { recs := recs, writer := true, fast_write := false, cache_set := false,
    slot := fun _ l => l.length, settle := fun _ l => l.reverse }

/-- An open session over `shuffling_dbm recs` with an unknown count. -/
def shuffling_world (recs : List (datum × datum)) : World Unit :=
  { obj := { dptr := some { di_size := -1, di_dbm := some (shuffling_dbm recs) },
             frozen := false },
    safe_level := 0, errno := 0, env := () }

/-- The fast-write switch of the engine behind a session, if it is open. -/
def fast_write_of {σ : Type} (w : World σ) : Option Bool :=
  match w.obj.dptr with
  | none => none
  | some dbmp => dbmp.di_dbm.map GDBM_FILE.fast_write

/-- One change of the store made through the binding: `store(k, v)` or
`delete(k)`. -/
inductive Edit where
  | put (k v : datum)
  | del (k : datum)

/-- The session after one `Edit`, made with `fgdbm_store` or with
`fgdbm_delete` without a block. -/
def run_edit {σ : Type} (w : World σ) : Edit → World σ
  | .put k v => (fgdbm_store w (.str k false) (.str v false)).2
  | .del k => (fgdbm_delete none w (.str k false)).2

/-- The session after a sequence of edits, first to last. -/
def run_edits {σ : Type} (w : World σ) (es : List Edit) : World σ := es.foldl run_edit w

/-- The spec's words for a live key: `k` is live after the edits `es` when it
was put and not subsequently deleted; `before` tells whether `k` was in the
store before the first edit. -/
def live_after (k : datum) : Bool → List Edit → Bool
  | before, [] => before
  | before, .put k2 _ :: es => live_after k (if k2 = k then true else before) es
  | before, .del k2 :: es => live_after k (if k2 = k then false else before) es

/-- The session `GDBM.new(name, 0666)` makes against `only_wrcreat`. -/
def sample_opened : World (List (Nat × Int)) :=
  ( fgdbm_initialize only_wrcreat [.str [100] false, .fix 438] sample_unopened).2

/-- The session `sample_opened` after `a => x` is stored. -/
def sample_opened_1 : World (List (Nat × Int)) :=
  (fgdbm_store sample_opened (.str [97] false) (.str [120] false)).2

/-- The session `sample_opened_1` after a `delete_if` whose block raises. -/
def sample_opened_2 : World (List (Nat × Int)) :=
  match fgdbm_delete_if (some raising_block) 5 sample_opened_1 with
  | some r => r.2
  | none => sample_opened_1

/-! ## Record lists -/

theorem assoc_get_eq_none_iff (key : datum) (l : List (datum × datum)) :
    assoc_get key l = none ↔ key ∉ keys_of l := by
  induction l with
  | nil => simp [assoc_get, keys_of]
  | cons a rest ih =>
    obtain ⟨k, v⟩ := a
    by_cases h : k = key
    · simp [assoc_get, keys_of, h]
    · have h2 : ¬ key = k := fun e => h e.symm
      simpa [assoc_get, keys_of, h, h2] using ih

theorem assoc_get_isSome_iff (key : datum) (l : List (datum × datum)) :
    (assoc_get key l).isSome = true ↔ key ∈ keys_of l := by
  rw [← not_iff_not, ← assoc_get_eq_none_iff]
  cases assoc_get key l <;> simp

theorem assoc_get_mem {key val : datum} {l : List (datum × datum)}
    (h : assoc_get key l = some val) : (key, val) ∈ l := by
  induction l with
  | nil => simp [assoc_get] at h
  | cons a rest ih =>
    obtain ⟨k, v⟩ := a
    by_cases hk : k = key
    · simp [assoc_get, hk] at h
      simp [hk, h]
    · simp [assoc_get, hk] at h
      exact List.mem_cons_of_mem _ (ih h)

theorem assoc_get_of_mem {key val : datum} {l : List (datum × datum)}
    (nd : (keys_of l).Nodup) (h : (key, val) ∈ l) : assoc_get key l = some val := by
  induction l with
  | nil => simp at h
  | cons a rest ih =>
    obtain ⟨k, v⟩ := a
    simp only [keys_of, List.map_cons, List.nodup_cons] at nd
    rcases List.mem_cons.1 h with e | e
    · injection e with e1 e2
      simp [assoc_get, e1, e2]
    · have hk : k ≠ key := by
        intro e1
        apply nd.1
        rw [e1]
        exact List.mem_map.2 ⟨(key, val), e, rfl⟩
      simp [assoc_get, hk]
      exact ih nd.2 e

theorem assoc_get_eq_some_iff {key val : datum} {l : List (datum × datum)}
    (nd : (keys_of l).Nodup) : assoc_get key l = some val ↔ (key, val) ∈ l :=
  ⟨assoc_get_mem, assoc_get_of_mem nd⟩

/-- Two record lists with unique keys and the same records answer every
lookup alike. -/
theorem assoc_get_perm {l1 l2 : List (datum × datum)} (p : l1.Perm l2)
    (nd : (keys_of l1).Nodup) (key : datum) : assoc_get key l1 = assoc_get key l2 := by
  have nd2 : (keys_of l2).Nodup := (p.map Prod.fst).nodup_iff.1 nd
  cases h : assoc_get key l2 with
  | none =>
    rw [assoc_get_eq_none_iff] at h ⊢
    intro hm
    exact h ((p.map Prod.fst).mem_iff.1 hm)
  | some v =>
    rw [assoc_get_eq_some_iff nd2] at h
    rw [assoc_get_eq_some_iff nd]
    exact p.mem_iff.2 h

theorem assoc_get_append (key : datum) (a b : List (datum × datum)) :
    assoc_get key (a ++ b) =
      match assoc_get key a with
      | some v => some v
      | none => assoc_get key b := by
  induction a with
  | nil => simp [assoc_get]
  | cons x rest ih =>
    obtain ⟨k, v⟩ := x
    by_cases hk : k = key
    · simp [assoc_get, hk]
    · simp [assoc_get, hk, ih]

theorem assoc_get_set_self (key val : datum) (l : List (datum × datum))
    (h : key ∈ keys_of l) : assoc_get key (assoc_set key val l) = some val := by
  induction l with
  | nil => simp [keys_of] at h
  | cons a rest ih =>
    obtain ⟨k, v⟩ := a
    by_cases hk : k = key
    · simp [assoc_get, assoc_set, hk]
    · have h2 : key ∈ keys_of rest := by
        simp only [keys_of, List.map_cons, List.mem_cons] at h
        rcases h with e | e
        · exact absurd e.symm hk
        · exact e
      simp [assoc_get, assoc_set, hk, ih h2]

theorem assoc_get_set_other (key val other : datum) (l : List (datum × datum))
    (h : other ≠ key) : assoc_get other (assoc_set key val l) = assoc_get other l := by
  induction l with
  | nil => simp [assoc_get, assoc_set]
  | cons a rest ih =>
    obtain ⟨k, v⟩ := a
    by_cases hk : k = key
    · subst hk
      have hne : ¬ k = other := fun e => h e.symm
      simp [assoc_get, assoc_set, hne]
    · by_cases ho : k = other
      · subst ho
        simp [assoc_get, assoc_set, hk]
      · simp [assoc_get, assoc_set, hk, ho, ih]

theorem keys_of_assoc_set (key val : datum) (l : List (datum × datum)) :
    keys_of (assoc_set key val l) = keys_of l := by
  induction l with
  | nil => simp [assoc_set]
  | cons a rest ih =>
    obtain ⟨k, v⟩ := a
    by_cases hk : k = key
    · simp [assoc_set, hk, keys_of]
    · simp only [keys_of] at ih
      simp [assoc_set, hk, keys_of, ih]

theorem assoc_del_eq_filter (key : datum) (l : List (datum × datum)) :
    assoc_del key l = l.filter (fun r => decide (r.1 ≠ key)) := by
  induction l with
  | nil => simp [assoc_del]
  | cons a rest ih =>
    obtain ⟨k, v⟩ := a
    by_cases hk : k = key
    · simp [assoc_del, hk, ih]
    · simp [assoc_del, hk, ih]

theorem mem_assoc_del {key : datum} {l : List (datum × datum)} {r : datum × datum} :
    r ∈ assoc_del key l ↔ r ∈ l ∧ r.1 ≠ key := by
  simp [assoc_del_eq_filter]

theorem keys_of_assoc_del_nodup {key : datum} {l : List (datum × datum)}
    (nd : (keys_of l).Nodup) : (keys_of (assoc_del key l)).Nodup := by
  rw [assoc_del_eq_filter]
  exact List.Nodup.sublist (List.Sublist.map _ (List.filter_sublist l)) nd

theorem assoc_get_del_self (key : datum) (l : List (datum × datum)) :
    assoc_get key (assoc_del key l) = none := by
  rw [assoc_get_eq_none_iff]
  intro h
  obtain ⟨r, hr, e⟩ := List.mem_map.1 h
  exact (mem_assoc_del.1 hr).2 e

theorem assoc_get_del_other (key other : datum) (l : List (datum × datum))
    (h : other ≠ key) : assoc_get other (assoc_del key l) = assoc_get other l := by
  induction l with
  | nil => simp [assoc_get, assoc_del]
  | cons a rest ih =>
    obtain ⟨k, v⟩ := a
    by_cases hk : k = key
    · subst hk
      have hne : ¬ k = other := fun e => h e.symm
      simp [assoc_get, assoc_del, hne, ih]
    · by_cases ho : k = other
      · subst ho
        simp [assoc_get, assoc_del, hk]
      · simp [assoc_get, assoc_del, hk, ho, ih]

/-! ## The handle macros -/

theorem GetDBM2_ok_iff {σ : Type} (w : World σ) (dbmp : dbmdata) (dbm : GDBM_FILE) :
    GetDBM2 w = .ok (dbmp, dbm) ↔ w.obj.dptr = some dbmp ∧ dbmp.di_dbm = some dbm := by
  unfold GetDBM2
  constructor
  · intro h
    split at h
    · simp at h
    · rename_i d hd
      split at h
      · simp at h
      · rename_i g hg
        simp only [Except.ok.injEq, Prod.mk.injEq] at h
        obtain ⟨e1, e2⟩ := h
        subst e1 e2
        exact ⟨hd, hg⟩
  · rintro ⟨h1, h2⟩
    simp [h1, h2]

theorem GetDBM2_error {σ : Type} (w : World σ) (e : Exc) (h : GetDBM2 w = .error e) :
    e = closed_dbm := by
  unfold GetDBM2 at h
  cases h1 : w.obj.dptr with
  | none => simp [h1] at h; exact h.symm
  | some d =>
    cases h2 : d.di_dbm with
    | none => simp [h1, h2] at h; exact h.symm
    | some g => simp [h1, h2] at h

theorem GetDBM2_set {σ : Type} (w : World σ) (dbmp : dbmdata) (n : Int) (d : GDBM_FILE)
    (h : w.obj.dptr = some dbmp) :
    GetDBM2 (set_di_dbm (set_di_size w n) (some d)) = .ok ({ di_size := n, di_dbm := some d }, d) := by
  simp [GetDBM2, set_di_dbm, set_di_size, h]

theorem GetDBM2_set_di_size {σ : Type} (w : World σ) (dbmp : dbmdata) (dbm : GDBM_FILE)
    (n : Int) (h : GetDBM2 w = .ok (dbmp, dbm)) :
    GetDBM2 (set_di_size w n) = .ok ({ dbmp with di_size := n }, dbm) := by
  obtain ⟨h1, h2⟩ := (GetDBM2_ok_iff w dbmp dbm).1 h
  simp [GetDBM2, set_di_size, h1, h2]

theorem GetDBM2_set_di_dbm {σ : Type} (w : World σ) (dbmp : dbmdata) (d : GDBM_FILE)
    (h : w.obj.dptr = some dbmp) :
    GetDBM2 (set_di_dbm w (some d)) = .ok ({ dbmp with di_dbm := some d }, d) := by
  simp [GetDBM2, set_di_dbm, h]

/-! ## The engine -/

theorem gdbm_store_fetch_self {dbm dbm1 : GDBM_FILE} {key val : datum}
    (h : gdbm_store dbm key val = .ok dbm1) : gdbm_fetch dbm1 key = some val := by
  unfold gdbm_store at h
  by_cases hw : dbm.writer = true
  · by_cases he : gdbm_exists dbm key = true
    · rw [if_pos hw, if_pos he] at h
      injection h with h
      subst h
      exact assoc_get_set_self _ _ _ ((assoc_get_isSome_iff _ _).1 he)
    · rw [if_pos hw, if_neg he] at h
      injection h with h
      subst h
      have hn : key ∉ keys_of dbm.recs := fun hm => he ((assoc_get_isSome_iff _ _).2 hm)
      have ht : assoc_get key (dbm.recs.take (dbm.slot key dbm.recs)) = none := by
        rw [assoc_get_eq_none_iff]
        intro hm
        apply hn
        obtain ⟨r, hr, e⟩ := List.mem_map.1 hm
        exact List.mem_map.2 ⟨r, List.mem_of_mem_take hr, e⟩
      simp [gdbm_fetch, assoc_get_append, ht, assoc_get]
  · rw [if_neg hw] at h
    injection h

/-- C1. Round trip: whenever `fgdbm_store` of a key and a value (any byte
sequences, the empty one included) returns normally, `fgdbm_aref` of that key
on the resulting session returns a String with exactly the stored bytes, and
leaves the session as it is. -/
theorem C1_store_then_aref {σ : Type} (w w1 : World σ) (k v : List Byte)
    (tk tv tk2 : Bool) (r : VALUE)
    (h : fgdbm_store w (.str k tk) (.str v tv) = (.ok r, w1)) :
    fgdbm_aref w1 (.str k tk2) = (.ok (.str v true), w1) := by
  unfold fgdbm_store at h
  cases hm : rb_gdbm_modify w with
  | error e => simp [hm] at h
  | ok u =>
    cases hg : GetDBM2 w with
    | error e => simp [hm, hg, StringValue] at h
    | ok p =>
      obtain ⟨dbmp, dbm⟩ := p
      cases hs : gdbm_store dbm k v with
      | error e =>
        simp only [hm, hg, hs, StringValue] at h
        split at h <;> simp at h
      | ok dbm1 =>
        simp only [hm, hg, hs, StringValue, Prod.mk.injEq, Except.ok.injEq] at h
        obtain ⟨-, hw1⟩ := h
        subst hw1
        have h1 := ((GetDBM2_ok_iff w dbmp dbm).1 hg).1
        simp [fgdbm_aref, rb_gdbm_fetch3, GetDBM2_set w dbmp (-1) dbm1 h1, rb_gdbm_fetch2,
          StringValue, rb_gdbm_fetch, gdbm_store_fetch_self hs, rb_tainted_str_new]

/-- Witness of C1 on an empty writable session, with the key `a` and the
value `x`. -/
theorem C1_store_then_aref_witness :
    fgdbm_aref (fgdbm_store (sample_world [] true (-1)) (.str [97] false) (.str [120] false)).2
        (.str [97] false) =
      (.ok (.str [120] true),
        (fgdbm_store (sample_world [] true (-1)) (.str [97] false) (.str [120] false)).2) :=
  C1_store_then_aref (sample_world [] true (-1)) _ [97] [120] false false false
    (.str [120] false) rfl

/-! ## Open sessions -/

theorem open_with_self {σ : Type} (w : World σ) (n : Int) (dbm : GDBM_FILE)
    (h : w.obj.dptr = some { di_size := n, di_dbm := some dbm }) : open_with w n dbm = w := by
  obtain ⟨⟨d, f⟩, s, e, v⟩ := w
  simp only at h
  subst h
  rfl

@[simp] theorem open_with_open_with {σ : Type} (w : World σ) (n m : Int) (d1 d2 : GDBM_FILE) :
    open_with (open_with w n d1) m d2 = open_with w m d2 := rfl

@[simp] theorem set_di_size_open_with {σ : Type} (w : World σ) (n m : Int) (d : GDBM_FILE) :
    set_di_size (open_with w n d) m = open_with w m d := rfl

@[simp] theorem set_di_dbm_open_with {σ : Type} (w : World σ) (n : Int) (d d1 : GDBM_FILE) :
    set_di_dbm (open_with w n d) (some d1) = open_with w n d1 := rfl

@[simp] theorem set_di_dbm_none_open_with {σ : Type} (w : World σ) (n : Int) (d : GDBM_FILE) :
    set_di_dbm (open_with w n d) none = closed_with w n := rfl

@[simp] theorem GetDBM2_open_with {σ : Type} (w : World σ) (n : Int) (d : GDBM_FILE) :
    GetDBM2 (open_with w n d) = .ok ({ di_size := n, di_dbm := some d }, d) := rfl

@[simp] theorem rb_gdbm_modify_open_with {σ : Type} (w : World σ) (n : Int) (d : GDBM_FILE) :
    rb_gdbm_modify (open_with w n d) = rb_gdbm_modify w := rfl

@[simp] theorem open_with_env {σ : Type} (w : World σ) (n : Int) (d : GDBM_FILE) :
    (open_with w n d).env = w.env := rfl

@[simp] theorem open_with_errno {σ : Type} (w : World σ) (n : Int) (d : GDBM_FILE) :
    (open_with w n d).errno = w.errno := rfl

@[simp] theorem open_with_dptr {σ : Type} (w : World σ) (n : Int) (d : GDBM_FILE) :
    (open_with w n d).obj.dptr = some { di_size := n, di_dbm := some d } := rfl

theorem rb_gdbm_modify_ok {σ : Type} (w : World σ) (hs : w.safe_level < 4)
    (hf : w.obj.frozen = false) : rb_gdbm_modify w = .ok () := by
  unfold rb_gdbm_modify
  rw [if_neg (by omega), hf]
  rfl

/-! ## Traversal -/

theorem key_after_split (pre post : List (datum × datum)) (k v : datum)
    (h : k ∉ keys_of pre) :
    key_after k (pre ++ (k, v) :: post) = (post.head?).map Prod.fst := by
  induction pre with
  | nil => simp [key_after]
  | cons a rest ih =>
    obtain ⟨k0, v0⟩ := a
    simp only [keys_of, List.map_cons, List.mem_cons, not_or] at h
    have hne : ¬ k0 = k := fun e => h.1 e.symm
    simp only [List.cons_append, key_after, if_neg hne]
    exact ih h.2

theorem gdbm_firstkey_eq (dbm : GDBM_FILE) : gdbm_firstkey dbm = cursor dbm.recs := rfl

/-- With unique keys, `gdbm_nextkey` moves the cursor one record on. -/
theorem gdbm_nextkey_split (dbm : GDBM_FILE) (pre post : List (datum × datum)) (k v : datum)
    (hrecs : dbm.recs = pre ++ (k, v) :: post) (nd : (keys_of dbm.recs).Nodup) :
    gdbm_nextkey dbm k = cursor post := by
  unfold gdbm_nextkey cursor
  rw [hrecs]
  apply key_after_split
  rw [hrecs] at nd
  simp only [keys_of, List.map_append, List.map_cons] at nd
  have := (List.nodup_append.1 nd).2.2
  intro hm
  exact this hm (List.mem_cons_self _ _) 

theorem fgdbm_length_loop_suffix (dbm : GDBM_FILE) (nd : (keys_of dbm.recs).Nodup)
    (suf : List (datum × datum)) :
    ∀ (pre : List (datum × datum)) (fuel : Nat) (i : Int),
      dbm.recs = pre ++ suf → suf.length < fuel →
      fgdbm_length_loop dbm fuel (cursor suf) i = some (i + suf.length) := by
  induction suf with
  | nil =>
    intro pre fuel i _ hf
    cases fuel with
    | zero => omega
    | succ f => simp [fgdbm_length_loop, cursor]
  | cons a rest ih =>
    intro pre fuel i hrecs hf
    obtain ⟨k, v⟩ := a
    cases fuel with
    | zero => omega
    | succ f =>
      simp only [fgdbm_length_loop, cursor, List.head?_cons, Option.map_some']
      rw [gdbm_nextkey_split dbm pre rest k v hrecs nd]
      rw [ih (pre ++ [(k, v)]) f (i + 1) (by simp [hrecs]) (by simpa using hf)]
      simp only [List.length_cons, Nat.cast_add, Nat.cast_one]
      congr 1
      omega

theorem fgdbm_length_loop_all (dbm : GDBM_FILE) (nd : (keys_of dbm.recs).Nodup)
    (fuel : Nat) (hf : dbm.recs.length < fuel) :
    fgdbm_length_loop dbm fuel (gdbm_firstkey dbm) 0 = some (dbm.recs.length : Int) := by
  rw [gdbm_firstkey_eq, fgdbm_length_loop_suffix dbm nd dbm.recs [] fuel 0 rfl hf]
  simp

/-! ## Engine calls keep the handle well formed -/

theorem gdbm_store_ok (dbm : GDBM_FILE) (key val : datum) (hw : dbm.writer = true) :
    ∃ dbm1, gdbm_store dbm key val = .ok dbm1 := by
  unfold gdbm_store
  rw [if_pos hw]
  by_cases he : gdbm_exists dbm key = true
  · rw [if_pos he]; exact ⟨_, rfl⟩
  · rw [if_neg he]; exact ⟨_, rfl⟩

theorem gdbm_store_facts {dbm dbm1 : GDBM_FILE} {key val : datum}
    (h : gdbm_store dbm key val = .ok dbm1) :
    dbm.writer = true ∧ dbm1.writer = true ∧ dbm1.settle = dbm.settle ∧ dbm1.slot = dbm.slot ∧
      dbm1.fast_write = dbm.fast_write ∧ dbm1.cache_set = dbm.cache_set ∧
      (key ∈ keys_of dbm.recs → dbm1.recs = assoc_set key val dbm.recs) ∧
      (key ∉ keys_of dbm.recs → dbm1.recs.Perm ((key, val) :: dbm.recs)) := by
  unfold gdbm_store at h
  by_cases hw : dbm.writer = true
  · by_cases he : gdbm_exists dbm key = true
    · rw [if_pos hw, if_pos he] at h
      injection h with h
      subst h
      have hm := (assoc_get_isSome_iff _ _).1 he
      exact ⟨hw, hw, rfl, rfl, rfl, rfl, fun _ => rfl, fun hn => absurd hm hn⟩
    · rw [if_pos hw, if_neg he] at h
      injection h with h
      subst h
      have hn : key ∉ keys_of dbm.recs := fun hm => he ((assoc_get_isSome_iff _ _).2 hm)
      refine ⟨hw, hw, rfl, rfl, rfl, rfl, fun hm => absurd hm hn, fun _ => ?_⟩
      refine List.perm_middle.trans ?_
      rw [List.take_append_drop]
  · rw [if_neg hw] at h
    injection h

theorem gdbm_store_wf {dbm dbm1 : GDBM_FILE} {key val : datum}
    (h : gdbm_store dbm key val = .ok dbm1) (hwf : dbm.wf) : dbm1.wf := by
  obtain ⟨-, -, hs, -, -, -, h1, h2⟩ := gdbm_store_facts h
  refine ⟨?_, by rw [hs]; exact hwf.2⟩
  by_cases hm : key ∈ keys_of dbm.recs
  · rw [h1 hm, keys_of_assoc_set]
    exact hwf.1
  · have p := (h2 hm).map Prod.fst
    refine p.nodup_iff.2 ?_
    simp only [List.map_cons, List.nodup_cons]
    exact ⟨hm, hwf.1⟩

theorem length_assoc_set (key val : datum) (l : List (datum × datum)) :
    (assoc_set key val l).length = l.length := by
  have := congrArg List.length (keys_of_assoc_set key val l)
  simpa [keys_of] using this

theorem gdbm_store_fetch_other {dbm dbm1 : GDBM_FILE} {key val : datum} (other : datum)
    (h : gdbm_store dbm key val = .ok dbm1) (hwf : dbm.wf) (hne : other ≠ key) :
    gdbm_fetch dbm1 other = gdbm_fetch dbm other := by
  obtain ⟨-, -, -, -, -, -, h1, h2⟩ := gdbm_store_facts h
  unfold gdbm_fetch
  by_cases hm : key ∈ keys_of dbm.recs
  · rw [h1 hm, assoc_get_set_other _ _ _ _ hne]
  · rw [assoc_get_perm (h2 hm) (gdbm_store_wf h hwf).1]
    have : ¬ key = other := fun e => hne e.symm
    simp [assoc_get, this]

theorem gdbm_delete_facts {dbm dbm1 : GDBM_FILE} {key : datum}
    (h : gdbm_delete dbm key = .ok dbm1) :
    dbm.writer = true ∧ dbm1.writer = true ∧ dbm1.settle = dbm.settle ∧ dbm1.slot = dbm.slot ∧
      dbm1.fast_write = dbm.fast_write ∧ dbm1.cache_set = dbm.cache_set ∧
      key ∈ keys_of dbm.recs ∧ dbm1.recs = dbm.settle key (assoc_del key dbm.recs) := by
  unfold gdbm_delete at h
  by_cases hw : dbm.writer = true
  · by_cases he : gdbm_exists dbm key = true
    · rw [if_pos hw, if_pos he] at h
      injection h with h
      subst h
      exact ⟨hw, hw, rfl, rfl, rfl, rfl, (assoc_get_isSome_iff _ _).1 he, rfl⟩
    · rw [if_pos hw, if_neg he] at h
      injection h
  · rw [if_neg hw] at h
    injection h

theorem gdbm_delete_ok (dbm : GDBM_FILE) (key : datum) (hw : dbm.writer = true)
    (he : gdbm_exists dbm key = true) :
    gdbm_delete dbm key =
      .ok { dbm with recs := dbm.settle key (assoc_del key dbm.recs) } := by
  unfold gdbm_delete
  rw [if_pos hw, if_pos he]

theorem gdbm_delete_perm {dbm dbm1 : GDBM_FILE} {key : datum}
    (h : gdbm_delete dbm key = .ok dbm1) (hwf : dbm.wf) :
    dbm1.recs.Perm (assoc_del key dbm.recs) := by
  obtain ⟨-, -, -, -, -, -, -, hr⟩ := gdbm_delete_facts h
  rw [hr]
  exact hwf.2 _ _

theorem gdbm_delete_wf {dbm dbm1 : GDBM_FILE} {key : datum}
    (h : gdbm_delete dbm key = .ok dbm1) (hwf : dbm.wf) : dbm1.wf := by
  obtain ⟨-, -, hs, -, -, -, -, -⟩ := gdbm_delete_facts h
  refine ⟨?_, by rw [hs]; exact hwf.2⟩
  exact ((gdbm_delete_perm h hwf).map Prod.fst).nodup_iff.2 (keys_of_assoc_del_nodup hwf.1)

theorem gdbm_delete_fetch_self {dbm dbm1 : GDBM_FILE} {key : datum}
    (h : gdbm_delete dbm key = .ok dbm1) (hwf : dbm.wf) : gdbm_fetch dbm1 key = none := by
  unfold gdbm_fetch
  rw [assoc_get_perm (gdbm_delete_perm h hwf) (gdbm_delete_wf h hwf).1]
  exact assoc_get_del_self _ _

theorem gdbm_delete_fetch_other {dbm dbm1 : GDBM_FILE} {key : datum} (other : datum)
    (h : gdbm_delete dbm key = .ok dbm1) (hwf : dbm.wf) (hne : other ≠ key) :
    gdbm_fetch dbm1 other = gdbm_fetch dbm other := by
  unfold gdbm_fetch
  rw [assoc_get_perm (gdbm_delete_perm h hwf) (gdbm_delete_wf h hwf).1]
  exact assoc_get_del_other _ _ _ hne

theorem length_assoc_del_of_mem {key : datum} {l : List (datum × datum)}
    (nd : (keys_of l).Nodup) (hm : key ∈ keys_of l) :
    (assoc_del key l).length + 1 = l.length := by
  induction l with
  | nil => simp [keys_of] at hm
  | cons a rest ih =>
    obtain ⟨k, v⟩ := a
    simp only [keys_of, List.map_cons, List.nodup_cons] at nd
    by_cases hk : k = key
    · subst hk
      have : assoc_del k rest = rest := by
        rw [assoc_del_eq_filter]
        apply List.filter_eq_self.2
        intro r hr
        simp only [ne_eq, decide_not, Bool.not_eq_true', decide_eq_false_iff_not]
        intro e
        exact nd.1 (List.mem_map.2 ⟨r, hr, e⟩)
      simp [assoc_del, this]
    · have hm2 : key ∈ keys_of rest := by
        simp only [keys_of, List.map_cons, List.mem_cons] at hm
        rcases hm with e | e
        · exact absurd e.symm hk
        · exact e
      simp [assoc_del, hk, ih nd.2 hm2]

theorem gdbm_delete_length {dbm dbm1 : GDBM_FILE} {key : datum}
    (h : gdbm_delete dbm key = .ok dbm1) (hwf : dbm.wf) :
    dbm1.recs.length + 1 = dbm.recs.length := by
  rw [(gdbm_delete_perm h hwf).length_eq]
  exact length_assoc_del_of_mem hwf.1 (gdbm_delete_facts h).2.2.2.2.2.2.1

/-! ## The point operations on an open session -/

theorem fgdbm_store_open {σ : Type} (w : World σ) (n : Int) (dbm dbm1 : GDBM_FILE)
    (k v : List Byte) (tk tv : Bool) (hs : w.safe_level < 4) (hf : w.obj.frozen = false)
    (h : gdbm_store dbm k v = .ok dbm1) :
    fgdbm_store (open_with w n dbm) (.str k tk) (.str v tv) =
      (.ok (.str v tv), open_with w (-1) dbm1) := by
  simp [fgdbm_store, rb_gdbm_modify_ok w hs hf, StringValue, h]

theorem fgdbm_aref_open {σ : Type} (w : World σ) (n : Int) (dbm : GDBM_FILE)
    (k : List Byte) (tk : Bool) :
    fgdbm_aref (open_with w n dbm) (.str k tk) =
      (.ok (rb_gdbm_fetch dbm k), open_with w n dbm) := by
  simp [fgdbm_aref, rb_gdbm_fetch3, rb_gdbm_fetch2, StringValue]

theorem fgdbm_length_open_scan {σ : Type} (w : World σ) (n : Int) (dbm : GDBM_FILE)
    (fuel : Nat) (hn : n ≤ 0) (hwf : dbm.wf) (hfuel : dbm.recs.length < fuel) :
    fgdbm_length fuel (open_with w n dbm) =
      some (.ok (.fix dbm.recs.length), open_with w dbm.recs.length dbm) := by
  have hn2 : ¬ 0 < n := by omega
  simp [fgdbm_length, hn2, fgdbm_length_loop_all dbm hwf.1 fuel hfuel, INT2FIX]

theorem fgdbm_length_open_cached {σ : Type} (w : World σ) (n : Int) (dbm : GDBM_FILE)
    (fuel : Nat) (hn : 0 < n) :
    fgdbm_length fuel (open_with w n dbm) = some (.ok (.fix n), open_with w n dbm) := by
  simp [fgdbm_length, hn, INT2FIX]

/-- C2. Overwrite: on an open writable session with a well-formed engine,
`store(k,v1); length; store(k,v2)` all return, `aref(k)` then returns `v2`,
the cached count is unknown (`-1`) right after the second store, and `length`
after the second store returns the same number as the `length` between the
two stores.  The same `aref` result holds when no `length` is called in
between. -/
theorem C2_overwrite {σ : Type} (w : World σ) (n : Int) (dbm : GDBM_FILE)
    (k v1 v2 : List Byte) (tk tv : Bool) (fuel : Nat)
    (hopen : w.obj.dptr = some { di_size := n, di_dbm := some dbm })
    (hwr : dbm.writer = true) (hs : w.safe_level < 4) (hf : w.obj.frozen = false)
    (hwf : dbm.wf) (hfuel : dbm.recs.length + 1 < fuel) :
    ∃ (w1 w2 w3 w4 : World σ) (c : Int),
      fgdbm_store w (.str k tk) (.str v1 tv) = (.ok (.str v1 tv), w1) ∧
      fgdbm_length fuel w1 = some (.ok (.fix c), w2) ∧
      fgdbm_store w2 (.str k tk) (.str v2 tv) = (.ok (.str v2 tv), w3) ∧
      w3.obj.dptr.map dbmdata.di_size = some (-1) ∧
      fgdbm_aref w3 (.str k tk) = (.ok (.str v2 true), w3) ∧
      fgdbm_length fuel w3 = some (.ok (.fix c), w4) ∧
      fgdbm_aref (fgdbm_store w1 (.str k tk) (.str v2 tv)).2 (.str k tk) =
        (.ok (.str v2 true), (fgdbm_store w1 (.str k tk) (.str v2 tv)).2) := by
  obtain ⟨d1, h1⟩ := gdbm_store_ok dbm k v1 hwr
  have hw1 := (gdbm_store_facts h1).2.1
  obtain ⟨d2, h2⟩ := gdbm_store_ok d1 k v2 hw1
  have wf1 := gdbm_store_wf h1 hwf
  have wf2 := gdbm_store_wf h2 wf1
  have hk1 : k ∈ keys_of d1.recs := by
    rw [← assoc_get_isSome_iff]
    have := gdbm_store_fetch_self h1
    unfold gdbm_fetch at this
    simp [this]
  have hlen2 : d2.recs.length = d1.recs.length := by
    rw [(gdbm_store_facts h2).2.2.2.2.2.2.1 hk1, length_assoc_set]
  have hlen1 : d1.recs.length ≤ dbm.recs.length + 1 := by
    by_cases hm : k ∈ keys_of dbm.recs
    · rw [(gdbm_store_facts h1).2.2.2.2.2.2.1 hm, length_assoc_set]
      omega
    · rw [((gdbm_store_facts h1).2.2.2.2.2.2.2 hm).length_eq]
      simp
  rw [← open_with_self w n dbm hopen]
  refine ⟨open_with w (-1) d1, open_with w d1.recs.length d1, open_with w (-1) d2,
    open_with w d1.recs.length d2, d1.recs.length, ?_, ?_, ?_, ?_, ?_, ?_, ?_⟩
  · exact fgdbm_store_open w n dbm d1 k v1 tk tv hs hf h1
  · exact fgdbm_length_open_scan w (-1) d1 fuel (by omega) wf1 (by omega)
  · exact fgdbm_store_open w _ d1 d2 k v2 tk tv hs hf h2
  · rfl
  · rw [fgdbm_aref_open]
    simp [rb_gdbm_fetch, gdbm_store_fetch_self h2, rb_tainted_str_new]
  · rw [fgdbm_length_open_scan w (-1) d2 fuel (by omega) wf2 (by omega), hlen2]
  · rw [fgdbm_store_open w _ d1 d2 k v2 tk tv hs hf h2, fgdbm_aref_open]
    simp [rb_gdbm_fetch, gdbm_store_fetch_self h2, rb_tainted_str_new]

theorem sample_dbm_wf (recs : List (datum × datum)) (writer : Bool)
    (nd : (keys_of recs).Nodup) : (sample_dbm recs writer).wf :=
  ⟨nd, fun _ _ => List.Perm.refl _⟩

/-- Witness of C2 on an empty writable session: the key `a` gets the value `x`
and then the value `y`. -/
theorem C2_overwrite_witness :
    ∃ (w1 w2 w3 w4 : World Unit) (c : Int),
      fgdbm_store (sample_world [] true (-1)) (.str [97] false) (.str [120] false) =
        (.ok (.str [120] false), w1) ∧
      fgdbm_length 5 w1 = some (.ok (.fix c), w2) ∧
      fgdbm_store w2 (.str [97] false) (.str [121] false) = (.ok (.str [121] false), w3) ∧
      w3.obj.dptr.map dbmdata.di_size = some (-1) ∧
      fgdbm_aref w3 (.str [97] false) = (.ok (.str [121] true), w3) ∧
      fgdbm_length 5 w3 = some (.ok (.fix c), w4) ∧
      fgdbm_aref (fgdbm_store w1 (.str [97] false) (.str [121] false)).2 (.str [97] false) =
        (.ok (.str [121] true), (fgdbm_store w1 (.str [97] false) (.str [121] false)).2) :=
  C2_overwrite (sample_world [] true (-1)) (-1) (sample_dbm [] true) [97] [120] [121]
    false false 5 rfl rfl (by decide) rfl (sample_dbm_wf [] true (by decide)) (by decide)

theorem fgdbm_fetch_open_present {σ : Type} (blk : Option (Block σ)) (w : World σ) (n : Int)
    (dbm : GDBM_FILE) (k v : List Byte) (tk : Bool) (ifnone : VALUE)
    (h : gdbm_fetch dbm k = some v) :
    fgdbm_fetch blk (open_with w n dbm) (.str k tk) ifnone =
      (.ok (.str v true), open_with w n dbm) := by
  simp [fgdbm_fetch, rb_gdbm_fetch3, rb_gdbm_fetch2, StringValue, rb_gdbm_fetch, h,
    rb_tainted_str_new, NIL_P]

theorem rb_gdbm_delete_open {σ : Type} (w : World σ) (n : Int) (dbm dbm1 : GDBM_FILE)
    (k : List Byte) (tk : Bool) (hs : w.safe_level < 4) (hf : w.obj.frozen = false)
    (h : gdbm_delete dbm k = .ok dbm1) :
    rb_gdbm_delete (open_with w n dbm) (.str k tk) =
      (.ok .data, open_with w (if 0 ≤ n then n - 1 else n) dbm1) := by
  have he : gdbm_exists dbm k = true :=
    (assoc_get_isSome_iff _ _).2 (gdbm_delete_facts h).2.2.2.2.2.2.1
  by_cases hn : 0 ≤ n
  · simp [rb_gdbm_delete, rb_gdbm_modify_ok w hs hf, StringValue, he, h, hn]
  · simp [rb_gdbm_delete, rb_gdbm_modify_ok w hs hf, StringValue, he, h, hn]

theorem rb_gdbm_delete_open_absent {σ : Type} (w : World σ) (n : Int) (dbm : GDBM_FILE)
    (k : List Byte) (tk : Bool) (hs : w.safe_level < 4) (hf : w.obj.frozen = false)
    (he : gdbm_exists dbm k = false) :
    rb_gdbm_delete (open_with w n dbm) (.str k tk) = (.ok .Qnil, open_with w n dbm) := by
  simp [rb_gdbm_delete, rb_gdbm_modify_ok w hs hf, StringValue, he]

theorem fgdbm_has_key_open {σ : Type} (w : World σ) (n : Int) (dbm : GDBM_FILE)
    (k : List Byte) (tk : Bool) :
    fgdbm_has_key (open_with w n dbm) (.str k tk) =
      (.ok (if gdbm_exists dbm k then .Qtrue else .Qfalse), open_with w n dbm) := by
  by_cases he : gdbm_exists dbm k = true
  · simp [fgdbm_has_key, StringValue, he]
  · simp [fgdbm_has_key, StringValue, he]

/-- C3. Delete: on an open writable session with a well-formed engine, after
`store(k,v)` the call `delete(k)` (with or without a block) returns a String
with the bytes `v`; afterwards `aref(k)` returns nil, `has_key?(k)` returns
false, and `aref` of every other key returns what it returned before the
delete and before the store. -/
theorem C3_delete {σ : Type} (blk : Option (Block σ)) (w : World σ) (n : Int)
    (dbm : GDBM_FILE) (k v : List Byte) (tk tv : Bool)
    (hopen : w.obj.dptr = some { di_size := n, di_dbm := some dbm })
    (hwr : dbm.writer = true) (hs : w.safe_level < 4) (hf : w.obj.frozen = false)
    (hwf : dbm.wf) :
    ∃ (w1 w2 : World σ),
      fgdbm_store w (.str k tk) (.str v tv) = (.ok (.str v tv), w1) ∧
      fgdbm_delete blk w1 (.str k tk) = (.ok (.str v true), w2) ∧
      fgdbm_aref w2 (.str k tk) = (.ok .Qnil, w2) ∧
      fgdbm_has_key w2 (.str k tk) = (.ok .Qfalse, w2) ∧
      ∀ (k2 : List Byte) (t2 : Bool), k2 ≠ k →
        (fgdbm_aref w2 (.str k2 t2)).1 = (fgdbm_aref w1 (.str k2 t2)).1 ∧
        (fgdbm_aref w2 (.str k2 t2)).1 = (fgdbm_aref w (.str k2 t2)).1 := by
  obtain ⟨d1, h1⟩ := gdbm_store_ok dbm k v hwr
  have hw1 := (gdbm_store_facts h1).2.1
  have wf1 := gdbm_store_wf h1 hwf
  have hfetch := gdbm_store_fetch_self h1
  have he1 : gdbm_exists d1 k = true := by
    unfold gdbm_exists
    unfold gdbm_fetch at hfetch
    simp [hfetch]
  have h2 := gdbm_delete_ok d1 k hw1 he1
  generalize hd2 : ({ d1 with recs := d1.settle k (assoc_del k d1.recs) } : GDBM_FILE) = d2 at h2
  have hnone := gdbm_delete_fetch_self h2 wf1
  rw [← open_with_self w n dbm hopen]
  refine ⟨open_with w (-1) d1, open_with w (-1) d2, ?_, ?_, ?_, ?_, ?_⟩
  · exact fgdbm_store_open w n dbm d1 k v tk tv hs hf h1
  · simp [fgdbm_delete, fgdbm_fetch_open_present blk w (-1) d1 k v tk .Qnil hfetch,
      rb_gdbm_delete_open w (-1) d1 d2 k tk hs hf h2]
  · rw [fgdbm_aref_open]
    simp [rb_gdbm_fetch, hnone]
  · rw [fgdbm_has_key_open]
    unfold gdbm_fetch at hnone
    simp [gdbm_exists, hnone]
  · intro k2 t2 hne
    simp only [fgdbm_aref_open, rb_gdbm_fetch]
    rw [gdbm_delete_fetch_other k2 h2 wf1 hne, gdbm_store_fetch_other k2 h1 hwf hne]
    exact ⟨rfl, rfl⟩

/-- Witness of C3 on a writable session that already holds the record
`b => y`: the key `a` is stored with the value `x` and deleted again. -/
theorem C3_delete_witness :
    ∃ (w1 w2 : World Unit),
      fgdbm_store (sample_world [([98], [121])] true (-1)) (.str [97] false) (.str [120] false) =
        (.ok (.str [120] false), w1) ∧
      fgdbm_delete none w1 (.str [97] false) = (.ok (.str [120] true), w2) ∧
      fgdbm_aref w2 (.str [97] false) = (.ok .Qnil, w2) ∧
      fgdbm_has_key w2 (.str [97] false) = (.ok .Qfalse, w2) ∧
      ∀ (k2 : List Byte) (t2 : Bool), k2 ≠ [97] →
        (fgdbm_aref w2 (.str k2 t2)).1 = (fgdbm_aref w1 (.str k2 t2)).1 ∧
        (fgdbm_aref w2 (.str k2 t2)).1 =
          (fgdbm_aref (sample_world [([98], [121])] true (-1)) (.str k2 t2)).1 :=
  C3_delete none (sample_world [([98], [121])] true (-1)) (-1) (sample_dbm [([98], [121])] true)
    [97] [120] false false rfl rfl (by decide) rfl
    (sample_dbm_wf [([98], [121])] true (by decide))

/-! ## Closed sessions -/

@[simp] theorem GetDBM2_closed_with {σ : Type} (w : World σ) (n : Int) :
    GetDBM2 (closed_with w n) = .error closed_dbm := rfl

@[simp] theorem GetDBM_closed_with {σ : Type} (w : World σ) (n : Int) :
    GetDBM (closed_with w n) = .error closed_dbm := rfl

@[simp] theorem rb_gdbm_modify_closed_with {σ : Type} (w : World σ) (n : Int) :
    rb_gdbm_modify (closed_with w n) = rb_gdbm_modify w := rfl

@[simp] theorem rb_gdbm_fetch3_closed_with {σ : Type} (w : World σ) (n : Int) (k : VALUE) :
    rb_gdbm_fetch3 (closed_with w n) k = .error closed_dbm := rfl

theorem fgdbm_close_returns {σ : Type} (w0 w : World σ) (r : VALUE)
    (h : fgdbm_close w0 = (.ok r, w)) : ∃ n, w = closed_with w0 n := by
  unfold fgdbm_close GetDBM at h
  cases hd : w0.obj.dptr with
  | none => simp [hd] at h
  | some dbmp =>
    cases hg : dbmp.di_dbm with
    | none => simp [hd, hg] at h
    | some g =>
      simp only [hd, hg, Prod.mk.injEq] at h
      refine ⟨dbmp.di_size, ?_⟩
      rw [← h.2]
      simp [set_di_dbm, hd, closed_with]

theorem may_modify_ok {σ : Type} (w : World σ) (h : may_modify w = true) :
    rb_gdbm_modify w = .ok () := by
  simp only [may_modify, Bool.and_eq_true, decide_eq_true_eq, Bool.not_eq_true'] at h
  exact rb_gdbm_modify_ok w h.1 h.2

theorem is_str_eq_true {v : VALUE} (h : is_str v = true) : ∃ b t, v = .str b t := by
  cases v <;> simp [is_str] at h
  exact ⟨_, _, rfl⟩

theorem fetch_each_closed {σ : Type} (w : World σ) (n : Int) (k : VALUE) (rest new : List VALUE) :
    fetch_each (closed_with w n) (k :: rest) new = .error closed_dbm := rfl

/-- C4, as amended. On a session on which `close` has returned, every listed
method call that gets as far as the handle check of its C function
(`reaches_GetDBM`) fails with the error `closed GDBM file`, leaves the session
as it is, and `closed?` answers true. -/
theorem C4_closed_guard {σ : Type} (syncmode_defined : Bool) (op : Op)
    (blk : Option (Block σ)) (fuel : Nat) (argv : List VALUE) (w0 w : World σ)
    (hclose : fgdbm_close w0 = (.ok .Qnil, w))
    (hg : reaches_GetDBM op blk argv w = true) :
    call syncmode_defined op blk fuel argv w = some (.error closed_dbm, w) ∧
      fgdbm_closed w = .Qtrue := by
  obtain ⟨n, hw⟩ := fgdbm_close_returns w0 w _ hclose
  subst hw
  refine ⟨?_, rfl⟩
  cases op
  case fetch =>
    match argv, hg with
    | [k], _ => rfl
    | [k, d], _ => rfl
  case select =>
    cases blk with
    | none =>
      match argv, hg with
      | k :: rest, _ => simp [call, fgdbm_select, fetch_each_closed]
    | some b =>
      match argv, hg with
      | [], _ => rfl
  case values_at =>
    match argv, hg with
    | k :: rest, _ => simp [call, fgdbm_values_at, fetch_each_closed]
  case store =>
    match argv, hg with
    | [a, b], h =>
      simp only [reaches_GetDBM, Bool.and_eq_true, List.all_cons, List.all_nil,
        Bool.and_true] at h
      have hm : rb_gdbm_modify w0 = .ok () := may_modify_ok _ h.2
      obtain ⟨k, tk, rfl⟩ := is_str_eq_true h.1.2.1
      obtain ⟨v, tv, rfl⟩ := is_str_eq_true h.1.2.2
      simp [call, fgdbm_store, hm, StringValue]
  case key =>
    match argv, hg with
    | [a], h =>
      simp only [reaches_GetDBM, Bool.and_eq_true, List.all_cons, List.all_nil,
        Bool.and_true] at h
      obtain ⟨v, tv, rfl⟩ := is_str_eq_true h.2
      rfl
  case has_key =>
    match argv, hg with
    | [a], h =>
      simp only [reaches_GetDBM, Bool.and_eq_true, List.all_cons, List.all_nil,
        Bool.and_true] at h
      obtain ⟨v, tv, rfl⟩ := is_str_eq_true h.2
      rfl
  case has_value =>
    match argv, hg with
    | [a], h =>
      simp only [reaches_GetDBM, Bool.and_eq_true, List.all_cons, List.all_nil,
        Bool.and_true] at h
      obtain ⟨v, tv, rfl⟩ := is_str_eq_true h.2
      rfl
  case aref =>
    match argv, hg with
    | [k], _ => rfl
  case delete =>
    match argv, hg with
    | [k], _ => rfl
  case set_cachesize =>
    match argv, hg with
    | [k], _ => rfl
  case set_fastmode =>
    match argv, hg with
    | [k], _ => rfl
  case set_syncmode =>
    match argv, hg with
    | [k], _ => cases syncmode_defined <;> rfl
  case shift =>
    match argv, hg with
    | [], h =>
      simp only [reaches_GetDBM, Bool.and_eq_true] at h
      have hm : rb_gdbm_modify w0 = .ok () := may_modify_ok _ h.2
      simp [call, fgdbm_shift, hm]
  case delete_if =>
    match argv, hg with
    | [], h =>
      simp only [reaches_GetDBM, Bool.and_eq_true] at h
      have hm : rb_gdbm_modify w0 = .ok () := may_modify_ok _ h.2
      simp [call, fgdbm_delete_if, hm]
  case clear =>
    match argv, hg with
    | [], h =>
      simp only [reaches_GetDBM, Bool.and_eq_true] at h
      have hm : rb_gdbm_modify w0 = .ok () := may_modify_ok _ h.2
      simp [call, fgdbm_clear, hm]
  case reorganize =>
    match argv, hg with
    | [], h =>
      simp only [reaches_GetDBM, Bool.and_eq_true] at h
      have hm : rb_gdbm_modify w0 = .ok () := may_modify_ok _ h.2
      simp [call, fgdbm_reorganize, hm]
  case sync =>
    match argv, hg with
    | [], h =>
      simp only [reaches_GetDBM, Bool.and_eq_true] at h
      have hm : rb_gdbm_modify w0 = .ok () := may_modify_ok _ h.2
      simp [call, fgdbm_sync, hm]
  all_goals
    match argv, hg with
    | [], _ => rfl

/-- Counterexample to C4 as stated: on a closed session `values_at` and
`select` without a block return an empty array when they are given no key,
and other calls fail before the handle check with another error. -/
theorem C4_counterexample :
    fgdbm_close (sample_world [] true (-1)) = (.ok .Qnil, sample_closed) ∧
      fgdbm_closed sample_closed = .Qtrue ∧
      call false .values_at none 0 [] sample_closed = some (.ok (.ary []), sample_closed) ∧
      call false .select none 0 [] sample_closed = some (.ok (.ary []), sample_closed) ∧
      call false .has_key none 0 [.Qnil] sample_closed =
        some (.error (.TypeError "can't convert into String"), sample_closed) ∧
      call false .keys none 0 [.Qnil] sample_closed =
        some (.error (.ArgError "wrong number of arguments"), sample_closed) :=
  ⟨rfl, rfl, rfl, rfl, rfl, rfl⟩

/-- Witness of C4: `aref` on the closed sample session. -/
theorem C4_closed_guard_witness :
    call false .aref none 0 [.str [97] false] sample_closed =
        some (.error closed_dbm, sample_closed) ∧
      fgdbm_closed sample_closed = .Qtrue :=
  C4_closed_guard false .aref none 0 [.str [97] false] (sample_world [] true (-1))
    sample_closed rfl rfl

/-! ## `delete_if` -/

theorem rb_gdbm_firstkey_eq (dbm : GDBM_FILE) :
    rb_gdbm_firstkey dbm = key_value (cursor dbm.recs) := by
  unfold rb_gdbm_firstkey key_value
  rw [gdbm_firstkey_eq]

theorem rb_gdbm_nextkey_split (dbm : GDBM_FILE) (pre post : List (datum × datum)) (k v : datum)
    (t : Bool) (hrecs : dbm.recs = pre ++ (k, v) :: post) (nd : (keys_of dbm.recs).Nodup) :
    rb_gdbm_nextkey dbm (.str k t) = key_value (cursor post) := by
  unfold rb_gdbm_nextkey key_value
  simp only [gdbm_nextkey_split dbm pre post k v hrecs nd]

theorem gdbm_fetch_split (dbm : GDBM_FILE) (pre post : List (datum × datum)) (k v : datum)
    (hrecs : dbm.recs = pre ++ (k, v) :: post) (nd : (keys_of dbm.recs).Nodup) :
    gdbm_fetch dbm k = some v := by
  unfold gdbm_fetch
  apply assoc_get_of_mem nd
  rw [hrecs]
  simp

@[simp] theorem RTEST_str (k : List Byte) (t : Bool) : RTEST (.str k t) = true := rfl

@[simp] theorem RTEST_Qnil : RTEST .Qnil = false := rfl

theorem judge_keeps {σ : Type} (b : Block σ) (hb : keeps_session b)
    (l : List (datum × datum)) :
    ∀ w : World σ, (judge b l w).2.2.obj = w.obj ∧
      (judge b l w).2.2.safe_level = w.safe_level := by
  induction l with
  | nil => intro w; exact ⟨rfl, rfl⟩
  | cons a rest ih =>
    intro w
    obtain ⟨k, v⟩ := a
    have hk := hb (rb_assoc_new (rb_tainted_str_new k) (rb_tainted_str_new v)) w
    simp only [judge]
    cases h : b (rb_assoc_new (rb_tainted_str_new k) (rb_tainted_str_new v)) w with
    | mk r w1 =>
      rw [h] at hk
      cases r with
      | error e => exact hk
      | ok ret =>
        simp only
        have := ih w1
        exact ⟨this.1.trans hk.1, this.2.trans hk.2⟩

theorem fgdbm_delete_if_collect_judge {σ : Type} (b : Block σ) (hb : keeps_session b)
    (dbm : GDBM_FILE) (nd : (keys_of dbm.recs).Nodup) (n : Int)
    (suf : List (datum × datum)) :
    ∀ (pre : List (datum × datum)) (fuel : Nat) (w : World σ) (ary : List VALUE),
      dbm.recs = pre ++ suf → suf.length < fuel →
      w.obj.dptr = some { di_size := n, di_dbm := some dbm } →
      fgdbm_delete_if_collect (some b) fuel w dbm (key_value (cursor suf)) ary =
        some (.ok (ary ++ (judge b suf w).1.map rb_tainted_str_new, (judge b suf w).2.1),
          (judge b suf w).2.2) := by
  induction suf with
  | nil =>
    intro pre fuel w ary _ hf _
    cases fuel with
    | zero => omega
    | succ f => simp [fgdbm_delete_if_collect, cursor, key_value, judge]
  | cons a rest ih =>
    intro pre fuel w ary hrecs hf hw
    obtain ⟨k, v⟩ := a
    cases fuel with
    | zero => omega
    | succ f =>
      have hfetch := gdbm_fetch_split dbm pre rest k v hrecs nd
      have hk := hb (rb_assoc_new (rb_tainted_str_new k) (rb_tainted_str_new v)) w
      simp only [fgdbm_delete_if_collect, cursor, key_value, List.head?_cons, Option.map_some',
        rb_tainted_str_new, RTEST_str, if_true, rb_gdbm_fetch2, StringValue, rb_gdbm_fetch,
        hfetch, rb_yield, judge]
      cases h : b (rb_assoc_new (.str k true) (.str v true)) w with
      | mk r w1 =>
        simp only [rb_tainted_str_new, h] at hk
        cases r with
        | error e => simp
        | ok ret =>
          have hw1 : w1.obj.dptr = some { di_size := n, di_dbm := some dbm } := by
            rw [hk.1]; exact hw
          have hg : GetDBM2 w1 = .ok ({ di_size := n, di_dbm := some dbm }, dbm) :=
            (GetDBM2_ok_iff _ _ _).2 ⟨hw1, rfl⟩
          simp only [hg]
          rw [rb_gdbm_nextkey_split dbm pre rest k v true hrecs nd]
          rw [ih (pre ++ [(k, v)]) f w1 _ (by simp [hrecs]) (by simpa using hf) hw1]
          by_cases ht : RTEST ret = true
          · simp [ht, rb_tainted_str_new]
          · simp [ht]

theorem judge_sublist {σ : Type} (b : Block σ) (l : List (datum × datum)) :
    ∀ w : World σ, ((judge b l w).1).Sublist (keys_of l) := by
  induction l with
  | nil => intro w; simp [judge, keys_of]
  | cons a rest ih =>
    intro w
    obtain ⟨k, v⟩ := a
    simp only [judge, keys_of, List.map_cons]
    cases h : b (rb_assoc_new (rb_tainted_str_new k) (rb_tainted_str_new v)) w with
    | mk r w1 =>
      cases r with
      | error e => simp
      | ok ret =>
        simp only
        have := ih w1
        simp only [keys_of] at this
        by_cases ht : RTEST ret = true
        · simp only [ht, if_true]
          exact List.Sublist.cons₂ _ this
        · simp only [ht]
          exact List.Sublist.cons _ this

theorem fgdbm_delete_if_sweep_open {σ : Type} (ks : List datum) :
    ∀ (w : World σ) (n : Int) (d : GDBM_FILE),
      w.safe_level < 4 → w.obj.frozen = false → d.writer = true → d.wf → ks.Nodup →
      (∀ k ∈ ks, k ∈ keys_of d.recs) → n < 0 →
      ∃ d1 : GDBM_FILE,
        fgdbm_delete_if_sweep (ks.map rb_tainted_str_new) (open_with w n d) =
          (.ok (), open_with w n d1) ∧
        d1.wf ∧ d1.writer = true ∧
        d1.recs.Perm (d.recs.filter (fun r => decide (r.1 ∉ ks))) := by
  induction ks with
  | nil =>
    intro w n d _ _ hwr hwf _ _ _
    exact ⟨d, rfl, hwf, hwr, by simp⟩
  | cons k rest ih =>
    intro w n d hs hf hwr hwf hnd hmem hn
    have hk : k ∈ keys_of d.recs := hmem k (List.mem_cons_self _ _)
    have he : gdbm_exists d k = true := (assoc_get_isSome_iff _ _).2 hk
    have h1 := gdbm_delete_ok d k hwr he
    generalize ({ d with recs := d.settle k (assoc_del k d.recs) } : GDBM_FILE) = d1 at h1
    have wf1 := gdbm_delete_wf h1 hwf
    have hw1 := (gdbm_delete_facts h1).2.1
    have hp1 := gdbm_delete_perm h1 hwf
    have hnd2 := List.nodup_cons.1 hnd
    have hmem1 : ∀ k2 ∈ rest, k2 ∈ keys_of d1.recs := by
      intro k2 hk2
      have hne : k2 ≠ k := fun e => hnd2.1 (e ▸ hk2)
      obtain ⟨r, hr, e⟩ := List.mem_map.1 (hmem k2 (List.mem_cons_of_mem _ hk2))
      refine List.mem_map.2 ⟨r, hp1.mem_iff.2 (mem_assoc_del.2 ⟨hr, ?_⟩), e⟩
      rw [e]; exact hne
    obtain ⟨d2, hsweep, wf2, hw2, hp2⟩ := ih w n d1 hs hf hw1 wf1 hnd2.2 hmem1 hn
    refine ⟨d2, ?_, wf2, hw2, ?_⟩
    · have hneg : ¬ 0 ≤ n := by omega
      simp only [List.map_cons, fgdbm_delete_if_sweep, rb_tainted_str_new,
        rb_gdbm_delete_open w n d d1 k true hs hf h1, hneg, if_false]
      exact hsweep
    · refine hp2.trans ((hp1.filter _).trans ?_)
      rw [assoc_del_eq_filter, List.filter_filter]
      apply List.Perm.of_eq
      apply List.filter_congr
      intro r _
      by_cases e : r.1 = k <;> simp [e]

/-- What `fgdbm_delete_if` does with a block that leaves the session alone,
on an open writable session with a well-formed engine: it makes the
reference pass `judge`, deletes the keys the block accepted, and then returns
or re-raises the pending exception of the block. -/
theorem fgdbm_delete_if_pure {σ : Type} (b : Block σ) (hb : keeps_session b) (w : World σ)
    (n : Int) (dbm : GDBM_FILE) (fuel : Nat)
    (hopen : w.obj.dptr = some { di_size := n, di_dbm := some dbm })
    (hwr : dbm.writer = true) (hs : w.safe_level < 4) (hf : w.obj.frozen = false)
    (hwf : dbm.wf) (hfuel : dbm.recs.length < fuel) :
    ∃ d1 : GDBM_FILE, d1.wf ∧ d1.writer = true ∧
      d1.recs.Perm (dbm.recs.filter
        (fun r => decide (r.1 ∉ (judge b dbm.recs (open_with w (-1) dbm)).1))) ∧
      fgdbm_delete_if (some b) fuel w =
        some (match (judge b dbm.recs (open_with w (-1) dbm)).2.1 with
          | some e => (.error e, open_with (judge b dbm.recs (open_with w (-1) dbm)).2.2 (-1) d1)
          | none =>
            (.ok .data, open_with (judge b dbm.recs (open_with w (-1) dbm)).2.2
              (if 0 < n then n - ((judge b dbm.recs (open_with w (-1) dbm)).1.length : Int)
                else -1) d1)) := by
  generalize hJ : judge b dbm.recs (open_with w (-1) dbm) = J
  have hkeep := judge_keeps b hb dbm.recs (open_with w (-1) dbm)
  have hsub := judge_sublist b dbm.recs (open_with w (-1) dbm)
  have hcollect := fgdbm_delete_if_collect_judge b hb dbm hwf.1 (-1) dbm.recs [] fuel
    (open_with w (-1) dbm) [] rfl hfuel rfl
  rw [hJ] at hkeep hsub hcollect
  have hJw : open_with J.2.2 (-1) dbm = J.2.2 := by
    apply open_with_self
    rw [hkeep.1]
    rfl
  have hs2 : J.2.2.safe_level < 4 := by rw [hkeep.2]; exact hs
  have hf2 : J.2.2.obj.frozen = false := by rw [hkeep.1]; exact hf
  obtain ⟨d1, hsweep, wf1, hw1, hp1⟩ := fgdbm_delete_if_sweep_open J.1 J.2.2 (-1) dbm hs2 hf2
    hwr hwf (hsub.nodup hwf.1) (fun k hk => hsub.subset hk) (by omega)
  rw [hJw] at hsweep
  refine ⟨d1, wf1, hw1, hp1, ?_⟩
  rw [← open_with_self w n dbm hopen]
  simp only [fgdbm_delete_if, rb_gdbm_modify_open_with, rb_gdbm_modify_ok w hs hf,
    GetDBM2_open_with, set_di_size_open_with, rb_gdbm_firstkey_eq, hcollect, List.nil_append,
    hsweep, open_with_open_with]
  cases J.2.1 with
  | some e => rfl
  | none =>
    by_cases hn : 0 < n
    · simp [hn]
    · simp [hn]

theorem assoc_get_filter_keys (acc : List datum) (key : datum) (l : List (datum × datum)) :
    assoc_get key (l.filter (fun r => decide (r.1 ∉ acc))) =
      if key ∈ acc then none else assoc_get key l := by
  induction l with
  | nil => simp [assoc_get]
  | cons a rest ih =>
    obtain ⟨k, v⟩ := a
    simp only [decide_not] at ih ⊢
    by_cases hk : k = key
    · subst hk
      by_cases hm : k ∈ acc
      · simp [List.filter_cons, hm, ih]
      · simp [List.filter_cons, hm, assoc_get]
    · by_cases hm : k ∈ acc
      · simp [List.filter_cons, hm, ih, assoc_get, hk]
      · simp [List.filter_cons, hm, ih, assoc_get, hk]

/-- Lookup in a handle whose records are those of `dbm` without the keys in
`acc`. -/
theorem gdbm_fetch_of_perm_filter {dbm d1 : GDBM_FILE} (acc : List datum) (hwf1 : d1.wf)
    (hp : d1.recs.Perm (dbm.recs.filter (fun r => decide (r.1 ∉ acc)))) (key : datum) :
    gdbm_fetch d1 key = if key ∈ acc then none else gdbm_fetch dbm key := by
  unfold gdbm_fetch
  rw [assoc_get_perm hp hwf1.1, assoc_get_filter_keys]

theorem judge_verdict {σ : Type} (b : Block σ) (p : datum → datum → Bool)
    (hv : has_verdict b p) (l : List (datum × datum)) :
    ∀ w : World σ, (judge b l w).1 = (l.filter (fun r => p r.1 r.2)).map Prod.fst ∧
      (judge b l w).2.1 = none := by
  induction l with
  | nil => intro w; exact ⟨rfl, rfl⟩
  | cons a rest ih =>
    intro w
    obtain ⟨k, v⟩ := a
    obtain ⟨ret, h1, h2⟩ := hv k v w
    simp only [judge]
    cases h : b (rb_assoc_new (rb_tainted_str_new k) (rb_tainted_str_new v)) w with
    | mk r w1 =>
      rw [h] at h1
      simp only at h1
      subst h1
      simp only [h2, List.filter_cons]
      have := ih w1
      by_cases hp : p k v = true
      · simp [hp, this.1, this.2]
      · simp [hp, this.1, this.2]

/-- A block that never leaves by an exception ends the reference pass with no
pending exception. -/
theorem judge_no_raise {σ : Type} (b : Block σ)
    (hb : ∀ arg w, ∃ ret, (b arg w).1 = .ok ret) (l : List (datum × datum)) :
    ∀ w : World σ, (judge b l w).2.1 = none := by
  induction l with
  | nil => intro w; rfl
  | cons a rest ih =>
    intro w
    obtain ⟨k, v⟩ := a
    obtain ⟨ret, h1⟩ := hb (rb_assoc_new (rb_tainted_str_new k) (rb_tainted_str_new v)) w
    simp only [judge]
    cases h : b (rb_assoc_new (rb_tainted_str_new k) (rb_tainted_str_new v)) w with
    | mk r w1 =>
      rw [h] at h1
      simp only at h1
      subst h1
      exact ih w1

/-- Counterexample to C5 as stated: the store holds `a => x` and `b => y`,
the block accepts `a` and raises on `b`; `delete_if` re-raises the exception,
and the record `a => x` is gone from the store. -/
theorem C5_counterexample :
    fgdbm_delete_if (some accept_a_then_raise) 5
        (sample_world [([97], [120]), ([98], [121])] true (-1)) =
      some (.error (.thrown 7), sample_world [([98], [121])] true (-1)) ∧
    (fgdbm_aref (sample_world [([97], [120]), ([98], [121])] true (-1)) (.str [97] false)).1 =
      .ok (.str [120] true) ∧
    (fgdbm_aref (sample_world [([98], [121])] true (-1)) (.str [97] false)).1 = .ok .Qnil :=
  ⟨rfl, rfl, rfl⟩

/-- C5, as amended. On an open writable session with a well-formed engine,
when a block that leaves the session alone aborts the pass of `delete_if` by
an exception, that exception reaches the caller after the keys the block
accepted before the abort have been deleted: afterwards a key accepted before
the abort is absent, every other key has the value it had, and the cached
count is `-1`. -/
theorem C5_delete_if_abort {σ : Type} (b : Block σ) (hb : keeps_session b) (w : World σ)
    (n : Int) (dbm : GDBM_FILE) (fuel : Nat) (e : Exc)
    (hopen : w.obj.dptr = some { di_size := n, di_dbm := some dbm })
    (hwr : dbm.writer = true) (hs : w.safe_level < 4) (hf : w.obj.frozen = false)
    (hwf : dbm.wf) (hfuel : dbm.recs.length < fuel)
    (habort : (judge b dbm.recs (open_with w (-1) dbm)).2.1 = some e) :
    ∃ (w1 : World σ) (d1 : GDBM_FILE),
      fgdbm_delete_if (some b) fuel w = some (.error e, w1) ∧
      w1.obj.dptr = some { di_size := -1, di_dbm := some d1 } ∧
      w1.env = (judge b dbm.recs (open_with w (-1) dbm)).2.2.env ∧
      ∀ key, gdbm_fetch d1 key =
        if key ∈ (judge b dbm.recs (open_with w (-1) dbm)).1 then none
        else gdbm_fetch dbm key := by
  obtain ⟨d1, wf1, -, hp, hrun⟩ := fgdbm_delete_if_pure b hb w n dbm fuel hopen hwr hs hf hwf hfuel
  rw [habort] at hrun
  exact ⟨_, d1, hrun, rfl, rfl, gdbm_fetch_of_perm_filter _ wf1 hp⟩

/-- Witness of C5: the block accepts `a` and raises on `b`. -/
theorem C5_delete_if_abort_witness :
    ∃ (w1 : World Unit) (d1 : GDBM_FILE),
      fgdbm_delete_if (some accept_a_then_raise) 5
          (sample_world [([97], [120]), ([98], [121])] true (-1)) =
        some (.error (.thrown 7), w1) ∧
      w1.obj.dptr = some { di_size := -1, di_dbm := some d1 } ∧
      w1.env = (judge accept_a_then_raise [([97], [120]), ([98], [121])]
        (open_with (sample_world [([97], [120]), ([98], [121])] true (-1)) (-1)
          (sample_dbm [([97], [120]), ([98], [121])] true))).2.2.env ∧
      ∀ key, gdbm_fetch d1 key =
        if key ∈ (judge accept_a_then_raise [([97], [120]), ([98], [121])]
          (open_with (sample_world [([97], [120]), ([98], [121])] true (-1)) (-1)
            (sample_dbm [([97], [120]), ([98], [121])] true))).1 then none
        else gdbm_fetch (sample_dbm [([97], [120]), ([98], [121])] true) key :=
  C5_delete_if_abort accept_a_then_raise
    (fun arg w => by
      unfold accept_a_then_raise
      split
      · split <;> exact ⟨rfl, rfl⟩
      · exact ⟨rfl, rfl⟩)
    (sample_world [([97], [120]), ([98], [121])] true (-1)) (-1)
    (sample_dbm [([97], [120]), ([98], [121])] true) 5 (.thrown 7) rfl rfl (by decide) rfl
    (sample_dbm_wf _ true (by decide)) (by decide) rfl

/-- C7. On an open writable session with a well-formed engine, `delete_if`
with a block that leaves the session alone and raises on no record of the
pass returns the object; the interpreter state afterwards is the one of the
reference pass
`judge`, in which every live record is yielded exactly once in traversal
order (`judge_no_raise`: a block that never raises ends the pass with no
pending exception); and the store afterwards holds exactly the records the
block did not accept.  When the verdict of the block is a function `p` of the record, a
record `(k, v)` of the store is gone when `p k v` holds and still there with
its value when it does not. -/
theorem C7_delete_if_exact {σ : Type} (b : Block σ) (hb : keeps_session b) (w : World σ)
    (n : Int) (dbm : GDBM_FILE) (fuel : Nat)
    (hopen : w.obj.dptr = some { di_size := n, di_dbm := some dbm })
    (hwr : dbm.writer = true) (hs : w.safe_level < 4) (hf : w.obj.frozen = false)
    (hwf : dbm.wf) (hfuel : dbm.recs.length < fuel)
    (hnoraise : (judge b dbm.recs (open_with w (-1) dbm)).2.1 = none) :
    ∃ (w1 : World σ) (d1 : GDBM_FILE) (m : Int),
      fgdbm_delete_if (some b) fuel w = some (.ok .data, w1) ∧
      w1.obj.dptr = some { di_size := m, di_dbm := some d1 } ∧
      w1.env = (judge b dbm.recs (open_with w (-1) dbm)).2.2.env ∧
      d1.recs.Perm (dbm.recs.filter
        (fun r => decide (r.1 ∉ (judge b dbm.recs (open_with w (-1) dbm)).1))) ∧
      (∀ key, gdbm_fetch d1 key =
        if key ∈ (judge b dbm.recs (open_with w (-1) dbm)).1 then none
        else gdbm_fetch dbm key) ∧
      ∀ p : datum → datum → Bool, has_verdict b p →
        ∀ k v, (k, v) ∈ dbm.recs →
          gdbm_fetch d1 k = if p k v then none else some v := by
  obtain ⟨d1, wf1, -, hp, hrun⟩ := fgdbm_delete_if_pure b hb w n dbm fuel hopen hwr hs hf hwf hfuel
  rw [hnoraise] at hrun
  refine ⟨_, d1, _, hrun, rfl, rfl, hp, gdbm_fetch_of_perm_filter _ wf1 hp, ?_⟩
  intro p hv k v hkv
  rw [gdbm_fetch_of_perm_filter _ wf1 hp, (judge_verdict b p hv dbm.recs _).1]
  have hget : gdbm_fetch dbm k = some v := assoc_get_of_mem hwf.1 hkv
  by_cases hpk : p k v = true
  · have : k ∈ (dbm.recs.filter (fun r => p r.1 r.2)).map Prod.fst :=
      List.mem_map.2 ⟨(k, v), List.mem_filter.2 ⟨hkv, hpk⟩, rfl⟩
    simp [this, hpk]
  · have : k ∉ (dbm.recs.filter (fun r => p r.1 r.2)).map Prod.fst := by
      intro hm
      obtain ⟨r, hr, e⟩ := List.mem_map.1 hm
      obtain ⟨hr1, hr2⟩ := List.mem_filter.1 hr
      have hget2 : gdbm_fetch dbm k = some r.2 := by
        apply assoc_get_of_mem hwf.1
        rw [← e]
        exact hr1
      rw [hget] at hget2
      injection hget2 with hv2
      apply hpk
      rw [← e, hv2]
      exact hr2
    simp [this, hpk, hget]

/-- Witness of C7: the block logs what it is given and accepts the records
whose value is `x`; two of the three records match and are adjacent. -/
theorem C7_delete_if_exact_witness :
    ∃ (w1 : World (List VALUE)) (d1 : GDBM_FILE) (m : Int),
      fgdbm_delete_if (some log_accept_value_x) 5
          (sample_log_world [([97], [120]), ([98], [120]), ([99], [121])]) =
        some (.ok .data, w1) ∧
      w1.obj.dptr = some { di_size := m, di_dbm := some d1 } ∧
      w1.env = (judge log_accept_value_x [([97], [120]), ([98], [120]), ([99], [121])]
        (open_with (sample_log_world [([97], [120]), ([98], [120]), ([99], [121])]) (-1)
          (sample_dbm [([97], [120]), ([98], [120]), ([99], [121])] true))).2.2.env ∧
      d1.recs.Perm ((sample_dbm [([97], [120]), ([98], [120]), ([99], [121])] true).recs.filter
        (fun r => decide (r.1 ∉
          (judge log_accept_value_x [([97], [120]), ([98], [120]), ([99], [121])]
            (open_with (sample_log_world [([97], [120]), ([98], [120]), ([99], [121])]) (-1)
              (sample_dbm [([97], [120]), ([98], [120]), ([99], [121])] true))).1))) ∧
      (∀ key, gdbm_fetch d1 key =
        if key ∈ (judge log_accept_value_x [([97], [120]), ([98], [120]), ([99], [121])]
          (open_with (sample_log_world [([97], [120]), ([98], [120]), ([99], [121])]) (-1)
            (sample_dbm [([97], [120]), ([98], [120]), ([99], [121])] true))).1 then none
        else gdbm_fetch (sample_dbm [([97], [120]), ([98], [120]), ([99], [121])] true) key) ∧
      ∀ p : datum → datum → Bool, has_verdict log_accept_value_x p →
        ∀ k v, (k, v) ∈ (sample_dbm [([97], [120]), ([98], [120]), ([99], [121])] true).recs →
          gdbm_fetch d1 k = if p k v then none else some v :=
  C7_delete_if_exact log_accept_value_x
    (fun arg w => by
      unfold log_accept_value_x
      split
      · split <;> exact ⟨rfl, rfl⟩
      · exact ⟨rfl, rfl⟩)
    (sample_log_world [([97], [120]), ([98], [120]), ([99], [121])]) (-1)
    (sample_dbm [([97], [120]), ([98], [120]), ([99], [121])] true) 5 rfl rfl (by decide) rfl
    (sample_dbm_wf _ true (by decide)) (by decide) rfl

/-! ## `invert` -/

theorem rb_hash_aset_lift (tbl : List (datum × datum)) (v k : datum) :
    rb_hash_aset (lift_tbl tbl) (rb_tainted_str_new v) (rb_tainted_str_new k) =
      lift_tbl (dset tbl v k) := by
  induction tbl with
  | nil => rfl
  | cons a rest ih =>
    obtain ⟨v0, k0⟩ := a
    simp only [lift_tbl, List.map_cons, rb_tainted_str_new, rb_hash_aset, hash_key_eql,
      decide_eq_true_eq, dset] at ih ⊢
    by_cases h : v0 = v
    · simp [h]
    · simp [h, ih]

theorem rb_hash_aref_lift (tbl : List (datum × datum)) (v : datum) (t : Bool) :
    rb_hash_aref (lift_tbl tbl) (.str v t) = (assoc_get v tbl).map rb_tainted_str_new := by
  induction tbl with
  | nil => rfl
  | cons a rest ih =>
    obtain ⟨v0, k0⟩ := a
    simp only [lift_tbl, List.map_cons, rb_tainted_str_new, rb_hash_aref, hash_key_eql,
      decide_eq_true_eq, assoc_get] at ih ⊢
    by_cases h : v0 = v
    · simp [h, rb_tainted_str_new]
    · simp [h, ih]

theorem fgdbm_invert_loop_suffix (dbm : GDBM_FILE) (nd : (keys_of dbm.recs).Nodup)
    (suf : List (datum × datum)) :
    ∀ (pre : List (datum × datum)) (fuel : Nat) (tbl : List (datum × datum)),
      dbm.recs = pre ++ suf → suf.length < fuel →
      fgdbm_invert_loop dbm fuel (key_value (cursor suf)) (lift_tbl tbl) =
        some (.ok (.hash (lift_tbl (invert_of suf tbl)))) := by
  induction suf with
  | nil =>
    intro pre fuel tbl _ hf
    cases fuel with
    | zero => omega
    | succ f => simp [fgdbm_invert_loop, cursor, key_value, invert_of]
  | cons a rest ih =>
    intro pre fuel tbl hrecs hf
    obtain ⟨k, v⟩ := a
    cases fuel with
    | zero => omega
    | succ f =>
      have hfetch := gdbm_fetch_split dbm pre rest k v hrecs nd
      simp only [fgdbm_invert_loop, cursor, key_value, List.head?_cons, Option.map_some',
        rb_tainted_str_new, RTEST_str, if_true, rb_gdbm_fetch2, StringValue, rb_gdbm_fetch,
        hfetch]
      rw [rb_gdbm_nextkey_split dbm pre rest k v true hrecs nd]
      have := rb_hash_aset_lift tbl v k
      simp only [rb_tainted_str_new] at this
      rw [this, ih (pre ++ [(k, v)]) f _ (by simp [hrecs]) (by simpa using hf)]
      rfl

theorem keys_of_dset (tbl : List (datum × datum)) (v k : datum) :
    keys_of (dset tbl v k) = if v ∈ keys_of tbl then keys_of tbl else keys_of tbl ++ [v] := by
  induction tbl with
  | nil => simp [dset, keys_of]
  | cons a rest ih =>
    obtain ⟨v0, k0⟩ := a
    simp only [keys_of, List.map_cons, dset, List.mem_cons] at ih ⊢
    by_cases h : v0 = v
    · simp [h]
    · have h2 : ¬ v = v0 := fun e => h e.symm
      by_cases hm : v ∈ List.map Prod.fst rest
      · simp [h, h2, hm, ih]
      · simp [h, h2, hm, ih]

theorem assoc_get_dset_self (tbl : List (datum × datum)) (v k : datum) :
    assoc_get v (dset tbl v k) = some k := by
  induction tbl with
  | nil => simp [dset, assoc_get]
  | cons a rest ih =>
    obtain ⟨v0, k0⟩ := a
    by_cases h : v0 = v
    · simp [dset, assoc_get, h]
    · simp [dset, assoc_get, h, ih]

theorem assoc_get_dset_other (tbl : List (datum × datum)) (v k other : datum) (hne : other ≠ v) :
    assoc_get other (dset tbl v k) = assoc_get other tbl := by
  induction tbl with
  | nil =>
    have : ¬ v = other := fun e => hne e.symm
    simp [dset, assoc_get, this]
  | cons a rest ih =>
    obtain ⟨v0, k0⟩ := a
    by_cases h : v0 = v
    · subst h
      have : ¬ v0 = other := fun e => hne e.symm
      simp [dset, assoc_get, this]
    · by_cases ho : v0 = other
      · subst ho
        simp [dset, assoc_get, h]
      · simp [dset, assoc_get, h, ho, ih]

theorem invert_of_snoc (pre : List (datum × datum)) (r : datum × datum) :
    invert_of (pre ++ [r]) [] = dset (invert_of pre []) r.2 r.1 := by
  simp [invert_of, List.foldl_append]

theorem last_key_of_snoc (v : datum) (pre : List (datum × datum)) (k v2 : datum) :
    last_key_of v (pre ++ [(k, v2)]) = if v2 = v then some k else last_key_of v pre := by
  unfold last_key_of
  by_cases h : v2 = v
  · simp [List.filter_append, List.filter_cons, h]
  · simp [List.filter_append, List.filter_cons, h]

/-- The table of `fgdbm_invert` has one entry for each value that occurs, and
the entry of a value holds the key of the last record with that value. -/
theorem invert_of_spec (recs : List (datum × datum)) :
    (keys_of (invert_of recs [])).Nodup ∧
      (∀ v, v ∈ keys_of (invert_of recs []) ↔ v ∈ recs.map Prod.snd) ∧
      ∀ v, assoc_get v (invert_of recs []) = last_key_of v recs := by
  induction recs using List.reverseRecOn with
  | nil => simp [invert_of, keys_of, assoc_get, last_key_of]
  | append_singleton pre r ih =>
    obtain ⟨k, v2⟩ := r
    obtain ⟨ih1, ih2, ih3⟩ := ih
    rw [invert_of_snoc]
    refine ⟨?_, ?_, ?_⟩
    · rw [keys_of_dset]
      by_cases hm : v2 ∈ keys_of (invert_of pre [])
      · simp only [hm, if_true]; exact ih1
      · simp only [hm, if_false]
        rw [List.nodup_append]
        refine ⟨ih1, by simp, ?_⟩
        intro a ha hb
        simp only [List.mem_singleton] at hb
        exact hm (hb ▸ ha)
    · intro v
      rw [keys_of_dset]
      by_cases hm : v2 ∈ keys_of (invert_of pre [])
      · simp only [hm, if_true, List.map_append, List.map_cons, List.map_nil, List.mem_append,
          List.mem_singleton, ih2]
        constructor
        · intro h; exact Or.inl h
        · rintro (h | h)
          · exact h
          · rw [h]; exact (ih2 v2).1 hm
      · simp only [hm, if_false, List.map_append, List.map_cons, List.map_nil, List.mem_append,
          List.mem_singleton, ih2]
    · intro v
      rw [last_key_of_snoc]
      by_cases h : v2 = v
      · subst h
        simp [assoc_get_dset_self]
      · have hne : v ≠ v2 := fun e => h e.symm
        simp only [h, if_false]
        rw [assoc_get_dset_other _ _ _ _ hne, ih3]

/-- Counterexample to C6 as stated: on the store `a => x`, `b => x`, whose
traversal starts with `a`, the single entry of `invert` for `x` holds `b`,
the key met last, and not `a`, the key met first. -/
theorem C6_counterexample :
    rb_gdbm_firstkey (sample_dbm [([97], [120]), ([98], [120])] true) = .str [97] true ∧
      first_key_of [120] [([97], [120]), ([98], [120])] = some [97] ∧
      fgdbm_invert 5 (sample_world [([97], [120]), ([98], [120])] true (-1)) =
        some (.ok (.hash [(.str [120] true, .str [98] true)]),
          sample_world [([97], [120]), ([98], [120])] true (-1)) :=
  ⟨rfl, rfl, rfl⟩

/-- C6, as amended. On an open session with a well-formed engine `invert`
returns a Hash with exactly one entry per distinct stored value, and when
several keys share a value the entry holds the key met last in the
`firstkey` / `nextkey` traversal (earlier ones are overwritten). -/
theorem C6_invert_last_wins {σ : Type} (w : World σ) (n : Int) (dbm : GDBM_FILE) (fuel : Nat)
    (hopen : w.obj.dptr = some { di_size := n, di_dbm := some dbm })
    (hwf : dbm.wf) (hfuel : dbm.recs.length < fuel) :
    ∃ tbl : List (VALUE × VALUE),
      fgdbm_invert fuel w = some (.ok (.hash tbl), w) ∧
      tbl.length = (dbm.recs.map Prod.snd).dedup.length ∧
      tbl.Pairwise (fun a b => hash_key_eql a.1 b.1 = false) ∧
      (∀ v t, rb_hash_aref tbl (.str v t) ≠ none ↔ v ∈ dbm.recs.map Prod.snd) ∧
      ∀ v t, rb_hash_aref tbl (.str v t) =
        (last_key_of v dbm.recs).map rb_tainted_str_new := by
  obtain ⟨s1, s2, s3⟩ := invert_of_spec dbm.recs
  have hloop := fgdbm_invert_loop_suffix dbm hwf.1 dbm.recs [] fuel [] rfl hfuel
  refine ⟨lift_tbl (invert_of dbm.recs []), ?_, ?_, ?_, ?_, ?_⟩
  · rw [← open_with_self w n dbm hopen]
    simp only [fgdbm_invert, GetDBM2_open_with, rb_gdbm_firstkey_eq]
    have : lift_tbl [] = ([] : List (VALUE × VALUE)) := rfl
    rw [← this, hloop]
    rfl
  · have h1 : (lift_tbl (invert_of dbm.recs [])).length = (keys_of (invert_of dbm.recs [])).length := by
      simp [lift_tbl, keys_of]
    rw [h1, ← List.toFinset_card_of_nodup s1, ← List.card_toFinset]
    congr 1
    ext v
    simp only [List.mem_toFinset]
    exact s2 v
  · unfold lift_tbl
    rw [List.pairwise_map]
    have : (invert_of dbm.recs []).Pairwise (fun a b => a.1 ≠ b.1) := by
      have := s1
      unfold keys_of at this
      exact List.pairwise_map.1 this
    refine this.imp ?_
    intro a b hab
    simp [rb_tainted_str_new, hash_key_eql, hab]
  · intro v t
    rw [rb_hash_aref_lift, ← s2 v, ← assoc_get_isSome_iff]
    cases assoc_get v (invert_of dbm.recs []) <;> simp
  · intro v t
    rw [rb_hash_aref_lift, s3]

/-- Witness of C6 on the store `a => x`, `b => x`. -/
theorem C6_invert_last_wins_witness :
    ∃ tbl : List (VALUE × VALUE),
      fgdbm_invert 5 (sample_world [([97], [120]), ([98], [120])] true (-1)) =
        some (.ok (.hash tbl), sample_world [([97], [120]), ([98], [120])] true (-1)) ∧
      tbl.length =
        ((sample_dbm [([97], [120]), ([98], [120])] true).recs.map Prod.snd).dedup.length ∧
      tbl.Pairwise (fun a b => hash_key_eql a.1 b.1 = false) ∧
      (∀ v t, rb_hash_aref tbl (.str v t) ≠ none ↔
        v ∈ (sample_dbm [([97], [120]), ([98], [120])] true).recs.map Prod.snd) ∧
      ∀ v t, rb_hash_aref tbl (.str v t) =
        (last_key_of v (sample_dbm [([97], [120]), ([98], [120])] true).recs).map
          rb_tainted_str_new :=
  C6_invert_last_wins (sample_world [([97], [120]), ([98], [120])] true (-1)) (-1)
    (sample_dbm [([97], [120]), ([98], [120])] true) 5 rfl
    (sample_dbm_wf _ true (by decide)) (by decide)

/-! ## `empty?` -/

theorem fgdbm_initialize_open_eq {σ : Type} (gdbm_open : Opener σ) (name : datum) (mode : Int)
    (flags : Nat) (w : World σ) :
    fgdbm_initialize_open gdbm_open name mode flags w =
      ((first_success gdbm_open name (open_plan mode flags) w.env).1,
        { w with env := (first_success gdbm_open name (open_plan mode flags) w.env).2 }) := by
  unfold fgdbm_initialize_open open_plan
  by_cases hrw : flags &&& RUBY_GDBM_RW_BIT ≠ 0
  · rw [if_pos hrw, if_pos hrw]
    rfl
  · rw [if_neg hrw, if_neg hrw]
    by_cases hm : 0 ≤ mode
    · simp only [hm, if_true, first_success]
      cases h1 : gdbm_open name MY_BLOCK_SIZE (GDBM_WRCREAT ||| flags) mode w.env with
      | mk r1 e1 =>
        cases r1 with
        | ok d => rfl
        | error c =>
          simp only
          cases h2 : gdbm_open name MY_BLOCK_SIZE (GDBM_WRITER ||| flags) 0 e1 with
          | mk r2 e2 =>
            cases r2 with
            | ok d => rfl
            | error c2 => rfl
    · simp only [hm, if_false, first_success]
      cases h2 : gdbm_open name MY_BLOCK_SIZE (GDBM_WRITER ||| flags) 0 w.env with
      | mk r2 e2 =>
        cases r2 with
        | ok d => rfl
        | error c2 => rfl

theorem count_ok_open_with {σ : Type} (w : World σ) (n : Int) (dbm : GDBM_FILE)
    (hwf : dbm.wf) (hn : n = -1 ∨ n = dbm.recs.length) : count_ok (open_with w n dbm) :=
  ⟨n, dbm, rfl, hwf, hn⟩

theorem count_ok_same_obj {σ : Type} (w w1 : World σ) (h : w1.obj = w.obj)
    (hc : count_ok w) : count_ok w1 := by
  obtain ⟨n, dbm, h1, h2, h3⟩ := hc
  exact ⟨n, dbm, by rw [h]; exact h1, h2, h3⟩

/-- The four ways `rb_gdbm_delete` ends on an open session. -/
theorem rb_gdbm_delete_cases {σ : Type} (w : World σ) (n : Int) (dbm : GDBM_FILE)
    (keystr : VALUE) :
    (∃ e, rb_gdbm_delete (open_with w n dbm) keystr = (.error e, open_with w n dbm) ∧
        (rb_gdbm_modify w ≠ .ok () ∨ is_str keystr = false)) ∨
      (∃ k t, keystr = .str k t ∧ gdbm_exists dbm k = false ∧
        rb_gdbm_delete (open_with w n dbm) keystr = (.ok .Qnil, open_with w n dbm)) ∨
      (∃ k t c, keystr = .str k t ∧ gdbm_delete dbm k = .error c ∧
        rb_gdbm_delete (open_with w n dbm) keystr =
          (.error (.GDBMError c), open_with w (-1) dbm)) ∨
      (∃ k t dbm1, keystr = .str k t ∧ gdbm_delete dbm k = .ok dbm1 ∧
        rb_gdbm_delete (open_with w n dbm) keystr =
          (.ok .data, open_with w (if 0 ≤ n then n - 1 else n) dbm1)) := by
  unfold rb_gdbm_delete
  simp only [rb_gdbm_modify_open_with, GetDBM2_open_with]
  cases hm : rb_gdbm_modify w with
  | error e => exact Or.inl ⟨e, rfl, Or.inl (by simp)⟩
  | ok u =>
    cases keystr with
    | str k t =>
      simp only [StringValue]
      by_cases he : gdbm_exists dbm k = true
      · simp only [he, Bool.not_true, Bool.false_eq_true, if_false]
        cases hd : gdbm_delete dbm k with
        | error c => exact Or.inr (Or.inr (Or.inl ⟨k, t, c, rfl, hd, rfl⟩))
        | ok dbm1 =>
          refine Or.inr (Or.inr (Or.inr ⟨k, t, dbm1, rfl, hd, ?_⟩))
          by_cases hn : 0 ≤ n <;> simp [hn]
      · have he2 : gdbm_exists dbm k = false := by simpa using he
        refine Or.inr (Or.inl ⟨k, t, rfl, he2, ?_⟩)
        simp [he2]
    | Qnil => exact Or.inl ⟨_, rfl, Or.inr rfl⟩
    | Qtrue => exact Or.inl ⟨_, rfl, Or.inr rfl⟩
    | Qfalse => exact Or.inl ⟨_, rfl, Or.inr rfl⟩
    | fix m => exact Or.inl ⟨_, rfl, Or.inr rfl⟩
    | ary xs => exact Or.inl ⟨_, rfl, Or.inr rfl⟩
    | hash xs => exact Or.inl ⟨_, rfl, Or.inr rfl⟩
    | data => exact Or.inl ⟨_, rfl, Or.inr rfl⟩

theorem rb_gdbm_delete_count_ok {σ : Type} (w : World σ) (keystr : VALUE)
    (hc : count_ok w) : count_ok (rb_gdbm_delete w keystr).2 := by
  obtain ⟨n, dbm, h1, hwf, hn⟩ := hc
  rw [← open_with_self w n dbm h1]
  rcases rb_gdbm_delete_cases w n dbm keystr with
    ⟨e, h, -⟩ | ⟨k, t, -, -, h⟩ | ⟨k, t, c, -, -, h⟩ | ⟨k, t, dbm1, -, hd, h⟩
  · rw [h]; exact count_ok_open_with w n dbm hwf hn
  · rw [h]; exact count_ok_open_with w n dbm hwf hn
  · rw [h]; exact count_ok_open_with w (-1) dbm hwf (Or.inl rfl)
  · rw [h]
    refine count_ok_open_with w _ dbm1 (gdbm_delete_wf hd hwf) ?_
    have hl := gdbm_delete_length hd hwf
    rcases hn with hn | hn
    · left; simp [hn]
    · right
      have : 0 ≤ n := by rw [hn]; exact Int.natCast_nonneg _
      simp only [this, if_true, hn]
      omega

theorem fgdbm_store_count_ok {σ : Type} (w : World σ) (keystr valstr : VALUE)
    (hc : count_ok w) : count_ok (fgdbm_store w keystr valstr).2 := by
  obtain ⟨n, dbm, h1, hwf, hn⟩ := hc
  have hc0 : count_ok w := ⟨n, dbm, h1, hwf, hn⟩
  rw [← open_with_self w n dbm h1] at hc0 ⊢
  unfold fgdbm_store
  simp only [rb_gdbm_modify_open_with, GetDBM2_open_with]
  cases rb_gdbm_modify w with
  | error e => exact hc0
  | ok u =>
    cases StringValue keystr with
    | error e => exact hc0
    | ok key =>
      cases StringValue valstr with
      | error e => exact hc0
      | ok val =>
        simp only
        cases hs : gdbm_store dbm key val with
        | error c =>
          simp only
          split <;> exact count_ok_open_with w (-1) dbm hwf (Or.inl rfl)
        | ok dbm1 =>
          exact count_ok_open_with w (-1) dbm1 (gdbm_store_wf hs hwf) (Or.inl rfl)

theorem fgdbm_fetch_count_ok {σ : Type} (blk : Option (Block σ))
    (hb : ∀ b, blk = some b → keeps_session b) (w : World σ) (keystr ifnone : VALUE)
    (hc : count_ok w) : count_ok (fgdbm_fetch blk w keystr ifnone).2 := by
  unfold fgdbm_fetch
  cases rb_gdbm_fetch3 w keystr with
  | error e => exact hc
  | ok valstr =>
    simp only
    split
    · split
      · cases blk with
        | none => exact hc
        | some b => exact count_ok_same_obj w _ (hb b rfl keystr w).1 hc
      · exact hc
    · exact hc

theorem fgdbm_delete_count_ok {σ : Type} (blk : Option (Block σ))
    (hb : ∀ b, blk = some b → keeps_session b) (w : World σ) (keystr : VALUE)
    (hc : count_ok w) : count_ok (fgdbm_delete blk w keystr).2 := by
  unfold fgdbm_delete
  have h1 := fgdbm_fetch_count_ok blk hb w keystr .Qnil hc
  cases hf : fgdbm_fetch blk w keystr .Qnil with
  | mk r w1 =>
    rw [hf] at h1
    cases r with
    | error e => exact h1
    | ok valstr =>
      simp only
      have h2 := rb_gdbm_delete_count_ok w1 keystr h1
      cases hd : rb_gdbm_delete w1 keystr with
      | mk r2 w2 =>
        rw [hd] at h2
        cases r2 <;> exact h2

theorem fgdbm_shift_count_ok {σ : Type} (w : World σ) (hc : count_ok w) :
    count_ok (fgdbm_shift w).2 := by
  unfold fgdbm_shift
  cases rb_gdbm_modify w with
  | error e => exact hc
  | ok u =>
    cases GetDBM2 w with
    | error e => exact hc
    | ok p =>
      obtain ⟨dbmp, dbm⟩ := p
      simp only
      split
      · exact hc
      · cases rb_gdbm_fetch2 dbm (rb_gdbm_firstkey dbm) with
        | error e => exact hc
        | ok valstr =>
          simp only
          have h2 := rb_gdbm_delete_count_ok w (rb_gdbm_firstkey dbm) hc
          cases hd : rb_gdbm_delete w (rb_gdbm_firstkey dbm) with
          | mk r2 w2 =>
            rw [hd] at h2
            cases r2 <;> exact h2

theorem fgdbm_clear_inner_wf (fuel : Nat) :
    ∀ (dbm : GDBM_FILE) (key : Option datum) (r : Except Nat Unit) (dbm1 : GDBM_FILE),
      dbm.wf → fgdbm_clear_inner fuel dbm key = some (r, dbm1) → dbm1.wf := by
  induction fuel with
  | zero => intro dbm key r dbm1 _ h; simp [fgdbm_clear_inner] at h
  | succ f ih =>
    intro dbm key r dbm1 hwf h
    cases key with
    | none =>
      simp only [fgdbm_clear_inner, Option.some.injEq, Prod.mk.injEq] at h
      rw [← h.2]; exact hwf
    | some k =>
      simp only [fgdbm_clear_inner] at h
      cases hd : gdbm_delete dbm k with
      | error c =>
        simp only [hd, Option.some.injEq, Prod.mk.injEq] at h
        rw [← h.2]; exact hwf
      | ok d1 =>
        simp only [hd] at h
        exact ih d1 _ r dbm1 (gdbm_delete_wf hd hwf) h

theorem gdbm_firstkey_eq_none (dbm : GDBM_FILE) (h : gdbm_firstkey dbm = none) :
    dbm.recs = [] := by
  unfold gdbm_firstkey at h
  cases hr : dbm.recs with
  | nil => rfl
  | cons a rest => simp [hr] at h

theorem fgdbm_clear_outer_wf (fuel : Nat) :
    ∀ (dbm : GDBM_FILE) (r : Except Nat Unit) (dbm1 : GDBM_FILE),
      dbm.wf → fgdbm_clear_outer fuel dbm = some (r, dbm1) →
      dbm1.wf ∧ (∀ u, r = .ok u → dbm1.recs = []) := by
  induction fuel with
  | zero => intro dbm r dbm1 _ h; simp [fgdbm_clear_outer] at h
  | succ f ih =>
    intro dbm r dbm1 hwf h
    simp only [fgdbm_clear_outer] at h
    cases hk : gdbm_firstkey dbm with
    | none =>
      simp only [hk, Option.some.injEq, Prod.mk.injEq] at h
      rw [← h.2]
      exact ⟨hwf, fun _ _ => gdbm_firstkey_eq_none dbm hk⟩
    | some k =>
      simp only [hk] at h
      cases hi : fgdbm_clear_inner (f + 1) dbm (some k) with
      | none => simp [hi] at h
      | some p =>
        obtain ⟨r1, d1⟩ := p
        have wf1 := fgdbm_clear_inner_wf (f + 1) dbm (some k) r1 d1 hwf hi
        cases r1 with
        | error c =>
          simp only [hi, Option.some.injEq, Prod.mk.injEq] at h
          rw [← h.2, ← h.1]
          exact ⟨wf1, fun u hu => by cases hu⟩
        | ok u =>
          simp only [hi] at h
          exact ih d1 r dbm1 wf1 h

theorem fgdbm_clear_count_ok {σ : Type} (fuel : Nat) (w w1 : World σ) (r : Except Exc VALUE)
    (hc : count_ok w) (h : fgdbm_clear fuel w = some (r, w1)) : count_ok w1 := by
  obtain ⟨n, dbm, h1, hwf, hn⟩ := hc
  have hc0 : count_ok w := ⟨n, dbm, h1, hwf, hn⟩
  rw [← open_with_self w n dbm h1] at h
  unfold fgdbm_clear at h
  simp only [rb_gdbm_modify_open_with, GetDBM2_open_with] at h
  cases hm : rb_gdbm_modify w with
  | error e =>
    simp only [hm, Option.some.injEq, Prod.mk.injEq] at h
    rw [← h.2, open_with_self w n dbm h1]; exact hc0
  | ok u =>
    simp only [hm] at h
    cases ho : fgdbm_clear_outer fuel dbm with
    | none => simp [ho] at h
    | some p =>
      obtain ⟨r1, d1⟩ := p
      obtain ⟨wf1, hempty⟩ := fgdbm_clear_outer_wf fuel dbm r1 d1 hwf ho
      cases r1 with
      | error c =>
        simp only [ho, set_di_size_open_with, set_di_dbm_open_with, Option.some.injEq,
          Prod.mk.injEq] at h
        rw [← h.2]
        exact count_ok_open_with w (-1) d1 wf1 (Or.inl rfl)
      | ok u2 =>
        simp only [ho, set_di_size_open_with, set_di_dbm_open_with, Option.some.injEq,
          Prod.mk.injEq] at h
        rw [← h.2]
        refine count_ok_open_with w 0 d1 wf1 (Or.inr ?_)
        rw [hempty u2 rfl]
        rfl

theorem fgdbm_length_loop_some (dbm : GDBM_FILE) (nd : (keys_of dbm.recs).Nodup)
    (suf : List (datum × datum)) :
    ∀ (pre : List (datum × datum)) (fuel : Nat) (i j : Int),
      dbm.recs = pre ++ suf → fgdbm_length_loop dbm fuel (cursor suf) i = some j →
      j = i + suf.length := by
  induction suf with
  | nil =>
    intro pre fuel i j _ h
    cases fuel with
    | zero => simp [fgdbm_length_loop] at h
    | succ f =>
      simp only [fgdbm_length_loop, cursor, List.head?_nil, Option.map_none',
        Option.some.injEq] at h
      simp [← h]
  | cons a rest ih =>
    intro pre fuel i j hrecs h
    obtain ⟨k, v⟩ := a
    cases fuel with
    | zero => simp [fgdbm_length_loop] at h
    | succ f =>
      simp only [fgdbm_length_loop, cursor, List.head?_cons, Option.map_some'] at h
      rw [gdbm_nextkey_split dbm pre rest k v hrecs nd] at h
      have := ih (pre ++ [(k, v)]) f (i + 1) j (by simp [hrecs]) h
      rw [this]
      simp only [List.length_cons, Nat.cast_add, Nat.cast_one]
      omega

theorem fgdbm_length_count_ok {σ : Type} (fuel : Nat) (w w1 : World σ) (r : Except Exc VALUE)
    (hc : count_ok w) (h : fgdbm_length fuel w = some (r, w1)) : count_ok w1 := by
  obtain ⟨n, dbm, h1, hwf, hn⟩ := hc
  have hc0 : count_ok w := ⟨n, dbm, h1, hwf, hn⟩
  rw [← open_with_self w n dbm h1] at h
  unfold fgdbm_length at h
  simp only [GetDBM2_open_with] at h
  by_cases hpos : 0 < n
  · simp only [hpos, if_true, Option.some.injEq, Prod.mk.injEq] at h
    rw [← h.2, open_with_self w n dbm h1]; exact hc0
  · simp only [hpos, if_false] at h
    cases hl : fgdbm_length_loop dbm fuel (gdbm_firstkey dbm) 0 with
    | none => simp [hl] at h
    | some i =>
      simp only [hl, set_di_size_open_with, Option.some.injEq, Prod.mk.injEq] at h
      rw [← h.2]
      rw [gdbm_firstkey_eq] at hl
      have := fgdbm_length_loop_some dbm hwf.1 dbm.recs [] fuel 0 i rfl hl
      exact count_ok_open_with w i dbm hwf (Or.inr (by simpa using this))

theorem fgdbm_empty_p_same {σ : Type} (w : World σ) : (fgdbm_empty_p w).2 = w := by
  unfold fgdbm_empty_p
  cases GetDBM w with
  | error e => rfl
  | ok dbmp =>
    simp only
    split
    · cases dbmp.di_dbm with
      | none => rfl
      | some d =>
        simp only
        cases gdbm_firstkey d <;> rfl
    · split <;> rfl

theorem no_block_keeps_session {σ : Type} : keeps_session (no_block : Block σ) :=
  fun _ _ => ⟨rfl, rfl⟩

theorem fgdbm_delete_if_collect_no_block {σ : Type} (fuel : Nat) :
    ∀ (w : World σ) (dbm : GDBM_FILE) (keystr : VALUE) (ary : List VALUE),
      fgdbm_delete_if_collect none fuel w dbm keystr ary =
        fgdbm_delete_if_collect (some no_block) fuel w dbm keystr ary := by
  induction fuel with
  | zero => intro w dbm keystr ary; rfl
  | succ f ih =>
    intro w dbm keystr ary
    simp only [fgdbm_delete_if_collect, rb_yield, no_block]

theorem fgdbm_delete_if_no_block {σ : Type} (fuel : Nat) (w : World σ) :
    fgdbm_delete_if none fuel w = fgdbm_delete_if (some no_block) fuel w := by
  unfold fgdbm_delete_if
  simp only [fgdbm_delete_if_collect_no_block]

theorem fgdbm_delete_if_collect_some {σ : Type} (b : Block σ) (hb : keeps_session b)
    (dbm : GDBM_FILE) (nd : (keys_of dbm.recs).Nodup) (n : Int)
    (suf : List (datum × datum)) :
    ∀ (pre : List (datum × datum)) (fuel : Nat) (w : World σ) (ary : List VALUE)
      (r : Except Exc (List VALUE × Option Exc) × World σ),
      dbm.recs = pre ++ suf →
      w.obj.dptr = some { di_size := n, di_dbm := some dbm } →
      fgdbm_delete_if_collect (some b) fuel w dbm (key_value (cursor suf)) ary = some r →
      r = (.ok (ary ++ (judge b suf w).1.map rb_tainted_str_new, (judge b suf w).2.1),
          (judge b suf w).2.2) := by
  induction suf with
  | nil =>
    intro pre fuel w ary r _ _ h
    cases fuel with
    | zero => simp [fgdbm_delete_if_collect] at h
    | succ f =>
      simp only [fgdbm_delete_if_collect, cursor, key_value, List.head?_nil, Option.map_none',
        RTEST_Qnil, Bool.false_eq_true, if_false, Option.some.injEq] at h
      rw [← h]
      simp [judge]
  | cons a rest ih =>
    intro pre fuel w ary r hrecs hw h
    obtain ⟨k, v⟩ := a
    cases fuel with
    | zero => simp [fgdbm_delete_if_collect] at h
    | succ f =>
      have hfetch := gdbm_fetch_split dbm pre rest k v hrecs nd
      have hk := hb (rb_assoc_new (rb_tainted_str_new k) (rb_tainted_str_new v)) w
      simp only [fgdbm_delete_if_collect, cursor, key_value, List.head?_cons, Option.map_some',
        rb_tainted_str_new, RTEST_str, if_true, rb_gdbm_fetch2, StringValue, rb_gdbm_fetch,
        hfetch, rb_yield] at h
      simp only [judge, rb_tainted_str_new]
      cases hbw : b (rb_assoc_new (.str k true) (.str v true)) w with
      | mk r1 w1 =>
        simp only [rb_tainted_str_new, hbw] at hk
        rw [hbw] at h
        cases r1 with
        | error e =>
          simp only [Option.some.injEq] at h
          rw [← h]
          simp
        | ok ret =>
          have hw1 : w1.obj.dptr = some { di_size := n, di_dbm := some dbm } := by
            rw [hk.1]; exact hw
          have hg : GetDBM2 w1 = .ok ({ di_size := n, di_dbm := some dbm }, dbm) :=
            (GetDBM2_ok_iff _ _ _).2 ⟨hw1, rfl⟩
          simp only [hg] at h
          rw [rb_gdbm_nextkey_split dbm pre rest k v true hrecs nd] at h
          rw [ih (pre ++ [(k, v)]) f w1 _ r (by simp [hrecs]) hw1 h]
          by_cases ht : RTEST ret = true
          · simp [ht, rb_tainted_str_new]
          · simp [ht]

theorem mem_keys_after_delete {dbm dbm1 : GDBM_FILE} {k k2 : datum}
    (h : gdbm_delete dbm k = .ok dbm1) (hwf : dbm.wf) (hne : k2 ≠ k)
    (hm : k2 ∈ keys_of dbm.recs) : k2 ∈ keys_of dbm1.recs := by
  obtain ⟨r, hr, e⟩ := List.mem_map.1 hm
  refine List.mem_map.2 ⟨r, (gdbm_delete_perm h hwf).mem_iff.2 (mem_assoc_del.2 ⟨hr, ?_⟩), e⟩
  rw [e]; exact hne

theorem fgdbm_delete_if_sweep_cases {σ : Type} (ks : List datum) :
    ∀ (w : World σ) (d : GDBM_FILE), d.wf → ks.Nodup → (∀ k ∈ ks, k ∈ keys_of d.recs) →
      ∃ d1 : GDBM_FILE, d1.wf ∧
        ((∃ e, fgdbm_delete_if_sweep (ks.map rb_tainted_str_new) (open_with w (-1) d) =
            (.error e, open_with w (-1) d1)) ∨
          (fgdbm_delete_if_sweep (ks.map rb_tainted_str_new) (open_with w (-1) d) =
              (.ok (), open_with w (-1) d1) ∧
            d1.recs.length + ks.length = d.recs.length)) := by
  induction ks with
  | nil =>
    intro w d hwf _ _
    exact ⟨d, hwf, Or.inr ⟨rfl, rfl⟩⟩
  | cons k rest ih =>
    intro w d hwf hnd hmem
    have hnd2 := List.nodup_cons.1 hnd
    have hk : k ∈ keys_of d.recs := hmem k (List.mem_cons_self _ _)
    simp only [List.map_cons, fgdbm_delete_if_sweep, rb_tainted_str_new]
    rcases rb_gdbm_delete_cases w (-1) d (.str k true) with
      ⟨e, h, -⟩ | ⟨k2, t2, hk2, hne, -⟩ | ⟨k2, t2, c, -, -, h⟩ | ⟨k2, t2, dbm1, hk2, hd, h⟩
    · rw [h]; exact ⟨d, hwf, Or.inl ⟨e, rfl⟩⟩
    · injection hk2 with e1 e2
      subst e1
      have := (assoc_get_isSome_iff k d.recs).2 hk
      unfold gdbm_exists at hne
      rw [this] at hne
      cases hne
    · rw [h]; exact ⟨d, hwf, Or.inl ⟨_, rfl⟩⟩
    · injection hk2 with e1 e2
      subst e1
      rw [h]
      simp only [show ¬ (0 : Int) ≤ -1 by omega, if_false]
      have wf1 := gdbm_delete_wf hd hwf
      have hmem1 : ∀ k2 ∈ rest, k2 ∈ keys_of dbm1.recs := by
        intro k2 hk2
        have hne : k2 ≠ k := fun e => hnd2.1 (e ▸ hk2)
        exact mem_keys_after_delete hd hwf hne (hmem k2 (List.mem_cons_of_mem _ hk2))
      obtain ⟨d1, wfd1, hcase⟩ := ih w dbm1 wf1 hnd2.2 hmem1
      refine ⟨d1, wfd1, ?_⟩
      have hl := gdbm_delete_length hd hwf
      rcases hcase with ⟨e, he⟩ | ⟨hok, hlen⟩
      · exact Or.inl ⟨e, he⟩
      · refine Or.inr ⟨hok, ?_⟩
        simp only [List.length_cons]
        omega

theorem fgdbm_delete_if_count_ok {σ : Type} (blk : Option (Block σ))
    (hb : ∀ b, blk = some b → keeps_session b) (fuel : Nat) (w w1 : World σ)
    (r : Except Exc VALUE) (hc : count_ok w)
    (h : fgdbm_delete_if blk fuel w = some (r, w1)) : count_ok w1 := by
  obtain ⟨b, hkeep, h⟩ : ∃ b : Block σ, keeps_session b ∧
      fgdbm_delete_if (some b) fuel w = some (r, w1) := by
    cases blk with
    | none => exact ⟨no_block, no_block_keeps_session, by rw [← fgdbm_delete_if_no_block]; exact h⟩
    | some b => exact ⟨b, hb b rfl, h⟩
  obtain ⟨n, dbm, h1, hwf, hn⟩ := hc
  have hc0 : count_ok w := ⟨n, dbm, h1, hwf, hn⟩
  rw [← open_with_self w n dbm h1] at h
  unfold fgdbm_delete_if at h
  simp only [rb_gdbm_modify_open_with, GetDBM2_open_with, set_di_size_open_with] at h
  cases hm : rb_gdbm_modify w with
  | error e =>
    simp only [hm, Option.some.injEq, Prod.mk.injEq] at h
    rw [← h.2, open_with_self w n dbm h1]; exact hc0
  | ok u =>
    simp only [hm] at h
    cases hcol : fgdbm_delete_if_collect (some b) fuel (open_with w (-1) dbm) dbm
        (rb_gdbm_firstkey dbm) [] with
    | none => simp [hcol] at h
    | some res =>
      rw [rb_gdbm_firstkey_eq] at hcol
      have hres := fgdbm_delete_if_collect_some b hkeep dbm hwf.1 (-1) dbm.recs [] fuel
        (open_with w (-1) dbm) [] res rfl rfl hcol
      rw [rb_gdbm_firstkey_eq, hcol, hres] at h
      simp only [List.nil_append] at h
      generalize hJ : judge b dbm.recs (open_with w (-1) dbm) = J at h
      have hkeepJ := judge_keeps b hkeep dbm.recs (open_with w (-1) dbm)
      have hsub := judge_sublist b dbm.recs (open_with w (-1) dbm)
      rw [hJ] at hkeepJ hsub
      have hJw : open_with J.2.2 (-1) dbm = J.2.2 := by
        apply open_with_self
        rw [hkeepJ.1]
        rfl
      obtain ⟨d1, wf1, hcase⟩ := fgdbm_delete_if_sweep_cases J.1 J.2.2 dbm hwf
        (hsub.nodup hwf.1) (fun k hk => hsub.subset hk)
      rw [hJw] at hcase
      rcases hcase with ⟨e, he⟩ | ⟨hok, hlen⟩
      · simp only [he, Option.some.injEq, Prod.mk.injEq] at h
        rw [← h.2]
        exact count_ok_open_with _ (-1) d1 wf1 (Or.inl rfl)
      · simp only [hok] at h
        cases hst : J.2.1 with
        | some e =>
          simp only [hst, Option.some.injEq, Prod.mk.injEq] at h
          rw [← h.2]
          exact count_ok_open_with _ (-1) d1 wf1 (Or.inl rfl)
        | none =>
          simp only [hst] at h
          by_cases hpos : 0 < n
          · simp only [hpos, if_true, set_di_size_open_with, Option.some.injEq,
              Prod.mk.injEq] at h
            rw [← h.2]
            refine count_ok_open_with _ _ d1 wf1 (Or.inr ?_)
            have hnl : n = dbm.recs.length := by
              rcases hn with hn | hn
              · omega
              · exact hn
            simp only [List.length_map]
            omega
          · simp only [hpos, if_false, Option.some.injEq, Prod.mk.injEq] at h
            rw [← h.2]
            exact count_ok_open_with _ (-1) d1 wf1 (Or.inl rfl)

theorem wrong_arity_some {σ : Type} (w w1 : World σ) (r : Except Exc VALUE)
    (h : wrong_arity w = some (r, w1)) : w1 = w := by
  simp only [wrong_arity, Option.some.injEq, Prod.mk.injEq] at h
  exact h.2.symm

/-- Every counting call that comes back keeps the cached count right. -/
theorem call_count_ok {σ : Type} (syncmode_defined : Bool) (op : Op) (blk : Option (Block σ))
    (fuel : Nat) (argv : List VALUE) (w w1 : World σ) (r : Except Exc VALUE)
    (hop : op ∈ counting_ops) (hb : ∀ b, blk = some b → keeps_session b)
    (hc : count_ok w) (h : call syncmode_defined op blk fuel argv w = some (r, w1)) :
    count_ok w1 := by
  simp only [counting_ops, List.mem_cons, List.mem_singleton, List.mem_nil_iff, or_false] at hop
  rcases hop with rfl | rfl | rfl | rfl | rfl | rfl | rfl
  · -- store
    match argv, h with
    | [], h => rw [wrong_arity_some w w1 r h]; exact hc
    | [_], h => rw [wrong_arity_some w w1 r h]; exact hc
    | _ :: _ :: _ :: _, h => rw [wrong_arity_some w w1 r h]; exact hc
    | [k, v], h =>
      simp only [call, Option.some.injEq] at h
      have := fgdbm_store_count_ok w k v hc
      rw [h] at this
      exact this
  · -- delete
    match argv, h with
    | [], h => rw [wrong_arity_some w w1 r h]; exact hc
    | _ :: _ :: _, h => rw [wrong_arity_some w w1 r h]; exact hc
    | [k], h =>
      simp only [call, Option.some.injEq] at h
      have := fgdbm_delete_count_ok blk hb w k hc
      rw [h] at this
      exact this
  · -- shift
    match argv, h with
    | _ :: _, h => rw [wrong_arity_some w w1 r h]; exact hc
    | [], h =>
      simp only [call, Option.some.injEq] at h
      have := fgdbm_shift_count_ok w hc
      rw [h] at this
      exact this
  · -- clear
    match argv, h with
    | _ :: _, h => rw [wrong_arity_some w w1 r h]; exact hc
    | [], h => exact fgdbm_clear_count_ok fuel w w1 r hc h
  · -- delete_if
    match argv, h with
    | _ :: _, h => rw [wrong_arity_some w w1 r h]; exact hc
    | [], h => exact fgdbm_delete_if_count_ok blk hb fuel w w1 r hc h
  · -- length
    match argv, h with
    | _ :: _, h => rw [wrong_arity_some w w1 r h]; exact hc
    | [], h => exact fgdbm_length_count_ok fuel w w1 r hc h
  · -- empty?
    match argv, h with
    | _ :: _, h => rw [wrong_arity_some w w1 r h]; exact hc
    | [], h =>
      simp only [call, Option.some.injEq] at h
      have := fgdbm_empty_p_same w
      rw [h] at this
      simp only at this
      rw [this]; exact hc

theorem Reach_count_ok {σ : Type} (w0 w : World σ) (h0 : count_ok w0) (hr : Reach w0 w) :
    count_ok w := by
  induction hr with
  | fresh => exact h0
  | step w w1 cfg op blk fuel argv r _ hop hb hcall ih =>
    exact call_count_ok cfg op blk fuel argv w w1 r hop hb ih hcall

theorem fgdbm_length_of_count_ok {σ : Type} (w : World σ) (n : Int) (dbm : GDBM_FILE)
    (fuel : Nat) (hwf : dbm.wf) (hn : n = -1 ∨ n = dbm.recs.length)
    (hfuel : dbm.recs.length < fuel) :
    fgdbm_length fuel (open_with w n dbm) =
      some (.ok (.fix dbm.recs.length), open_with w dbm.recs.length dbm) := by
  by_cases hpos : 0 < n
  · have hnl : n = dbm.recs.length := by
      rcases hn with hn | hn
      · omega
      · exact hn
    rw [fgdbm_length_open_cached w n dbm fuel hpos, hnl]
  · exact fgdbm_length_open_scan w n dbm fuel (by omega) hwf hfuel

theorem gdbm_store_new {dbm dbm1 : GDBM_FILE} {key val : datum}
    (h : gdbm_store dbm key val = .ok dbm1) (hn : key ∉ keys_of dbm.recs) :
    dbm1.recs.length = dbm.recs.length + 1 ∧
      ∀ k, k ∈ keys_of dbm1.recs ↔ k = key ∨ k ∈ keys_of dbm.recs := by
  have hp := (gdbm_store_facts h).2.2.2.2.2.2.2 hn
  refine ⟨by rw [hp.length_eq]; simp, ?_⟩
  intro k
  have := (hp.map Prod.fst).mem_iff (a := k)
  simp only [List.map_cons, List.mem_cons] at this
  exact this

/-- Three stores of distinct keys into an empty store and one delete of one
of the three leave two records for `length` to count. -/
theorem length_after_three_puts_one_delete {σ : Type} (w0 : World σ) (dbm0 : GDBM_FILE)
    (k1 k2 k3 v1 v2 v3 kd : datum) (t : Bool) (fuel : Nat)
    (hfresh : w0.obj.dptr = some { di_size := -1, di_dbm := some dbm0 }) (hwf0 : dbm0.wf)
    (hempty : dbm0.recs = []) (hwr : dbm0.writer = true) (hs : w0.safe_level < 4)
    (hf : w0.obj.frozen = false)
    (h12 : k1 ≠ k2) (h13 : k1 ≠ k3) (h23 : k2 ≠ k3) (hkd : kd = k1 ∨ kd = k2 ∨ kd = k3)
    (hfuel : 2 < fuel) :
    ∃ w5, fgdbm_length fuel
        (fgdbm_delete none
          (fgdbm_store
            (fgdbm_store (fgdbm_store w0 (.str k1 t) (.str v1 t)).2 (.str k2 t) (.str v2 t)).2
            (.str k3 t) (.str v3 t)).2
          (.str kd t)).2 = some (.ok (.fix 2), w5) := by
  obtain ⟨d1, hs1⟩ := gdbm_store_ok dbm0 k1 v1 hwr
  have n1 : k1 ∉ keys_of dbm0.recs := by rw [hempty]; simp [keys_of]
  obtain ⟨l1, m1⟩ := gdbm_store_new hs1 n1
  have hw1 := (gdbm_store_facts hs1).2.1
  have wf1 := gdbm_store_wf hs1 hwf0
  obtain ⟨d2, hs2⟩ := gdbm_store_ok d1 k2 v2 hw1
  have n2 : k2 ∉ keys_of d1.recs := by
    rw [m1, hempty]
    simp only [keys_of, List.map_nil, List.not_mem_nil, or_false]
    exact fun e => h12 e.symm
  obtain ⟨l2, m2⟩ := gdbm_store_new hs2 n2
  have hw2 := (gdbm_store_facts hs2).2.1
  have wf2 := gdbm_store_wf hs2 wf1
  obtain ⟨d3, hs3⟩ := gdbm_store_ok d2 k3 v3 hw2
  have n3 : k3 ∉ keys_of d2.recs := by
    rw [m2, m1, hempty]
    simp only [keys_of, List.map_nil, List.not_mem_nil, or_false, not_or]
    exact ⟨fun e => h23 e.symm, fun e => h13 e.symm⟩
  obtain ⟨l3, m3⟩ := gdbm_store_new hs3 n3
  have hw3 := (gdbm_store_facts hs3).2.1
  have wf3 := gdbm_store_wf hs3 wf2
  have hmem : kd ∈ keys_of d3.recs := by
    rw [m3, m2, m1]
    rcases hkd with e | e | e
    · exact Or.inr (Or.inr (Or.inl e))
    · exact Or.inr (Or.inl e)
    · exact Or.inl e
  have he : gdbm_exists d3 kd = true := (assoc_get_isSome_iff _ _).2 hmem
  obtain ⟨v, hv⟩ : ∃ v, gdbm_fetch d3 kd = some v := by
    unfold gdbm_exists at he
    unfold gdbm_fetch
    cases h : assoc_get kd d3.recs with
    | none => rw [h] at he; cases he
    | some v => exact ⟨v, rfl⟩
  have hd := gdbm_delete_ok d3 kd hw3 he
  generalize ({ d3 with recs := d3.settle kd (assoc_del kd d3.recs) } : GDBM_FILE) = d4 at hd
  have l4 := gdbm_delete_length hd wf3
  have wf4 := gdbm_delete_wf hd wf3
  have hlen : d4.recs.length = 2 := by
    rw [hempty] at l1
    simp only [List.length_nil] at l1
    omega
  rw [← open_with_self w0 (-1) dbm0 hfresh]
  rw [fgdbm_store_open w0 (-1) dbm0 d1 k1 v1 t t hs hf hs1]
  simp only
  rw [fgdbm_store_open w0 (-1) d1 d2 k2 v2 t t hs hf hs2]
  simp only
  rw [fgdbm_store_open w0 (-1) d2 d3 k3 v3 t t hs hf hs3]
  simp only [fgdbm_delete, fgdbm_fetch_open_present none w0 (-1) d3 kd v t .Qnil hv,
    rb_gdbm_delete_open w0 (-1) d3 d4 kd t hs hf hd]
  simp only [show ¬ (0 : Int) ≤ -1 by omega, if_false]
  rw [fgdbm_length_open_scan w0 (-1) d4 fuel (by omega) wf4 (by omega), hlen]
  exact ⟨_, rfl⟩

/-- C8. In every session reached from a freshly opened session (unknown
count, well-formed engine) by a finite sequence of `store`, `delete`,
`shift`, `clear`, `delete_if`, `length` and `empty?` calls whose blocks leave
the session alone, the cached count is `-1` or the number of live records,
and `length`, given fuel for one full scan, returns exactly the number of
live records and leaves it cached.  On a freshly opened empty store that is
`0`, and after three stores of distinct keys and one delete of one of them it
is `2`. -/
theorem C8_length_exact {σ : Type} (w0 w : World σ) (dbm0 : GDBM_FILE)
    (hfresh : w0.obj.dptr = some { di_size := -1, di_dbm := some dbm0 }) (hwf0 : dbm0.wf)
    (hr : Reach w0 w) :
    (∃ (n : Int) (dbm : GDBM_FILE),
      w.obj.dptr = some { di_size := n, di_dbm := some dbm } ∧
      (n = -1 ∨ n = dbm.recs.length) ∧
      ∀ fuel, dbm.recs.length < fuel →
        fgdbm_length fuel w =
          some (.ok (.fix dbm.recs.length), open_with w dbm.recs.length dbm)) ∧
    (dbm0.recs = [] → ∀ fuel, 0 < fuel →
      fgdbm_length fuel w0 = some (.ok (.fix 0), open_with w0 0 dbm0)) ∧
    (dbm0.recs = [] → dbm0.writer = true → w0.safe_level < 4 → w0.obj.frozen = false →
      ∀ (k1 k2 k3 v1 v2 v3 kd : datum) (t : Bool) (fuel : Nat),
        k1 ≠ k2 → k1 ≠ k3 → k2 ≠ k3 → kd = k1 ∨ kd = k2 ∨ kd = k3 → 2 < fuel →
        ∃ w5, fgdbm_length fuel
          (fgdbm_delete none
            (fgdbm_store
              (fgdbm_store (fgdbm_store w0 (.str k1 t) (.str v1 t)).2 (.str k2 t) (.str v2 t)).2
              (.str k3 t) (.str v3 t)).2
            (.str kd t)).2 = some (.ok (.fix 2), w5)) := by
  refine ⟨?_, ?_, ?_⟩
  · obtain ⟨n, dbm, h1, hwf, hn⟩ :=
      Reach_count_ok w0 w ⟨-1, dbm0, hfresh, hwf0, Or.inl rfl⟩ hr
    refine ⟨n, dbm, h1, hn, ?_⟩
    intro fuel hfuel
    have := fgdbm_length_of_count_ok w n dbm fuel hwf hn hfuel
    rw [open_with_self w n dbm h1] at this
    exact this
  · intro hempty fuel hfuel
    have := fgdbm_length_of_count_ok w0 (-1) dbm0 fuel hwf0 (Or.inl rfl)
      (by rw [hempty]; exact hfuel)
    rw [open_with_self w0 (-1) dbm0 hfresh, hempty] at this
    exact this
  · intro hempty hwr hs hf k1 k2 k3 v1 v2 v3 kd t fuel h12 h13 h23 hkd hfuel
    exact length_after_three_puts_one_delete w0 dbm0 k1 k2 k3 v1 v2 v3 kd t fuel hfresh hwf0
      hempty hwr hs hf h12 h13 h23 hkd hfuel

theorem sample_after_scenario_reach :
    Reach (sample_world [] true (-1)) sample_after_scenario :=
  Reach.step sample_s3 sample_after_scenario false .delete none 0 [.str [98] false]
    (.ok (.str [121] true))
    (Reach.step sample_s2 sample_s3 false .store none 0 [.str [99] false, .str [122] false]
      (.ok (.str [122] false))
      (Reach.step sample_s1 sample_s2 false .store none 0 [.str [98] false, .str [121] false]
        (.ok (.str [121] false))
        (Reach.step (sample_world [] true (-1)) sample_s1 false .store none 0
          [.str [97] false, .str [120] false] (.ok (.str [120] false))
          Reach.fresh (by decide) (fun _ h => by cases h) rfl)
        (by decide) (fun _ h => by cases h) rfl)
      (by decide) (fun _ h => by cases h) rfl)
    (by decide) (fun _ h => by cases h) rfl

/-- Witness of C8: the empty sample session after three stores and one
delete; `length` evaluates to `2` there. -/
theorem C8_length_exact_witness :
    (∃ (n : Int) (dbm : GDBM_FILE),
      sample_after_scenario.obj.dptr = some { di_size := n, di_dbm := some dbm } ∧
      (n = -1 ∨ n = dbm.recs.length) ∧
      ∀ fuel, dbm.recs.length < fuel →
        fgdbm_length fuel sample_after_scenario =
          some (.ok (.fix dbm.recs.length),
            open_with sample_after_scenario dbm.recs.length dbm)) ∧
    fgdbm_length 5 sample_after_scenario =
      some (.ok (.fix 2),
        open_with sample_after_scenario 2 (sample_dbm [([97], [120]), ([99], [122])] true)) :=
  ⟨(C8_length_exact (sample_world [] true (-1)) sample_after_scenario (sample_dbm [] true) rfl
      (sample_dbm_wf [] true (by decide)) sample_after_scenario_reach).1, rfl⟩

/-! ## `fetch` -/

theorem fgdbm_fetch_m_block {σ : Type} (b : Block σ) (keystr : VALUE) (w : World σ) :
    (match b keystr w with
      | (.error e, w1) => ((.error e : Except Exc VALUE), w1)
      | (.ok valstr, w1) => (.ok valstr, w1)) = b keystr w := by
  cases h : b keystr w with
  | mk r w1 => cases r <;> rfl

@[simp] theorem NIL_P_Qnil : NIL_P .Qnil = true := rfl

@[simp] theorem NIL_P_str (k : List Byte) (t : Bool) : NIL_P (.str k t) = false := rfl

/-- Counterexample to C11 as stated: the key `a` is absent, the default
argument `nil` is supplied together with a block; `fetch` returns the result
of the block, `z`, and not the supplied default. -/
theorem C11_counterexample :
    fgdbm_fetch_m (some answer_z) [.str [97] false, .Qnil] (sample_world [] true (-1)) =
      (.ok (.str [122] false), sample_world [] true (-1)) :=
  rfl

/-- C11, as amended. On an open session `fetch` returns the stored value when
the key is present.  When the key is absent it returns the supplied default
if that default is not nil (with or without a block); with a nil default or
no default it returns what the block returns if a block is given; with a nil
default and no block it returns nil; and with neither a default argument nor
a block it raises IndexError `key not found`, which it raises in no other
case.  `aref` of an absent key returns nil and does not raise. -/
theorem C11_fetch {σ : Type} (w : World σ) (n : Int) (dbm : GDBM_FILE) (k : List Byte)
    (tk : Bool) (hopen : w.obj.dptr = some { di_size := n, di_dbm := some dbm }) :
    (∀ v, gdbm_fetch dbm k = some v → ∀ (blk : Option (Block σ)) (d : VALUE),
      fgdbm_fetch_m blk [.str k tk] w = (.ok (.str v true), w) ∧
      fgdbm_fetch_m blk [.str k tk, d] w = (.ok (.str v true), w)) ∧
    (gdbm_fetch dbm k = none →
      (∀ (blk : Option (Block σ)) (d : VALUE), NIL_P d = false →
        fgdbm_fetch_m blk [.str k tk, d] w = (.ok d, w)) ∧
      fgdbm_fetch_m none [.str k tk, .Qnil] w = (.ok .Qnil, w) ∧
      (∀ b : Block σ,
        fgdbm_fetch_m (some b) [.str k tk, .Qnil] w = b (.str k tk) w ∧
        fgdbm_fetch_m (some b) [.str k tk] w = b (.str k tk) w) ∧
      fgdbm_fetch_m none [.str k tk] w = (.error (.IndexError "key not found"), w) ∧
      fgdbm_aref w (.str k tk) = (.ok .Qnil, w)) := by
  rw [← open_with_self w n dbm hopen]
  refine ⟨?_, ?_⟩
  · intro v hv blk d
    simp [fgdbm_fetch_m, fgdbm_fetch_open_present blk w n dbm k v tk _ hv, NIL_P]
  · intro hnone
    have h3 : rb_gdbm_fetch3 (open_with w n dbm) (.str k tk) = .ok .Qnil := by
      simp [rb_gdbm_fetch3, rb_gdbm_fetch2, StringValue, rb_gdbm_fetch, hnone]
    refine ⟨?_, ?_, ?_, ?_, ?_⟩
    · intro blk d hd
      simp [fgdbm_fetch_m, fgdbm_fetch, h3, hd]
    · simp [fgdbm_fetch_m, fgdbm_fetch, h3, NIL_P]
    · intro b
      refine ⟨?_, ?_⟩
      · simp only [fgdbm_fetch_m, fgdbm_fetch, h3, NIL_P, List.getD_cons_zero, rb_yield,
          Option.isSome_some, Bool.and_self, if_true, List.length_cons, List.length_nil]
        exact fgdbm_fetch_m_block b _ _
      · simp only [fgdbm_fetch_m, fgdbm_fetch, h3, NIL_P, List.getD_nil, rb_yield,
          Option.isSome_some, Bool.and_self, if_true, List.length_nil, Bool.not_true,
          Bool.and_false, Bool.false_and, Bool.false_eq_true, if_false]
        exact fgdbm_fetch_m_block b _ _
    · simp [fgdbm_fetch_m, fgdbm_fetch, h3, NIL_P]
    · simp [fgdbm_aref, h3]

/-- Witness of C11 on the sample session with the record `b => y`, for the
absent key `a`. -/
theorem C11_fetch_witness :
    fgdbm_fetch_m none [.str [97] false] (sample_world [([98], [121])] true (-1)) =
      (.error (.IndexError "key not found"), sample_world [([98], [121])] true (-1)) :=
  ((C11_fetch (sample_world [([98], [121])] true (-1)) (-1) (sample_dbm [([98], [121])] true)
    [97] false rfl).2 rfl).2.2.2.1

/-! ## `GDBM.open` with a block -/

theorem fgdbm_close_closed {σ : Type} (w : World σ) :
    fgdbm_closed (fgdbm_close w).2 = .Qtrue := by
  unfold fgdbm_close GetDBM fgdbm_closed
  cases hd : w.obj.dptr with
  | none => simp [hd]
  | some dbmp =>
    cases hg : dbmp.di_dbm with
    | none => simp [hd, hg]
    | some g => simp [hd, hg, set_di_dbm]

theorem rb_ensure_close {σ : Type} (b_proc : World σ → Except Exc VALUE × World σ)
    (w : World σ) :
    (rb_ensure b_proc fgdbm_close w).2 = (fgdbm_close (b_proc w).2).2 := by
  unfold rb_ensure
  cases hb : b_proc w with
  | mk r w1 =>
    simp only
    cases hc : fgdbm_close w1 with
    | mk r2 w2 => cases r2 <;> rfl

/-- C12. Whenever `GDBM.open` is called with a block and its `initialize`
opens the file, the session the block was given is closed when `GDBM.open`
finishes (`closed?` is true), whatever the block did and however it ended:
the block runs under `rb_ensure` with `fgdbm_close`.  When the block leaves
the session open, the call ends the way the block ended. -/
theorem C12_scoped_open_closes {σ : Type} (gdbm_open : Opener σ) (b : Block σ)
    (argv : List VALUE) (w w1 : World σ)
    (hinit : fgdbm_initialize gdbm_open argv
      { w with obj := { dptr := none, frozen := false } } = (.ok .data, w1)) :
    fgdbm_s_open gdbm_open (some b) argv w = rb_ensure (rb_yield (some b) .data) fgdbm_close w1 ∧
      fgdbm_closed (fgdbm_s_open gdbm_open (some b) argv w).2 = .Qtrue ∧
      (fgdbm_closed (b .data w1).2 = .Qfalse →
        (fgdbm_s_open gdbm_open (some b) argv w).1 = (b .data w1).1) := by
  have h1 : fgdbm_s_open gdbm_open (some b) argv w =
      rb_ensure (rb_yield (some b) .data) fgdbm_close w1 := by
    unfold fgdbm_s_open
    rw [hinit]
    rfl
  refine ⟨h1, ?_, ?_⟩
  · rw [h1, rb_ensure_close]
    exact fgdbm_close_closed _
  · intro hopen
    rw [h1]
    unfold rb_ensure rb_yield
    cases hb : b .data w1 with
    | mk r w2 =>
      rw [hb] at hopen
      simp only at hopen ⊢
      unfold fgdbm_closed at hopen
      unfold fgdbm_close GetDBM
      cases hd : w2.obj.dptr with
      | none => simp [hd] at hopen
      | some dbmp =>
        cases hg : dbmp.di_dbm with
        | none => simp [hd, hg] at hopen
        | some g => simp [hb, hd, hg]

/-- Witness of C12: the engine opens the file for `GDBM_WRCREAT` and the block
raises. -/
theorem C12_scoped_open_closes_witness :
    fgdbm_closed (fgdbm_s_open only_wrcreat (some raising_block) [.str [100] false]
      sample_unopened).2 = .Qtrue :=
  (C12_scoped_open_closes only_wrcreat raising_block [.str [100] false] sample_unopened _
    rfl).2.1

/-! ## `clear` -/

theorem key_after_some {k k2 : datum} {l : List (datum × datum)}
    (h : key_after k l = some k2) :
    k2 ∈ keys_of l ∧ ((keys_of l).Nodup → k2 ≠ k) := by
  induction l with
  | nil => simp [key_after] at h
  | cons a rest ih =>
    obtain ⟨k0, v0⟩ := a
    by_cases hk : k0 = k
    · subst hk
      simp only [key_after, if_true] at h
      cases rest with
      | nil => simp at h
      | cons b rest2 =>
        simp only [List.head?_cons, Option.map_some', Option.some.injEq] at h
        refine ⟨by simp [keys_of, h], ?_⟩
        intro nd e
        simp only [keys_of, List.map_cons, List.nodup_cons, List.mem_cons, not_or] at nd
        exact nd.1.1 (by rw [← e, h])
    · simp only [key_after, if_neg hk] at h
      obtain ⟨h1, h2⟩ := ih h
      refine ⟨by simp only [keys_of, List.map_cons, List.mem_cons]; exact Or.inr h1, ?_⟩
      intro nd
      simp only [keys_of, List.map_cons, List.nodup_cons] at nd
      exact h2 nd.2

theorem fgdbm_clear_inner_runs (fuel : Nat) :
    ∀ (dbm : GDBM_FILE) (key : Option datum), dbm.wf → dbm.writer = true →
      (∀ k, key = some k → k ∈ keys_of dbm.recs) → dbm.recs.length < fuel →
      ∃ d1 : GDBM_FILE, fgdbm_clear_inner fuel dbm key = some (.ok (), d1) ∧ d1.wf ∧
        d1.writer = true ∧ d1.recs.length ≤ dbm.recs.length ∧
        (key ≠ none → d1.recs.length < dbm.recs.length) := by
  induction fuel with
  | zero => intro dbm key _ _ _ h; omega
  | succ f ih =>
    intro dbm key hwf hwr hkey hfuel
    cases key with
    | none => exact ⟨dbm, rfl, hwf, hwr, le_refl _, fun h => absurd rfl h⟩
    | some k =>
      have hk : k ∈ keys_of dbm.recs := hkey k rfl
      have he : gdbm_exists dbm k = true := (assoc_get_isSome_iff _ _).2 hk
      have hd := gdbm_delete_ok dbm k hwr he
      generalize ({ dbm with recs := dbm.settle k (assoc_del k dbm.recs) } : GDBM_FILE) = d0 at hd
      have wf0 := gdbm_delete_wf hd hwf
      have hw0 := (gdbm_delete_facts hd).2.1
      have hl0 := gdbm_delete_length hd hwf
      have hnext : ∀ k2, gdbm_nextkey dbm k = some k2 → k2 ∈ keys_of d0.recs := by
        intro k2 h2
        obtain ⟨hm, hne⟩ := key_after_some h2
        exact mem_keys_after_delete hd hwf (hne hwf.1) hm
      obtain ⟨d1, hrun, wf1, hw1, hle, -⟩ := ih d0 (gdbm_nextkey dbm k) wf0 hw0 hnext (by omega)
      refine ⟨d1, ?_, wf1, hw1, by omega, fun _ => by omega⟩
      simp only [fgdbm_clear_inner, hd]
      exact hrun

theorem fgdbm_clear_outer_runs (fuel : Nat) :
    ∀ (dbm : GDBM_FILE), dbm.wf → dbm.writer = true → dbm.recs.length < fuel →
      ∃ d1 : GDBM_FILE, fgdbm_clear_outer fuel dbm = some (.ok (), d1) ∧ d1.recs = [] ∧
        d1.wf ∧ d1.writer = true := by
  induction fuel with
  | zero => intro dbm _ _ h; omega
  | succ f ih =>
    intro dbm hwf hwr hfuel
    cases hk : gdbm_firstkey dbm with
    | none =>
      refine ⟨dbm, ?_, gdbm_firstkey_eq_none dbm hk, hwf, hwr⟩
      simp only [fgdbm_clear_outer, hk]
    | some k =>
      have hmem : ∀ k2, some k = some k2 → k2 ∈ keys_of dbm.recs := by
        intro k2 e
        injection e with e
        subst e
        unfold gdbm_firstkey at hk
        cases hr : dbm.recs with
        | nil => simp [hr] at hk
        | cons a rest =>
          simp only [hr, List.head?_cons, Option.map_some', Option.some.injEq] at hk
          simp [keys_of, hk]
      obtain ⟨d0, hrun0, wf0, hw0, -, hlt⟩ :=
        fgdbm_clear_inner_runs (f + 1) dbm (some k) hwf hwr hmem hfuel
      have hlt2 := hlt (by simp)
      obtain ⟨d1, hrun1, he1, wf1, hw1⟩ := ih d0 wf0 hw0 (by omega)
      refine ⟨d1, ?_, he1, wf1, hw1⟩
      simp only [fgdbm_clear_outer, hk, hrun0]
      exact hrun1

/-- C13. On an open writable session with a well-formed engine (any traversal
order, any reordering of the records by a delete), `clear`, given fuel for
one pass over the records, returns the object: the loops end, the store has
no record left (`gdbm_firstkey` finds none) and the cached count is `0`.
Every step of the inner loop reads `gdbm_nextkey` on the handle as it is
before the delete of the current key and goes on with that key. -/
theorem C13_clear {σ : Type} (w : World σ) (n : Int) (dbm : GDBM_FILE) (fuel : Nat)
    (hopen : w.obj.dptr = some { di_size := n, di_dbm := some dbm })
    (hwr : dbm.writer = true) (hs : w.safe_level < 4) (hf : w.obj.frozen = false)
    (hwf : dbm.wf) (hfuel : dbm.recs.length < fuel) :
    (∃ d1 : GDBM_FILE,
      fgdbm_clear fuel w = some (.ok .data, open_with w 0 d1) ∧ d1.recs = [] ∧
        gdbm_firstkey d1 = none) ∧
    ∀ (f : Nat) (d : GDBM_FILE) (k : datum),
      fgdbm_clear_inner (f + 1) d (some k) =
        match gdbm_delete d k with
        | .error gdbm_errno => some (.error gdbm_errno, d)
        | .ok d1 => fgdbm_clear_inner f d1 (gdbm_nextkey d k) := by
  refine ⟨?_, fun f d k => rfl⟩
  obtain ⟨d1, hrun, hempty, -, -⟩ := fgdbm_clear_outer_runs fuel dbm hwf hwr hfuel
  refine ⟨d1, ?_, hempty, by simp [gdbm_firstkey, hempty]⟩
  rw [← open_with_self w n dbm hopen]
  simp [fgdbm_clear, rb_gdbm_modify_ok w hs hf, hrun]

/-- Witness of C13: three records in an engine that reverses the order of the
remaining records at every delete. -/
theorem C13_clear_witness :
    (∃ d1 : GDBM_FILE,
      fgdbm_clear 4 (shuffling_world [([97], [120]), ([98], [121]), ([99], [122])]) =
        some (.ok .data,
          open_with (shuffling_world [([97], [120]), ([98], [121]), ([99], [122])]) 0 d1) ∧
      d1.recs = [] ∧ gdbm_firstkey d1 = none) :=
  (C13_clear (shuffling_world [([97], [120]), ([98], [121]), ([99], [122])]) (-1)
    (shuffling_dbm [([97], [120]), ([98], [121]), ([99], [122])]) 4 rfl rfl (by decide) rfl
    ⟨by decide, fun _ l => List.reverse_perm l⟩ (by decide)).1

/-! ## `key` -/

theorem first_key_of_cons (val k v : datum) (rest : List (datum × datum)) :
    first_key_of val ((k, v) :: rest) = if v = val then some k else first_key_of val rest := by
  unfold first_key_of
  by_cases h : v = val
  · simp [List.filter_cons, h]
  · simp [List.filter_cons, h]

theorem first_key_of_split (val : datum) (l : List (datum × datum)) :
    (first_key_of val l = none ↔ val ∉ l.map Prod.snd) ∧
      ∀ k, first_key_of val l = some k →
        ∃ pre post, l = pre ++ (k, val) :: post ∧ val ∉ pre.map Prod.snd := by
  induction l with
  | nil => simp [first_key_of]
  | cons a rest ih =>
    obtain ⟨k0, v0⟩ := a
    rw [first_key_of_cons]
    by_cases h : v0 = val
    · subst h
      simp only [if_true, List.map_cons, List.mem_cons, true_or, not_true_eq_false, iff_false,
        Option.some.injEq]
      refine ⟨by simp, ?_⟩
      intro k hk
      subst hk
      exact ⟨[], rest, rfl, by simp⟩
    · simp only [h, if_false, List.map_cons, List.mem_cons]
      refine ⟨?_, ?_⟩
      · rw [ih.1]
        constructor
        · intro hn hor
          rcases hor with e | e
          · exact h e.symm
          · exact hn e
        · intro hn e
          exact hn (Or.inr e)
      · intro k hk
        obtain ⟨pre, post, e, hn⟩ := ih.2 k hk
        refine ⟨(k0, v0) :: pre, post, by simp [e], ?_⟩
        simp only [List.map_cons, List.mem_cons, not_or]
        exact ⟨fun e2 => h e2.symm, hn⟩

theorem same_bytes_str (val v : datum) (t : Bool) :
    same_bytes val (.str v t) = decide (v = val) := by
  unfold same_bytes
  by_cases h : v = val
  · subst h; simp
  · have h2 : ¬ val = v := fun e => h e.symm
    simp [h, h2]

theorem fgdbm_key_loop_suffix (dbm : GDBM_FILE) (nd : (keys_of dbm.recs).Nodup) (val : datum)
    (suf : List (datum × datum)) :
    ∀ (pre : List (datum × datum)) (fuel : Nat),
      dbm.recs = pre ++ suf → suf.length < fuel →
      fgdbm_key_loop dbm val fuel (key_value (cursor suf)) =
        some (.ok (key_value (first_key_of val suf))) := by
  induction suf with
  | nil =>
    intro pre fuel _ hf
    cases fuel with
    | zero => omega
    | succ f => simp [fgdbm_key_loop, cursor, key_value, first_key_of]
  | cons a rest ih =>
    intro pre fuel hrecs hf
    obtain ⟨k, v⟩ := a
    cases fuel with
    | zero => omega
    | succ f =>
      have hfetch := gdbm_fetch_split dbm pre rest k v hrecs nd
      simp only [fgdbm_key_loop, cursor, key_value, List.head?_cons, Option.map_some',
        rb_tainted_str_new, RTEST_str, if_true, rb_gdbm_fetch2, StringValue, rb_gdbm_fetch,
        hfetch, NIL_P_str, Bool.not_false, Bool.true_and, same_bytes_str, decide_eq_true_eq]
      rw [first_key_of_cons]
      by_cases h : v = val
      · simp [h, key_value, rb_tainted_str_new]
      · simp only [h, if_false]
        rw [rb_gdbm_nextkey_split dbm pre rest k v true hrecs nd]
        exact ih (pre ++ [(k, v)]) f (by simp [hrecs]) (by simpa using hf)

/-- C14. On an open session with a well-formed engine `key(v)`, given fuel for
one scan, returns the key of the first record in `firstkey` / `nextkey` order
whose value has exactly the bytes of `v`, and nil exactly when no record has
the value `v`; the session, store and cached count included, is the same
afterwards. -/
theorem C14_key {σ : Type} (w : World σ) (n : Int) (dbm : GDBM_FILE) (v : List Byte)
    (t : Bool) (fuel : Nat)
    (hopen : w.obj.dptr = some { di_size := n, di_dbm := some dbm })
    (hwf : dbm.wf) (hfuel : dbm.recs.length < fuel) :
    fgdbm_key fuel w (.str v t) = some (.ok (key_value (first_key_of v dbm.recs)), w) ∧
      (key_value (first_key_of v dbm.recs) = .Qnil ↔ v ∉ dbm.recs.map Prod.snd) ∧
      ∀ k, first_key_of v dbm.recs = some k →
        key_value (first_key_of v dbm.recs) = .str k true ∧
        ∃ pre post, dbm.recs = pre ++ (k, v) :: post ∧ v ∉ pre.map Prod.snd := by
  refine ⟨?_, ?_, ?_⟩
  · rw [← open_with_self w n dbm hopen]
    simp only [fgdbm_key, StringValue, GetDBM2_open_with, rb_gdbm_firstkey_eq]
    rw [fgdbm_key_loop_suffix dbm hwf.1 v dbm.recs [] fuel rfl hfuel]
    rfl
  · rw [← (first_key_of_split v dbm.recs).1]
    cases first_key_of v dbm.recs <;> simp [key_value, rb_tainted_str_new]
  · intro k hk
    refine ⟨by rw [hk]; rfl, (first_key_of_split v dbm.recs).2 k hk⟩

/-- Witness of C14: the value `x` is stored under `b` and under `c`, and `b`
comes first. -/
theorem C14_key_witness :
    fgdbm_key 5 (sample_world [([97], [121]), ([98], [120]), ([99], [120])] true (-1))
        (.str [120] false) =
      some (.ok (key_value (first_key_of [120]
          (sample_dbm [([97], [121]), ([98], [120]), ([99], [120])] true).recs)),
        sample_world [([97], [121]), ([98], [120]), ([99], [120])] true (-1)) :=
  (C14_key (sample_world [([97], [121]), ([98], [120]), ([99], [120])] true (-1)) (-1)
    (sample_dbm [([97], [121]), ([98], [120]), ([99], [120])] true) [120] false 5 rfl
    (sample_dbm_wf _ true (by decide)) (by decide)).1

/-! ## `fastmode=` and `syncmode=` -/

@[simp] theorem RTEST_Qfalse : RTEST .Qfalse = false := rfl

@[simp] theorem RTEST_Qtrue : RTEST .Qtrue = true := rfl

/-- C15, the code at its failing input. With `GDBM_SYNCMODE` defined,
`syncmode = val` sets the fast-write switch of the engine to the truth value
of `val` itself, exactly as `fastmode = val` does, while `fastmode = (not
val)` and `syncmode = val` without `GDBM_SYNCMODE` set it to the opposite
truth value: `syncmode = true` turns fast mode on in that build. -/
theorem C15_syncmode_defined_is_fastmode {σ : Type} (w : World σ) (n : Int) (dbm : GDBM_FILE)
    (val : VALUE) :
    fgdbm_set_syncmode true (open_with w n dbm) val =
        fgdbm_set_fastmode (open_with w n dbm) val ∧
      fast_write_of (fgdbm_set_syncmode true (open_with w n dbm) val).2 = some (RTEST val) ∧
      fast_write_of (fgdbm_set_fastmode (open_with w n dbm)
        (if RTEST val then .Qfalse else .Qtrue)).2 = some (!RTEST val) ∧
      fast_write_of (fgdbm_set_syncmode false (open_with w n dbm) val).2 =
        some (!RTEST val) ∧
      fast_write_of (fgdbm_set_syncmode true (sample_world [] true (-1)) .Qtrue).2 =
        some true ∧
      fast_write_of (fgdbm_set_fastmode (sample_world [] true (-1)) .Qfalse).2 =
        some false := by
  refine ⟨rfl, ?_, ?_, ?_, rfl, rfl⟩
  · by_cases h : RTEST val = true
    · simp [fgdbm_set_syncmode, gdbm_setopt_fastmode, fast_write_of, h]
    · simp [fgdbm_set_syncmode, gdbm_setopt_fastmode, fast_write_of, h]
  · by_cases h : RTEST val = true
    · simp [fgdbm_set_fastmode, gdbm_setopt_fastmode, fast_write_of, h]
    · simp [fgdbm_set_fastmode, gdbm_setopt_fastmode, fast_write_of, h]
  · by_cases h : RTEST val = true
    · simp [fgdbm_set_syncmode, fgdbm_set_fastmode, gdbm_setopt_fastmode, fast_write_of, h]
    · simp [fgdbm_set_syncmode, fgdbm_set_fastmode, gdbm_setopt_fastmode, fast_write_of, h]

/-! ## `keys` -/

theorem fgdbm_keys_loop_suffix (dbm : GDBM_FILE) (nd : (keys_of dbm.recs).Nodup)
    (suf : List (datum × datum)) :
    ∀ (pre : List (datum × datum)) (fuel : Nat) (ary : List VALUE),
      dbm.recs = pre ++ suf → suf.length < fuel →
      fgdbm_keys_loop dbm fuel (key_value (cursor suf)) ary =
        some (ary ++ (keys_of suf).map rb_tainted_str_new) := by
  induction suf with
  | nil =>
    intro pre fuel ary _ hf
    cases fuel with
    | zero => omega
    | succ f => simp [fgdbm_keys_loop, cursor, key_value, keys_of]
  | cons a rest ih =>
    intro pre fuel ary hrecs hf
    obtain ⟨k, v⟩ := a
    cases fuel with
    | zero => omega
    | succ f =>
      simp only [fgdbm_keys_loop, cursor, key_value, List.head?_cons, Option.map_some',
        rb_tainted_str_new, RTEST_str, if_true]
      rw [rb_gdbm_nextkey_split dbm pre rest k v true hrecs nd]
      rw [ih (pre ++ [(k, v)]) f _ (by simp [hrecs]) (by simpa using hf)]
      simp [keys_of, rb_tainted_str_new]

theorem fgdbm_keys_open {σ : Type} (w : World σ) (n : Int) (dbm : GDBM_FILE) (fuel : Nat)
    (hwf : dbm.wf) (hfuel : dbm.recs.length < fuel) :
    fgdbm_keys fuel (open_with w n dbm) =
      some (.ok (.ary ((keys_of dbm.recs).map rb_tainted_str_new)), open_with w n dbm) := by
  simp only [fgdbm_keys, GetDBM2_open_with, rb_gdbm_firstkey_eq]
  rw [fgdbm_keys_loop_suffix dbm hwf.1 dbm.recs [] fuel [] rfl hfuel]
  rfl

theorem mem_keys_gdbm_store {dbm dbm1 : GDBM_FILE} {key val : datum}
    (h : gdbm_store dbm key val = .ok dbm1) (k : datum) :
    k ∈ keys_of dbm1.recs ↔ k = key ∨ k ∈ keys_of dbm.recs := by
  by_cases hm : key ∈ keys_of dbm.recs
  · rw [(gdbm_store_facts h).2.2.2.2.2.2.1 hm, keys_of_assoc_set]
    constructor
    · exact fun h1 => Or.inr h1
    · rintro (e | e)
      · rw [e]; exact hm
      · exact e
  · exact (gdbm_store_new h hm).2 k

theorem mem_keys_gdbm_delete {dbm dbm1 : GDBM_FILE} {key : datum}
    (h : gdbm_delete dbm key = .ok dbm1) (hwf : dbm.wf) (k : datum) :
    k ∈ keys_of dbm1.recs ↔ k ≠ key ∧ k ∈ keys_of dbm.recs := by
  have hp := (gdbm_delete_perm h hwf).map Prod.fst
  unfold keys_of
  rw [hp.mem_iff]
  simp only [List.mem_map, mem_assoc_del]
  constructor
  · rintro ⟨r, ⟨hr, hne⟩, e⟩
    exact ⟨by rw [← e]; exact hne, r, hr, e⟩
  · rintro ⟨hne, r, hr, e⟩
    exact ⟨r, ⟨hr, by rw [e]; exact hne⟩, e⟩

/-- The store after a sequence of edits on a writable session holds exactly
the keys that were put and not deleted afterwards. -/
theorem run_edits_live {σ : Type} (es : List Edit) :
    ∀ (w : World σ) (n : Int) (dbm : GDBM_FILE), dbm.wf → dbm.writer = true →
      w.safe_level < 4 → w.obj.frozen = false →
      ∃ (n1 : Int) (dbm1 : GDBM_FILE),
        run_edits (open_with w n dbm) es = open_with w n1 dbm1 ∧ dbm1.wf ∧
        ∀ k, k ∈ keys_of dbm1.recs ↔
          live_after k (decide (k ∈ keys_of dbm.recs)) es = true := by
  induction es with
  | nil =>
    intro w n dbm hwf _ _ _
    exact ⟨n, dbm, rfl, hwf, fun k => by simp [live_after]⟩
  | cons e rest ih =>
    intro w n dbm hwf hwr hs hf
    cases e with
    | put k v =>
      obtain ⟨d1, h1⟩ := gdbm_store_ok dbm k v hwr
      have hstep : run_edit (open_with w n dbm) (.put k v) = open_with w (-1) d1 := by
        simp only [run_edit, fgdbm_store_open w n dbm d1 k v false false hs hf h1]
      obtain ⟨n2, d2, hrun, wf2, hlive⟩ :=
        ih w (-1) d1 (gdbm_store_wf h1 hwf) (gdbm_store_facts h1).2.1 hs hf
      refine ⟨n2, d2, ?_, wf2, ?_⟩
      · simp only [run_edits, List.foldl_cons, hstep]
        exact hrun
      · intro k2
        rw [hlive k2]
        simp only [live_after]
        by_cases e : k = k2
        · subst e
          simp [mem_keys_gdbm_store h1]
        · have e2 : ¬ k2 = k := fun h => e h.symm
          simp [mem_keys_gdbm_store h1, e, e2]
    | del k =>
      by_cases he : gdbm_exists dbm k = true
      · have hd := gdbm_delete_ok dbm k hwr he
        generalize ({ dbm with recs := dbm.settle k (assoc_del k dbm.recs) } : GDBM_FILE) = d1
          at hd
        obtain ⟨v, hv⟩ : ∃ v, gdbm_fetch dbm k = some v := by
          unfold gdbm_exists at he
          unfold gdbm_fetch
          cases h : assoc_get k dbm.recs with
          | none => rw [h] at he; cases he
          | some v => exact ⟨v, rfl⟩
        have hstep : run_edit (open_with w n dbm) (.del k) =
            open_with w (if 0 ≤ n then n - 1 else n) d1 := by
          simp only [run_edit, fgdbm_delete,
            fgdbm_fetch_open_present none w n dbm k v false .Qnil hv,
            rb_gdbm_delete_open w n dbm d1 k false hs hf hd]
        obtain ⟨n2, d2, hrun, wf2, hlive⟩ :=
          ih w (if 0 ≤ n then n - 1 else n) d1 (gdbm_delete_wf hd hwf)
            (gdbm_delete_facts hd).2.1 hs hf
        refine ⟨n2, d2, ?_, wf2, ?_⟩
        · simp only [run_edits, List.foldl_cons, hstep]
          exact hrun
        · intro k2
          rw [hlive k2]
          simp only [live_after]
          by_cases e : k = k2
          · subst e
            simp [mem_keys_gdbm_delete hd hwf]
          · have e2 : ¬ k2 = k := fun h => e h.symm
            simp [mem_keys_gdbm_delete hd hwf, e, e2]
      · have he2 : gdbm_exists dbm k = false := by simpa using he
        have hnone : gdbm_fetch dbm k = none := by
          unfold gdbm_exists at he2
          unfold gdbm_fetch
          cases h : assoc_get k dbm.recs with
          | none => rfl
          | some v => rw [h] at he2; cases he2
        have hstep : run_edit (open_with w n dbm) (.del k) = open_with w n dbm := by
          simp [run_edit, fgdbm_delete, fgdbm_fetch, rb_gdbm_fetch3, rb_gdbm_fetch2, StringValue,
            rb_gdbm_fetch, hnone, rb_gdbm_delete_open_absent w n dbm k false hs hf he2]
        obtain ⟨n2, d2, hrun, wf2, hlive⟩ := ih w n dbm hwf hwr hs hf
        refine ⟨n2, d2, ?_, wf2, ?_⟩
        · simp only [run_edits, List.foldl_cons, hstep]
          exact hrun
        · intro k2
          rw [hlive k2]
          simp only [live_after]
          by_cases e : k = k2
          · subst e
            have : k ∉ keys_of dbm.recs := by
              rw [← assoc_get_eq_none_iff]
              exact hnone
            simp [this]
          · simp [e]

/-- C16. On an open writable session, after any sequence of `store` and
`delete` calls, `keys`, given fuel for one scan, returns the keys of the
store as tainted Strings in `firstkey` / `nextkey` order (the first is
`gdbm_firstkey`, and `gdbm_nextkey` of each key is the key after it), with no
key twice, and a key is in the list exactly when it was put and not
subsequently deleted (`live_after`); the session is the same afterwards. -/
theorem C16_keys {σ : Type} (w : World σ) (n : Int) (dbm : GDBM_FILE) (es : List Edit)
    (hopen : w.obj.dptr = some { di_size := n, di_dbm := some dbm })
    (hwr : dbm.writer = true) (hs : w.safe_level < 4) (hf : w.obj.frozen = false)
    (hwf : dbm.wf) :
    ∃ (n1 : Int) (dbm1 : GDBM_FILE),
      (run_edits w es).obj.dptr = some { di_size := n1, di_dbm := some dbm1 } ∧
      (∀ fuel, dbm1.recs.length < fuel →
        fgdbm_keys fuel (run_edits w es) =
          some (.ok (.ary ((keys_of dbm1.recs).map rb_tainted_str_new)), run_edits w es)) ∧
      (keys_of dbm1.recs).Nodup ∧
      (∀ k, k ∈ keys_of dbm1.recs ↔ live_after k (decide (k ∈ keys_of dbm.recs)) es = true) ∧
      gdbm_firstkey dbm1 = (keys_of dbm1.recs).head? ∧
      ∀ pre k post, keys_of dbm1.recs = pre ++ k :: post → gdbm_nextkey dbm1 k = post.head? := by
  obtain ⟨n1, d1, hrun, wf1, hlive⟩ := run_edits_live es w n dbm hwf hwr hs hf
  rw [open_with_self w n dbm hopen] at hrun
  refine ⟨n1, d1, by rw [hrun]; rfl, ?_, wf1.1, hlive, ?_, ?_⟩
  · intro fuel hfuel
    rw [hrun]
    exact fgdbm_keys_open w n1 d1 fuel wf1 hfuel
  · simp [gdbm_firstkey, keys_of]
  · intro pre k post hsplit
    unfold keys_of at hsplit
    obtain ⟨l1, l2, hl, h1, h2⟩ := List.map_eq_append_iff.1 hsplit
    obtain ⟨r, l3, hl2, hr, h3⟩ := List.map_eq_cons_iff.1 h2
    obtain ⟨k0, v0⟩ := r
    simp only at hr
    subst hr
    rw [hl2] at hl
    rw [gdbm_nextkey_split d1 l1 l3 k0 v0 hl wf1.1, ← h3]
    simp [cursor]

/-- Witness of C16: `a` and `b` are put into the empty sample store and `a`
is deleted again. -/
theorem C16_keys_witness :
    ∃ (n1 : Int) (dbm1 : GDBM_FILE),
      (run_edits (sample_world [] true (-1))
        [.put [97] [120], .put [98] [121], .del [97]]).obj.dptr =
          some { di_size := n1, di_dbm := some dbm1 } ∧
      (∀ fuel, dbm1.recs.length < fuel →
        fgdbm_keys fuel (run_edits (sample_world [] true (-1))
            [.put [97] [120], .put [98] [121], .del [97]]) =
          some (.ok (.ary ((keys_of dbm1.recs).map rb_tainted_str_new)),
            run_edits (sample_world [] true (-1))
              [.put [97] [120], .put [98] [121], .del [97]])) ∧
      (keys_of dbm1.recs).Nodup ∧
      (∀ k, k ∈ keys_of dbm1.recs ↔
        live_after k (decide (k ∈ keys_of (sample_dbm [] true).recs))
          [.put [97] [120], .put [98] [121], .del [97]] = true) ∧
      gdbm_firstkey dbm1 = (keys_of dbm1.recs).head? ∧
      ∀ pre k post, keys_of dbm1.recs = pre ++ k :: post → gdbm_nextkey dbm1 k = post.head? :=
  C16_keys (sample_world [] true (-1)) (-1) (sample_dbm [] true)
    [.put [97] [120], .put [98] [121], .del [97]] rfl rfl (by decide) rfl
    (sample_dbm_wf [] true (by decide))

/-! ## `rb_gdbm_delete` -/

/-- C17. On an open session whose object passes `rb_gdbm_modify`, the
low-level delete of a key `k`: when `k` is absent it returns nil and leaves
the session, store and cached count included, as it is; when `k` is present
and `gdbm_delete` succeeds it returns the object, the store loses exactly the
record of `k` (every other key keeps its value, the store is one record
shorter) and the cached count goes down by one when it was `>= 0` and stays
as it is when it was negative (unknown); when `gdbm_delete` fails it raises
GDBMError with the engine's error code, the store is unchanged and the
cached count is `-1`. -/
theorem C17_rb_gdbm_delete {σ : Type} (w : World σ) (n : Int) (dbm : GDBM_FILE)
    (k : List Byte) (tk : Bool)
    (hopen : w.obj.dptr = some { di_size := n, di_dbm := some dbm })
    (hs : w.safe_level < 4) (hf : w.obj.frozen = false) (hwf : dbm.wf) :
    (gdbm_exists dbm k = false → rb_gdbm_delete w (.str k tk) = (.ok .Qnil, w)) ∧
    (∀ dbm1, gdbm_exists dbm k = true → gdbm_delete dbm k = .ok dbm1 →
      rb_gdbm_delete w (.str k tk) =
        (.ok .data, open_with w (if 0 ≤ n then n - 1 else n) dbm1) ∧
      gdbm_fetch dbm1 k = none ∧
      (∀ k2, k2 ≠ k → gdbm_fetch dbm1 k2 = gdbm_fetch dbm k2) ∧
      dbm1.recs.length + 1 = dbm.recs.length ∧
      (n = -1 → (if 0 ≤ n then n - 1 else n) = -1)) ∧
    (∀ c, gdbm_exists dbm k = true → gdbm_delete dbm k = .error c →
      rb_gdbm_delete w (.str k tk) = (.error (.GDBMError c), open_with w (-1) dbm)) := by
  refine ⟨?_, ?_, ?_⟩
  · intro he
    have := rb_gdbm_delete_open_absent w n dbm k tk hs hf he
    rw [open_with_self w n dbm hopen] at this
    exact this
  · intro dbm1 _ hd
    refine ⟨?_, gdbm_delete_fetch_self hd hwf,
      fun k2 hne => gdbm_delete_fetch_other k2 hd hwf hne, gdbm_delete_length hd hwf, ?_⟩
    · have := rb_gdbm_delete_open w n dbm dbm1 k tk hs hf hd
      rw [open_with_self w n dbm hopen] at this
      exact this
    · intro hn
      rw [hn]
      rfl
  · intro c he hd
    rw [← open_with_self w n dbm hopen]
    simp [rb_gdbm_delete, rb_gdbm_modify_ok w hs hf, StringValue, he, hd]

/-- Witness of C17: the record `a => x` is deleted from a session whose
cached count is `2`. -/
theorem C17_rb_gdbm_delete_witness :
    rb_gdbm_delete (sample_world [([97], [120]), ([98], [121])] true 2) (.str [97] false) =
      (.ok .data,
        open_with (sample_world [([97], [120]), ([98], [121])] true 2)
          (if (0 : Int) ≤ 2 then 2 - 1 else 2) (sample_dbm [([98], [121])] true)) :=
  ((C17_rb_gdbm_delete (sample_world [([97], [120]), ([98], [121])] true 2) 2
    (sample_dbm [([97], [120]), ([98], [121])] true) [97] false rfl (by decide) rfl
    (sample_dbm_wf _ true (by decide))).2.1 (sample_dbm [([98], [121])] true) rfl rfl).1

/-! ## The cached count after `initialize` -/

theorem first_success_ok {σ : Type} (gdbm_open : Opener σ) (name : datum)
    (plan : List (Nat × Int)) :
    ∀ (e : σ) (d : GDBM_FILE), (first_success gdbm_open name plan e).1 = .ok d →
      ∃ flags mode e1, (gdbm_open name MY_BLOCK_SIZE flags mode e1).1 = .ok d := by
  induction plan with
  | nil => intro e d h; simp [first_success] at h
  | cons a rest ih =>
    intro e d h
    obtain ⟨flags, mode⟩ := a
    cases rest with
    | nil => exact ⟨flags, mode, e, h⟩
    | cons b rest2 =>
      simp only [first_success] at h
      cases ho : gdbm_open name MY_BLOCK_SIZE flags mode e with
      | mk r e1 =>
        rw [ho] at h
        cases r with
        | ok d1 =>
          simp only at h
          exact ⟨flags, mode, e, by rw [ho]; exact h⟩
        | error c => exact ih e1 d h

theorem fgdbm_initialize_finish_data {σ : Type} (w w0 : World σ) (mode : Int)
    (r : Except (Nat × Int) GDBM_FILE)
    (h : fgdbm_initialize_finish w mode r = (.ok .data, w0)) :
    ∃ d, r = .ok d ∧ w0.obj.dptr = some { di_size := -1, di_dbm := some d } := by
  unfold fgdbm_initialize_finish at h
  cases r with
  | error c =>
    simp only at h
    split at h
    · simp at h
    · split at h <;> simp at h
  | ok d =>
    simp only [Prod.mk.injEq, true_and] at h
    exact ⟨d, rfl, by rw [← h]⟩

/-- A successful `initialize` leaves the object open on a handle the engine
returned, with an unknown count. -/
theorem fgdbm_initialize_ok_data {σ : Type} (gdbm_open : Opener σ) (argv : List VALUE)
    (w w0 : World σ) (h : fgdbm_initialize gdbm_open argv w = (.ok .data, w0)) :
    ∃ d name flags mode e1, (gdbm_open name MY_BLOCK_SIZE flags mode e1).1 = .ok d ∧
      w0.obj.dptr = some { di_size := -1, di_dbm := some d } := by
  unfold fgdbm_initialize at h
  split at h
  · simp at h
  · simp at h
  · simp only at h
    split at h
    · simp at h
    · split at h
      · simp at h
      · split at h
        · simp at h
        · rename_i name _
          rw [fgdbm_initialize_open_eq] at h
          obtain ⟨d, hd, hw0⟩ := fgdbm_initialize_finish_data _ _ _ _ h
          obtain ⟨flags, mode, e1, ho⟩ := first_success_ok gdbm_open name _ _ d hd
          exact ⟨d, name, flags, mode, e1, ho, hw0⟩

/-- C18. Cached-count invariant: when the engine hands out well-formed
handles, in every session reached from a successful `initialize` by a finite
sequence of `store`, `delete`, `shift`, `delete_if`, `clear`, `length` and
`empty?` calls that come back, normally or with an error, with blocks that
leave the session alone (whether they return or raise), the session is open
and `di_size` is `-1` or exactly the number of live records. -/
theorem C18_cached_count_invariant {σ : Type} (gdbm_open : Opener σ) (argv : List VALUE)
    (wpre w0 w : World σ)
    (hengine : ∀ name bs flags mode e d, (gdbm_open name bs flags mode e).1 = .ok d → d.wf)
    (hopen : fgdbm_initialize gdbm_open argv wpre = (.ok .data, w0))
    (hr : Reach w0 w) :
    ∃ (n : Int) (dbm : GDBM_FILE),
      w.obj.dptr = some { di_size := n, di_dbm := some dbm } ∧
        (n = -1 ∨ n = dbm.recs.length) := by
  obtain ⟨d, name, flags, mode, e1, ho, hw0⟩ :=
    fgdbm_initialize_ok_data gdbm_open argv wpre w0 hopen
  have h0 : count_ok w0 := ⟨-1, d, hw0, hengine _ _ _ _ _ _ ho, Or.inl rfl⟩
  obtain ⟨n, dbm, h1, -, hn⟩ := Reach_count_ok w0 w h0 hr
  exact ⟨n, dbm, h1, hn⟩

theorem only_wrcreat_wf (name : datum) (bs flags : Nat) (mode : Int) (e : List (Nat × Int))
    (d : GDBM_FILE) (h : (only_wrcreat name bs flags mode e).1 = .ok d) : d.wf := by
  unfold only_wrcreat at h
  split at h
  · simp only [Except.ok.injEq] at h
    rw [← h]
    exact sample_dbm_wf [] true (by decide)
  · simp at h

theorem sample_opened_2_reach : Reach sample_opened sample_opened_2 :=
  Reach.step sample_opened_1 sample_opened_2 false .delete_if (some raising_block) 5 []
    (.error (.thrown 1))
    (Reach.step sample_opened sample_opened_1 false .store none 0
      [.str [97] false, .str [120] false] (.ok (.str [120] false))
      Reach.fresh (by decide) (fun _ h => by cases h) rfl)
    (by decide)
    (fun b h => by
      injection h with h
      subst h
      exact fun _ _ => ⟨rfl, rfl⟩)
    rfl

/-- Witness of C18: a session opened against `only_wrcreat`, after a `store`
and a `delete_if` that ends with the exception of its block. -/
theorem C18_cached_count_invariant_witness :
    ∃ (n : Int) (dbm : GDBM_FILE),
      sample_opened_2.obj.dptr = some { di_size := n, di_dbm := some dbm } ∧
        (n = -1 ∨ n = dbm.recs.length) :=
  C18_cached_count_invariant only_wrcreat [.str [100] false, .fix 438] sample_unopened
    sample_opened sample_opened_2 only_wrcreat_wf rfl sample_opened_2_reach

end Gdbm
